import Mathlib

/-!
# Verification of the `pj` JSON pretty-printer

A shallow embedding of `src/main.go`: the width-aware layout engine
(`formatIndent` / `formatArray` / `formatObject`), the compact one-line
renderer (`formatOneLine` / `formatArrayOneLine` / `formatObjectOneLine`),
and the output loop (`encodeJSON`), together with theorems settling the
specification's claims about them.

Go byte strings are modelled as Lean `String`s and Go's `len` as the UTF-8
byte count `byteLen`.  A decoded document (`interface{}` holding the values
`encoding/json` produces) is the inductive `JValue`.
-/

namespace PJ

/-- Go `len(s)` of a string: the number of bytes of its UTF-8 encoding. -/
def byteLen (s : String) : Nat :=
  (s.data.map Char.utf8Size).sum

/-- `strings.Repeat(" ", n)`. -/
def spaces (n : Nat) : String :=
  String.mk (List.replicate n ' ')

/-- `strings.Join(bits, sep)`: the pieces joined with `sep` between them. -/
def joinSep (sep : String) : List String → String
  | [] => ""
  | [x] => x
  | x :: y :: xs => x ++ sep ++ joinSep sep (y :: xs)

/-- The `suffix` logic of the block renderers (src/main.go:112-115, 152-155):
every element line except the last gets a trailing `","`. -/
def addCommas : List String → List String
  | [] => []
  | [x] => [x]
  | x :: y :: xs => (x ++ ",") :: addCommas (y :: xs)

/-- Lowercase hexadecimal digit, as `encoding/json` uses in `\u00xx` escapes. -/
def hexDigit (n : Nat) : Char :=
  if n < 10 then Char.ofNat ('0'.toNat + n) else Char.ofNat ('a'.toNat + (n - 10))

/-- The escaping `json.Marshal` applies to one character of a string
(`encoding/json` with its default HTML escaping): quote, backslash and the
three HTML-active characters are escaped, control characters get `\n`, `\r`,
`\t` or a `\u00xx` escape, U+2028/U+2029 get ` `/` `, and every
other character is emitted verbatim. -/
def escapeChar (c : Char) : List Char :=
  if c = '"' then ['\\', '"']
  else if c = '\\' then ['\\', '\\']
  else if c = '\n' then ['\\', 'n']
  else if c = '\r' then ['\\', 'r']
  else if c = '\t' then ['\\', 't']
  else if c = '<' then ['\\', 'u', '0', '0', '3', 'c']
  else if c = '>' then ['\\', 'u', '0', '0', '3', 'e']
  else if c = '&' then ['\\', 'u', '0', '0', '2', '6']
  else if c.toNat < 0x20 then ['\\', 'u', '0', '0', hexDigit (c.toNat / 16), hexDigit (c.toNat % 16)]
  else if c.toNat = 0x2028 then ['\\', 'u', '2', '0', '2', '8']
  else if c.toNat = 0x2029 then ['\\', 'u', '2', '0', '2', '9']
  else [c]

/-- `json.Marshal` of a Go string: the JSON string literal, quoted and
escaped per `escapeChar`. -/
def quoteString (s : String) : String :=
  String.mk ('"' :: (s.data.map escapeChar).flatten ++ ['"'])

/-- A JSON number as decoded by `encoding/json` into a Go `float64`.
`val` is the exact rational value of that float (every finite `float64` is a
rational), and `lit` is the text `json.Marshal` produces for it (the shortest
round-tripping decimal, e.g. `"3.7"`), carried as data because binary
floating-point formatting belongs to the out-of-scope collaborators, not to
the formatter under verification.  Negative zero is not distinguished. -/
structure JNumber where
  val : Rat
  lit : String
deriving DecidableEq, Repr

/-- Round to the nearest integer, ties to even: the rounding that
`fmt.Sprintf("%.f", v)` applies to the exact value of its argument.  Written
over the numerator and denominator (`q.num.fdiv q.den` is `⌊q⌋`, and
`2*(q.num - ⌊q⌋*q.den) < q.den` says the fractional part is below `1/2`) so
that it evaluates inside the kernel. -/
def roundHalfEven (q : Rat) : Int :=
  let f := q.num.fdiv q.den
  if 2 * (q.num - f * q.den) < (q.den : Int) then f
  else if (q.den : Int) < 2 * (q.num - f * q.den) then f + 1
  else if f % 2 = 0 then f else f + 1

/-- `fmt.Sprintf("%.f", v)` (src/main.go:82): the float as a decimal integer,
rounded to nearest with ties to even, no decimal point and no exponent; `fmt`
keeps the sign, so a negative value that rounds to zero prints `"-0"`. -/
def fmtFixed (n : JNumber) : String :=
  if roundHalfEven n.val = 0 ∧ n.val < 0 then "-0"
  else toString (roundHalfEven n.val)

/-- A decoded JSON document: the closed set of values `encoding/json` stores
in an `interface{}` (`nil`, `bool`, `float64`, `string`, `[]interface{}`,
`map[string]interface{}`).  An object is carried as the list of its entries
in the order the Go map happens to iterate them; a Go map records no
insertion order and fixes no iteration order, so this list's order is
arbitrary data, and its keys are distinct for any value the decoder
actually produces. -/
inductive JValue where
  | null
  | bool (b : Bool)
  | num (n : JNumber)
  | str (s : String)
  | arr (elems : List JValue)
  | obj (entries : List (String × JValue))

/-- The formatting options: the `-width`, `-indent` and `-sort_keys` flags. -/
structure Opts where
  width : Nat
  indent : Nat
  sortKeys : Bool
deriving DecidableEq, Repr

/-- The comparison `sort.Strings` sorts by: lexicographic order on the
text.  (Go compares the UTF-8 bytes; UTF-8 is order-preserving, so byte-wise
and codepoint-wise lexicographic order agree.) -/
def lexLe : List Char → List Char → Bool
  | [], _ => true
  | _ :: _, [] => false
  | a :: as, b :: bs => if a < b then true else if b < a then false else lexLe as bs

/-- `a <= b` for `sort.Strings`. -/
def strLe (a b : String) : Bool := lexLe a.data b.data

def insertSorted (x : String) : List String → List String
  | [] => [x]
  | y :: ys => if strLe x y then x :: y :: ys else y :: insertSorted x ys

/-- `sort.Strings` (src/main.go:135, 209): the keys in ascending
lexicographic order.  (Go uses an unstable quicksort; since a map's keys are
distinct, any comparison sort produces the same list, and insertion sort is
used here because it evaluates inside the kernel.) -/
def sortStrings : List String → List String
  | [] => []
  | x :: xs => insertSorted x (sortStrings xs)

theorem insertSorted_perm (x : String) (l : List String) :
    List.Perm (insertSorted x l) (x :: l) := by
  induction l with
  | nil => rfl
  | cons y ys ih =>
    rw [insertSorted]
    split
    · rfl
    · exact (List.Perm.cons y ih).trans (List.Perm.swap x y ys)

theorem sortStrings_perm (l : List String) : List.Perm (sortStrings l) l := by
  induction l with
  | nil => rfl
  | cons x xs ih => exact (insertSorted_perm x (sortStrings xs)).trans (ih.cons x)

/-- The key enumeration of `formatObject`/`formatObjectOneLine`
(src/main.go:128-136, 202-210): collect the map's keys in iteration order,
then `sort.Strings` them when `-sort_keys` is set. -/
def orderKeys (sk : Bool) (m : List (String × JValue)) : List String :=
  if sk then sortStrings (m.map Prod.fst) else m.map Prod.fst

/-- Go map indexing `v := m[k]` (src/main.go:140, 213): the entry's value, or
the zero value `nil` (JSON `null`) when the key is absent — which it never is
for keys taken from the map itself. -/
def mapGet (m : List (String × JValue)) (k : String) : JValue :=
  (m.lookup k).getD JValue.null

theorem mem_orderKeys {sk : Bool} {m : List (String × JValue)} {k : String} :
    k ∈ orderKeys sk m ↔ k ∈ m.map Prod.fst := by
  unfold orderKeys
  split
  · exact (sortStrings_perm (m.map Prod.fst)).mem_iff
  · exact Iff.rfl

theorem sizeOf_mapGet_of_mem {m : List (String × JValue)} {k : String}
    (h : k ∈ m.map Prod.fst) : sizeOf (mapGet m k) < sizeOf m := by
  induction m with
  | nil => simp at h
  | cons a t ih =>
    obtain ⟨k', v⟩ := a
    by_cases hk : k = k'
    · subst hk
      simp only [mapGet, List.lookup, beq_self_eq_true, Option.getD_some]
      simp only [List.cons.sizeOf_spec, Prod.mk.sizeOf_spec]
      omega
    · have hbeq : (k == k') = false := beq_eq_false_iff_ne.mpr hk
      simp only [List.map_cons, List.mem_cons] at h
      have h' : k ∈ t.map Prod.fst := by
        rcases h with h | h
        · exact absurd h hk
        · exact h
      have := ih h'
      simp only [mapGet, List.lookup, hbeq] at *
      simp only [List.cons.sizeOf_spec]
      omega

theorem sizeOf_mapGet_of_mem_orderKeys {sk : Bool} {m : List (String × JValue)}
    {k : String} (h : k ∈ orderKeys sk m) : sizeOf (mapGet m k) < sizeOf m :=
  sizeOf_mapGet_of_mem (mem_orderKeys.mp h)

mutual

/-- `formatOneLine` (src/main.go:167-182): the compact single-line renderer.
Scalars are marshalled directly — in particular a number renders as its
`json.Marshal` literal `n.lit`, not through the `%.f` policy. -/
def formatOneLine (sk : Bool) : JValue → String
  | .null => "null"
  | .str s => quoteString s
  | .bool b => cond b "true" "false"
  | .num n => n.lit
  | .arr xs => formatArrayOneLine sk xs
  | .obj m => formatObjectOneLine sk m
termination_by v => sizeOf v

/-- `formatArrayOneLine` (src/main.go:184-197). -/
def formatArrayOneLine (sk : Bool) (xs : List JValue) : String :=
  "[" ++ joinSep ", " (xs.attach.map fun x => formatOneLine sk x.1) ++ "]"
termination_by sizeOf xs
decreasing_by exact List.sizeOf_lt_of_mem x.2

/-- `formatObjectOneLine` (src/main.go:199-229). -/
def formatObjectOneLine (sk : Bool) (m : List (String × JValue)) : String :=
  "\x7b" ++ joinSep ", " ((orderKeys sk m).attach.map fun k =>
    quoteString k.1 ++ ": " ++ formatOneLine sk (mapGet m k.1)) ++ "\x7d"
termination_by sizeOf m
decreasing_by exact sizeOf_mapGet_of_mem_orderKeys k.2

end

mutual

/-- `formatIndent` (src/main.go:73-100): the width-aware renderer.  Scalars
render directly (numbers through the `%.f` policy `fmtFixed`); a compound
value first measures its one-line candidate and keeps it when
`level*indent + additional + len(candidate) <= width`, falling back to the
block form otherwise. -/
def formatIndent (o : Opts) (level additional : Nat) : JValue → String
  | .null => "null"
  | .str s => quoteString s
  | .bool b => cond b "true" "false"
  | .num n => fmtFixed n
  | .arr xs =>
    let d := formatOneLine o.sortKeys (.arr xs)
    if level * o.indent + additional + byteLen d ≤ o.width then d
    else formatArray o level xs
  | .obj m =>
    let d := formatOneLine o.sortKeys (.obj m)
    if level * o.indent + additional + byteLen d ≤ o.width then d
    else formatObject o level m
termination_by v => sizeOf v

/-- `formatArray` (src/main.go:102-123): block form of an array — `[` on its
own line, each element recursively rendered at `level+1` with `additional = 0`
on an indented line with a comma on all but the last, and `]` indented at the
parent's level. -/
def formatArray (o : Opts) (level : Nat) (xs : List JValue) : String :=
  joinSep "\n" ("[" ::
    (addCommas (xs.attach.map fun x =>
      spaces ((level + 1) * o.indent) ++ formatIndent o (level + 1) 0 x.1)
    ++ [spaces (level * o.indent) ++ "]"]))
termination_by sizeOf xs
decreasing_by exact List.sizeOf_lt_of_mem x.2

/-- `formatObject` (src/main.go:125-165): block form of an object — `{` on its
own line, each entry `"key": value` with the value recursively rendered at
`level+1` and `additional = len(quoted key) + 2`, commas on all but the last,
and `}` indented at the parent's level. -/
def formatObject (o : Opts) (level : Nat) (m : List (String × JValue)) : String :=
  joinSep "\n" ("\x7b" ::
    (addCommas ((orderKeys o.sortKeys m).attach.map fun k =>
      spaces ((level + 1) * o.indent) ++ quoteString k.1 ++ ": " ++
        formatIndent o (level + 1) (byteLen (quoteString k.1) + 2) (mapGet m k.1))
    ++ [spaces (level * o.indent) ++ "\x7d"]))
termination_by sizeOf m
decreasing_by exact sizeOf_mapGet_of_mem_orderKeys k.2

end

/-! ## Unfolding equations

The definitions above carry `List.attach` only to justify termination; these
equations restate them over plain `List.map`, in the exact shape of the Go
code, and are what every proof below uses. -/

theorem formatOneLine_null {sk : Bool} : formatOneLine sk .null = "null" := by
  simp [formatOneLine]

theorem formatOneLine_str {sk : Bool} {s : String} :
    formatOneLine sk (.str s) = quoteString s := by
  simp [formatOneLine]

theorem formatOneLine_bool {sk : Bool} {b : Bool} :
    formatOneLine sk (.bool b) = cond b "true" "false" := by
  simp [formatOneLine]

theorem formatOneLine_num {sk : Bool} {n : JNumber} :
    formatOneLine sk (.num n) = n.lit := by
  simp [formatOneLine]

theorem formatArrayOneLine_eq {sk : Bool} {xs : List JValue} :
    formatArrayOneLine sk xs =
      "[" ++ joinSep ", " (xs.map (formatOneLine sk)) ++ "]" := by
  have h : (xs.attach.map fun x => formatOneLine sk x.1) = xs.map (formatOneLine sk) :=
    List.attach_map_coe _ _
  rw [formatArrayOneLine, h]

theorem formatObjectOneLine_eq {sk : Bool} {m : List (String × JValue)} :
    formatObjectOneLine sk m =
      "\x7b" ++ joinSep ", " ((orderKeys sk m).map fun k =>
        quoteString k ++ ": " ++ formatOneLine sk (mapGet m k)) ++ "\x7d" := by
  have h : ((orderKeys sk m).attach.map fun k =>
      quoteString k.1 ++ ": " ++ formatOneLine sk (mapGet m k.1)) =
      (orderKeys sk m).map fun k => quoteString k ++ ": " ++ formatOneLine sk (mapGet m k) :=
    List.attach_map_coe (orderKeys sk m)
      (fun k => quoteString k ++ ": " ++ formatOneLine sk (mapGet m k))
  rw [formatObjectOneLine, h]

theorem formatOneLine_arr {sk : Bool} {xs : List JValue} :
    formatOneLine sk (.arr xs) =
      "[" ++ joinSep ", " (xs.map (formatOneLine sk)) ++ "]" := by
  rw [formatOneLine.eq_5, formatArrayOneLine_eq]

theorem formatOneLine_obj {sk : Bool} {m : List (String × JValue)} :
    formatOneLine sk (.obj m) =
      "\x7b" ++ joinSep ", " ((orderKeys sk m).map fun k =>
        quoteString k ++ ": " ++ formatOneLine sk (mapGet m k)) ++ "\x7d" := by
  rw [formatOneLine.eq_6, formatObjectOneLine_eq]

theorem formatIndent_null {o : Opts} {l a : Nat} :
    formatIndent o l a .null = "null" := by
  simp [formatIndent]

theorem formatIndent_str {o : Opts} {l a : Nat} {s : String} :
    formatIndent o l a (.str s) = quoteString s := by
  simp [formatIndent]

theorem formatIndent_bool {o : Opts} {l a : Nat} {b : Bool} :
    formatIndent o l a (.bool b) = cond b "true" "false" := by
  simp [formatIndent]

theorem formatIndent_num {o : Opts} {l a : Nat} {n : JNumber} :
    formatIndent o l a (.num n) = fmtFixed n := by
  simp [formatIndent]

theorem formatArray_eq {o : Opts} {level : Nat} {xs : List JValue} :
    formatArray o level xs =
      joinSep "\n" ("[" ::
        (addCommas (xs.map fun v =>
          spaces ((level + 1) * o.indent) ++ formatIndent o (level + 1) 0 v)
        ++ [spaces (level * o.indent) ++ "]"])) := by
  have h : (xs.attach.map fun x =>
      spaces ((level + 1) * o.indent) ++ formatIndent o (level + 1) 0 x.1) =
      xs.map fun v => spaces ((level + 1) * o.indent) ++ formatIndent o (level + 1) 0 v :=
    List.attach_map_coe xs
      (fun v => spaces ((level + 1) * o.indent) ++ formatIndent o (level + 1) 0 v)
  rw [formatArray, h]

theorem formatObject_eq {o : Opts} {level : Nat} {m : List (String × JValue)} :
    formatObject o level m =
      joinSep "\n" ("\x7b" ::
        (addCommas ((orderKeys o.sortKeys m).map fun k =>
          spaces ((level + 1) * o.indent) ++ quoteString k ++ ": " ++
            formatIndent o (level + 1) (byteLen (quoteString k) + 2) (mapGet m k))
        ++ [spaces (level * o.indent) ++ "\x7d"])) := by
  have h : ((orderKeys o.sortKeys m).attach.map fun k =>
      spaces ((level + 1) * o.indent) ++ quoteString k.1 ++ ": " ++
        formatIndent o (level + 1) (byteLen (quoteString k.1) + 2) (mapGet m k.1)) =
      (orderKeys o.sortKeys m).map fun k =>
        spaces ((level + 1) * o.indent) ++ quoteString k ++ ": " ++
          formatIndent o (level + 1) (byteLen (quoteString k) + 2) (mapGet m k) :=
    List.attach_map_coe (orderKeys o.sortKeys m)
      (fun k => spaces ((level + 1) * o.indent) ++ quoteString k ++ ": " ++
        formatIndent o (level + 1) (byteLen (quoteString k) + 2) (mapGet m k))
  rw [formatObject, h]

theorem formatIndent_arr {o : Opts} {l a : Nat} {xs : List JValue} :
    formatIndent o l a (.arr xs) =
      if l * o.indent + a + byteLen (formatOneLine o.sortKeys (.arr xs)) ≤ o.width
      then formatOneLine o.sortKeys (.arr xs)
      else formatArray o l xs := by
  rw [formatIndent.eq_5]

theorem formatIndent_obj {o : Opts} {l a : Nat} {m : List (String × JValue)} :
    formatIndent o l a (.obj m) =
      if l * o.indent + a + byteLen (formatOneLine o.sortKeys (.obj m)) ≤ o.width
      then formatOneLine o.sortKeys (.obj m)
      else formatObject o l m := by
  rw [formatIndent.eq_6]

/-! ## A fuel-instrumented evaluator

`formatOneLineF`/`formatIndentF` compute the same renderings by structural
recursion on an explicit fuel counter, returning `none` when the fuel runs
out — the shape of the Go functions' unbounded recursion.  The adequacy
theorems below show fuel `sizeOf v` always suffices, i.e. the recursion
terminates on every closed value; being kernel-reducible, the fueled forms
also let concrete renderings be computed by `decide`. -/

def formatOneLineF (sk : Bool) : Nat → JValue → Option String
  | 0, _ => none
  | fuel + 1, v =>
    match v with
    | .null => some "null"
    | .str s => some (quoteString s)
    | .bool b => some (cond b "true" "false")
    | .num n => some n.lit
    | .arr xs =>
      (xs.mapM fun x => formatOneLineF sk fuel x).map fun ds =>
        "[" ++ joinSep ", " ds ++ "]"
    | .obj m =>
      ((orderKeys sk m).mapM fun k =>
        (formatOneLineF sk fuel (mapGet m k)).map fun d =>
          quoteString k ++ ": " ++ d).map fun es =>
        "\x7b" ++ joinSep ", " es ++ "\x7d"

def formatIndentF (o : Opts) : Nat → Nat → Nat → JValue → Option String
  | 0, _, _, _ => none
  | fuel + 1, level, additional, v =>
    match v with
    | .null => some "null"
    | .str s => some (quoteString s)
    | .bool b => some (cond b "true" "false")
    | .num n => some (fmtFixed n)
    | .arr xs =>
      (formatOneLineF o.sortKeys (fuel + 1) (.arr xs)).bind fun d =>
        if level * o.indent + additional + byteLen d ≤ o.width then some d
        else
          (xs.mapM fun x =>
            (formatIndentF o fuel (level + 1) 0 x).map fun s =>
              spaces ((level + 1) * o.indent) ++ s).map fun ls =>
            joinSep "\n" ("[" :: (addCommas ls ++ [spaces (level * o.indent) ++ "]"]))
    | .obj m =>
      (formatOneLineF o.sortKeys (fuel + 1) (.obj m)).bind fun d =>
        if level * o.indent + additional + byteLen d ≤ o.width then some d
        else
          ((orderKeys o.sortKeys m).mapM fun k =>
            (formatIndentF o fuel (level + 1) (byteLen (quoteString k) + 2)
                (mapGet m k)).map fun s =>
              spaces ((level + 1) * o.indent) ++ quoteString k ++ ": " ++ s).map fun ls =>
            joinSep "\n" ("\x7b" :: (addCommas ls ++ [spaces (level * o.indent) ++ "\x7d"]))

theorem mapM_eq_some {α β : Type} {F : α → Option β} {f : α → β} :
    ∀ {xs : List α}, (∀ x ∈ xs, F x = some (f x)) → xs.mapM F = some (xs.map f) := by
  intro xs
  induction xs with
  | nil => intro _; rfl
  | cons a t ih =>
    intro h
    rw [List.mapM_cons, h a (List.mem_cons_self a t), ih fun x hx => h x (List.mem_cons_of_mem a hx)]
    rfl

theorem one_le_sizeOf (v : JValue) : 1 ≤ sizeOf v := by
  cases v <;> simp

theorem formatOneLineF_eq {sk : Bool} (fuel : Nat) :
    ∀ v : JValue, sizeOf v ≤ fuel →
      formatOneLineF sk fuel v = some (formatOneLine sk v) := by
  induction fuel with
  | zero =>
    intro v hv
    have := one_le_sizeOf v
    omega
  | succ fuel ih =>
    intro v hv
    match v with
    | .null => simp [formatOneLineF, formatOneLine_null]
    | .str s => simp [formatOneLineF, formatOneLine_str]
    | .bool b => simp [formatOneLineF, formatOneLine_bool]
    | .num n => simp [formatOneLineF, formatOneLine_num]
    | .arr xs =>
      have hxs : sizeOf xs ≤ fuel := by
        simp only [JValue.arr.sizeOf_spec] at hv
        omega
      have hmap : (xs.mapM fun x => formatOneLineF sk fuel x) =
          some (xs.map (formatOneLine sk)) :=
        mapM_eq_some fun x hx =>
          ih x (le_of_lt (lt_of_lt_of_le (List.sizeOf_lt_of_mem hx) hxs))
      show ((xs.mapM fun x => formatOneLineF sk fuel x).map fun ds =>
          "[" ++ joinSep ", " ds ++ "]") = some (formatOneLine sk (.arr xs))
      rw [hmap, formatOneLine_arr]
      rfl
    | .obj m =>
      have hm : sizeOf m ≤ fuel := by
        simp only [JValue.obj.sizeOf_spec] at hv
        omega
      have hmap : ((orderKeys sk m).mapM fun k =>
          (formatOneLineF sk fuel (mapGet m k)).map fun d =>
            quoteString k ++ ": " ++ d) =
          some ((orderKeys sk m).map fun k =>
            quoteString k ++ ": " ++ formatOneLine sk (mapGet m k)) :=
        mapM_eq_some fun k hk => by
          rw [ih (mapGet m k)
            (le_of_lt (lt_of_lt_of_le (sizeOf_mapGet_of_mem_orderKeys hk) hm))]
          rfl
      show (((orderKeys sk m).mapM fun k =>
          (formatOneLineF sk fuel (mapGet m k)).map fun d =>
            quoteString k ++ ": " ++ d).map fun es =>
          "\x7b" ++ joinSep ", " es ++ "\x7d") = some (formatOneLine sk (.obj m))
      rw [hmap, formatOneLine_obj]
      rfl

theorem formatIndentF_eq {o : Opts} (fuel : Nat) :
    ∀ (level additional : Nat) (v : JValue), sizeOf v ≤ fuel →
      formatIndentF o fuel level additional v =
        some (formatIndent o level additional v) := by
  induction fuel with
  | zero =>
    intro _ _ v hv
    have := one_le_sizeOf v
    omega
  | succ fuel ih =>
    intro level additional v hv
    match v with
    | .null => simp [formatIndentF, formatIndent_null]
    | .str s => simp [formatIndentF, formatIndent_str]
    | .bool b => simp [formatIndentF, formatIndent_bool]
    | .num n => simp [formatIndentF, formatIndent_num]
    | .arr xs =>
      have hxs : sizeOf xs ≤ fuel := by
        simp only [JValue.arr.sizeOf_spec] at hv
        omega
      have hone := @formatOneLineF_eq o.sortKeys (fuel + 1) (.arr xs) hv
      have hmap : (xs.mapM fun x =>
          (formatIndentF o fuel (level + 1) 0 x).map fun s =>
            spaces ((level + 1) * o.indent) ++ s) =
          some (xs.map fun x =>
            spaces ((level + 1) * o.indent) ++ formatIndent o (level + 1) 0 x) :=
        mapM_eq_some fun x hx => by
          rw [ih (level + 1) 0 x
            (le_of_lt (lt_of_lt_of_le (List.sizeOf_lt_of_mem hx) hxs))]
          rfl
      show ((formatOneLineF o.sortKeys (fuel + 1) (.arr xs)).bind fun d =>
          if level * o.indent + additional + byteLen d ≤ o.width then some d
          else
            (xs.mapM fun x =>
              (formatIndentF o fuel (level + 1) 0 x).map fun s =>
                spaces ((level + 1) * o.indent) ++ s).map fun ls =>
              joinSep "\n" ("[" :: (addCommas ls ++ [spaces (level * o.indent) ++ "]"]))) =
        some (formatIndent o level additional (.arr xs))
      rw [hone]
      simp only [Option.some_bind]
      rw [formatIndent_arr, formatArray_eq]
      by_cases hc : level * o.indent + additional +
          byteLen (formatOneLine o.sortKeys (.arr xs)) ≤ o.width
      · rw [if_pos hc, if_pos hc]
      · rw [if_neg hc, if_neg hc, hmap]
        rfl
    | .obj m =>
      have hm : sizeOf m ≤ fuel := by
        simp only [JValue.obj.sizeOf_spec] at hv
        omega
      have hone := @formatOneLineF_eq o.sortKeys (fuel + 1) (.obj m) hv
      have hmap : ((orderKeys o.sortKeys m).mapM fun k =>
          (formatIndentF o fuel (level + 1) (byteLen (quoteString k) + 2)
              (mapGet m k)).map fun s =>
            spaces ((level + 1) * o.indent) ++ quoteString k ++ ": " ++ s) =
          some ((orderKeys o.sortKeys m).map fun k =>
            spaces ((level + 1) * o.indent) ++ quoteString k ++ ": " ++
              formatIndent o (level + 1) (byteLen (quoteString k) + 2) (mapGet m k)) :=
        mapM_eq_some fun k hk => by
          rw [ih (level + 1) (byteLen (quoteString k) + 2) (mapGet m k)
            (le_of_lt (lt_of_lt_of_le (sizeOf_mapGet_of_mem_orderKeys hk) hm))]
          rfl
      show ((formatOneLineF o.sortKeys (fuel + 1) (.obj m)).bind fun d =>
          if level * o.indent + additional + byteLen d ≤ o.width then some d
          else
            ((orderKeys o.sortKeys m).mapM fun k =>
              (formatIndentF o fuel (level + 1) (byteLen (quoteString k) + 2)
                  (mapGet m k)).map fun s =>
                spaces ((level + 1) * o.indent) ++ quoteString k ++ ": " ++ s).map fun ls =>
              joinSep "\n" ("\x7b" :: (addCommas ls ++ [spaces (level * o.indent) ++ "\x7d"]))) =
        some (formatIndent o level additional (.obj m))
      rw [hone]
      simp only [Option.some_bind]
      rw [formatIndent_obj, formatObject_eq]
      by_cases hc : level * o.indent + additional +
          byteLen (formatOneLine o.sortKeys (.obj m)) ≤ o.width
      · rw [if_pos hc, if_pos hc]
      · rw [if_neg hc, if_neg hc, hmap]
        rfl

/-- Evaluation bridge: a concrete rendering computed by the fueled evaluator
is the rendering of `formatIndent`. -/
theorem formatIndent_eval {o : Opts} {l a : Nat} {v : JValue} {s : String}
    (h : formatIndentF o (sizeOf v) l a v = some s) : formatIndent o l a v = s := by
  have h2 := @formatIndentF_eq o (sizeOf v) l a v le_rfl
  exact (Option.some_inj.mp (h.symm.trans h2)).symm

/-- Evaluation bridge for the one-line renderer. -/
theorem formatOneLine_eval {sk : Bool} {v : JValue} {s : String}
    (h : formatOneLineF sk (sizeOf v) v = some s) : formatOneLine sk v = s := by
  have h2 := @formatOneLineF_eq sk (sizeOf v) v le_rfl
  exact (Option.some_inj.mp (h.symm.trans h2)).symm

/-! ## Characters of rendered integers

`fmt.Sprintf("%.f", v)` emits an optional sign followed by decimal digits;
these lemmas pin that down for the embedding's `toString`/`Nat.repr`. -/

theorem digitChar_isDigit {n : Nat} (h : n < 10) : (Nat.digitChar n).isDigit = true := by
  interval_cases n <;> decide

theorem toDigitsCore_digits :
    ∀ (fuel n : Nat) (ds : List Char), (∀ c ∈ ds, c.isDigit = true) →
      ∀ c ∈ Nat.toDigitsCore 10 fuel n ds, c.isDigit = true := by
  intro fuel
  induction fuel with
  | zero =>
    intro n ds h c hc
    rw [Nat.toDigitsCore] at hc
    exact h c hc
  | succ fuel ih =>
    intro n ds h c hc
    simp only [Nat.toDigitsCore] at hc
    have hds : ∀ x ∈ (n % 10).digitChar :: ds, x.isDigit = true := by
      intro x hx
      rcases List.mem_cons.mp hx with hx | hx
      · subst hx
        exact digitChar_isDigit (Nat.mod_lt _ (by norm_num))
      · exact h x hx
    by_cases h0 : n / 10 = 0
    · rw [if_pos h0] at hc
      exact hds c hc
    · rw [if_neg h0] at hc
      exact ih (n / 10) _ hds c hc

theorem toDigitsCore_ne_nil :
    ∀ (fuel n : Nat) (ds : List Char), ds ≠ [] → Nat.toDigitsCore 10 fuel n ds ≠ [] := by
  intro fuel
  induction fuel with
  | zero =>
    intro n ds h
    rw [Nat.toDigitsCore]
    exact h
  | succ fuel ih =>
    intro n ds h
    simp only [Nat.toDigitsCore]
    by_cases h0 : n / 10 = 0
    · rw [if_pos h0]
      exact List.cons_ne_nil _ _
    · rw [if_neg h0]
      exact ih (n / 10) _ (List.cons_ne_nil _ _)

theorem natRepr_data (n : Nat) : (Nat.repr n).data = Nat.toDigits 10 n := rfl

theorem natRepr_digits (n : Nat) : ∀ c ∈ (Nat.repr n).data, c.isDigit = true := by
  rw [natRepr_data, Nat.toDigits]
  exact toDigitsCore_digits (n + 1) n [] (by intro c hc; cases hc)

theorem natRepr_ne_nil (n : Nat) : (Nat.repr n).data ≠ [] := by
  rw [natRepr_data, Nat.toDigits]
  simp only [Nat.toDigitsCore]
  by_cases h0 : n / 10 = 0
  · rw [if_pos h0]
    exact List.cons_ne_nil _ _
  · rw [if_neg h0]
    exact toDigitsCore_ne_nil n (n / 10) _ (List.cons_ne_nil _ _)

theorem intRepr_chars (k : Int) : ∀ c ∈ (toString k).data, c = '-' ∨ c.isDigit = true := by
  match k with
  | .ofNat m =>
    intro c hc
    exact Or.inr (natRepr_digits m c hc)
  | .negSucc m =>
    intro c hc
    have : (toString (Int.negSucc m)).data = '-' :: (Nat.repr (m + 1)).data := rfl
    rw [this] at hc
    rcases List.mem_cons.mp hc with hc | hc
    · exact Or.inl hc
    · exact Or.inr (natRepr_digits (m + 1) c hc)

theorem intRepr_head_neg {k : Int} (h : k < 0) :
    ∃ cs, (toString k).data = '-' :: cs := by
  match k with
  | .ofNat m => exact absurd h (not_lt.mpr (Int.ofNat_nonneg m))
  | .negSucc m => exact ⟨(Nat.repr (m + 1)).data, rfl⟩

theorem intRepr_head_nonneg {k : Int} (h : 0 ≤ k) :
    ∃ c cs, (toString k).data = c :: cs ∧ c.isDigit = true := by
  match k with
  | .ofNat m =>
    rcases hd : (Nat.repr m).data with _ | ⟨c, cs⟩
    · exact absurd hd (natRepr_ne_nil m)
    · exact ⟨c, cs, rfl, natRepr_digits m c (by rw [hd]; exact List.mem_cons_self c cs)⟩
  | .negSucc m => exact absurd h (not_le.mpr (Int.negSucc_lt_zero m))

theorem fmtFixed_chars (n : JNumber) :
    ∀ c ∈ (fmtFixed n).data, c = '-' ∨ c.isDigit = true := by
  rw [fmtFixed]
  split
  · intro c hc
    rcases List.mem_cons.mp hc with hc | hc
    · exact Or.inl hc
    · rcases List.mem_cons.mp hc with hc | hc
      · exact Or.inr (by rw [hc]; decide)
      · cases hc
  · exact intRepr_chars _

theorem fmtFixed_head (n : JNumber) :
    ∃ c cs, (fmtFixed n).data = c :: cs ∧ (c = '-' ∨ c.isDigit = true) := by
  rw [fmtFixed]
  split
  · exact ⟨'-', ['0'], rfl, Or.inl rfl⟩
  · rcases Int.le_or_lt 0 (roundHalfEven n.val) with h | h
    · obtain ⟨c, cs, hd, hdig⟩ := intRepr_head_nonneg h
      exact ⟨c, cs, hd, Or.inr hdig⟩
    · obtain ⟨cs, hd⟩ := intRepr_head_neg h
      exact ⟨'-', cs, hd, Or.inl rfl⟩

theorem isDigit_ne_nl {c : Char} (h : c.isDigit = true) : c ≠ '\n' := by
  intro hc
  subst hc
  simp [Char.isDigit] at h

theorem fmtFixed_no_nl (n : JNumber) : '\n' ∉ (fmtFixed n).data := by
  intro hmem
  rcases fmtFixed_chars n _ hmem with h | h
  · cases h
  · exact isDigit_ne_nl h rfl

/-! ## Splitting output into lines

`linesL` splits a character list at every newline (the way a reader of the
final text sees lines); `lines` is the `String` version. -/

def linesL : List Char → List (List Char)
  | [] => [[]]
  | c :: cs =>
    if c = '\n' then [] :: linesL cs
    else
      match linesL cs with
      | [] => [[c]]
      | l :: ls => (c :: l) :: ls

def lines (s : String) : List String :=
  (linesL s.data).map String.mk

theorem string_mk_data (s : String) : String.mk s.data = s := rfl

theorem linesL_ne_nil : ∀ cs : List Char, linesL cs ≠ [] := by
  intro cs
  induction cs with
  | nil => simp [linesL]
  | cons c cs ih =>
    simp only [linesL]
    split
    · exact List.cons_ne_nil _ _
    · split
      · exact List.cons_ne_nil _ _
      · exact List.cons_ne_nil _ _

theorem linesL_no_nl : ∀ {cs : List Char}, '\n' ∉ cs → linesL cs = [cs] := by
  intro cs
  induction cs with
  | nil => intro _; rfl
  | cons c cs ih =>
    intro h
    have hc : ¬ c = '\n' := fun hc => h (by rw [hc]; exact List.mem_cons_self _ _)
    have hcs : '\n' ∉ cs := fun hm => h (List.mem_cons_of_mem _ hm)
    simp only [linesL, if_neg hc, ih hcs]

theorem linesL_append_nl : ∀ (a b : List Char), linesL (a ++ '\n' :: b) = linesL a ++ linesL b := by
  intro a b
  induction a with
  | nil => simp [linesL]
  | cons c a ih =>
    by_cases hc : c = '\n'
    · subst hc
      simp [linesL, ih]
    · simp only [List.cons_append, linesL, if_neg hc]
      simp only [List.append_eq]
      rw [ih]
      rcases ha : linesL a with _ | ⟨ha1, has⟩
      · exact absurd ha (linesL_ne_nil a)
      · simp

theorem linesL_append_no_nl : ∀ {a : List Char} (b : List Char), '\n' ∉ a →
    linesL (a ++ b) = (a ++ (linesL b).headI) :: (linesL b).tail := by
  intro a
  induction a with
  | nil =>
    intro b _
    rcases hb : linesL b with _ | ⟨b1, bs⟩
    · exact absurd hb (linesL_ne_nil b)
    · simp [hb]
  | cons c a ih =>
    intro b h
    have hc : ¬ c = '\n' := fun hc => h (by rw [hc]; exact List.mem_cons_self _ _)
    have ha : '\n' ∉ a := fun hm => h (List.mem_cons_of_mem _ hm)
    simp only [List.cons_append, linesL, if_neg hc]
    simp [ih b ha]

theorem lines_of_no_nl {s : String} (h : '\n' ∉ s.data) : lines s = [s] := by
  simp [lines, linesL_no_nl h, string_mk_data]

theorem joinSep_cons (sep x y : String) (rest : List String) :
    joinSep sep (x :: y :: rest) = x ++ sep ++ joinSep sep (y :: rest) := rfl

theorem linesL_joinSep : ∀ (bits : List String), bits ≠ [] →
    linesL (joinSep "\n" bits).data = (bits.map fun b => linesL b.data).flatten := by
  intro bits
  induction bits with
  | nil => intro h; exact absurd rfl h
  | cons x rest ih =>
    intro _
    rcases rest with _ | ⟨y, rest⟩
    · simp [joinSep]
    · rw [joinSep_cons]
      have hdata : ((x ++ "\n") ++ joinSep "\n" (y :: rest)).data =
          x.data ++ '\n' :: (joinSep "\n" (y :: rest)).data := by
        rw [String.data_append, String.data_append]
        simp
      rw [hdata, linesL_append_nl, ih (List.cons_ne_nil _ _)]
      simp

theorem mem_lines_joinSep {bits : List String} {line : String} (hne : bits ≠ []) :
    line ∈ lines (joinSep "\n" bits) ↔ ∃ b ∈ bits, line ∈ lines b := by
  unfold lines
  rw [linesL_joinSep bits hne]
  simp only [List.mem_map, List.mem_flatten]
  constructor
  · rintro ⟨l, ⟨ls, ⟨b, hb, rfl⟩, hl⟩, rfl⟩
    exact ⟨b, hb, l, hl, rfl⟩
  · rintro ⟨b, hb, l, hl, rfl⟩
    exact ⟨l, ⟨linesL b.data, ⟨b, hb, rfl⟩, hl⟩, rfl⟩

theorem append_joinSep_cons (lead x : String) (rest : List String) :
    lead ++ joinSep "\n" (x :: rest) = joinSep "\n" ((lead ++ x) :: rest) := by
  rcases rest with _ | ⟨y, rest⟩
  · rfl
  · rw [joinSep_cons, joinSep_cons, ← String.append_assoc, ← String.append_assoc]

theorem joinSep_append_last (t : String) : ∀ (xs : List String) (y : String),
    joinSep "\n" (xs ++ [y]) ++ t = joinSep "\n" (xs ++ [y ++ t]) := by
  intro xs
  induction xs with
  | nil => intro y; rfl
  | cons x xs ih =>
    intro y
    rcases xs with _ | ⟨z, xs⟩
    · simp [joinSep, String.append_assoc]
    · simp only [List.cons_append] at *
      rw [joinSep_cons, joinSep_cons, String.append_assoc, ih, String.append_assoc]

theorem mem_addCommas : ∀ {L : List String} {b : String}, b ∈ addCommas L →
    ∃ x ∈ L, b = x ∨ b = x ++ "," := by
  intro L
  induction L with
  | nil => intro b h; cases h
  | cons x rest ih =>
    intro b h
    rcases rest with _ | ⟨y, rest⟩
    · have hb : b = x := by simpa [addCommas] using h
      exact ⟨x, List.mem_cons_self _ _, Or.inl hb⟩
    · rw [addCommas] at h
      rcases List.mem_cons.mp h with h | h
      · exact ⟨x, List.mem_cons_self _ _, Or.inr h⟩
      · obtain ⟨z, hz, hb⟩ := ih h
        exact ⟨z, List.mem_cons_of_mem _ hz, hb⟩

/-! ## Newline-freedom of the one-line renderers -/

theorem hexDigit_ne_nl {n : Nat} (h : n < 16) : hexDigit n ≠ '\n' := by
  interval_cases n <;> decide

theorem escapeChar_no_nl (c : Char) : '\n' ∉ escapeChar c := by
  by_cases h1 : c = '"'
  · subst h1; decide
  by_cases h2 : c = '\\'
  · subst h2; decide
  by_cases h3 : c = '\n'
  · subst h3; decide
  by_cases h4 : c = '\r'
  · subst h4; decide
  by_cases h5 : c = '\t'
  · subst h5; decide
  by_cases h6 : c = '<'
  · subst h6; decide
  by_cases h7 : c = '>'
  · subst h7; decide
  by_cases h8 : c = '&'
  · subst h8; decide
  by_cases h9 : c.toNat < 0x20
  · rw [escapeChar, if_neg h1, if_neg h2, if_neg h3, if_neg h4, if_neg h5, if_neg h6,
      if_neg h7, if_neg h8, if_pos h9]
    intro hmem
    simp only [List.mem_cons, List.not_mem_nil, or_false] at hmem
    rcases hmem with h | h | h | h | h | h
    · exact absurd h (by decide)
    · exact absurd h (by decide)
    · exact absurd h (by decide)
    · exact absurd h (by decide)
    · exact hexDigit_ne_nl (Nat.div_lt_of_lt_mul (by omega)) h.symm
    · exact hexDigit_ne_nl (Nat.mod_lt _ (by norm_num)) h.symm
  by_cases h10 : c.toNat = 0x2028
  · rw [escapeChar, if_neg h1, if_neg h2, if_neg h3, if_neg h4, if_neg h5, if_neg h6,
      if_neg h7, if_neg h8, if_neg h9, if_pos h10]
    decide
  by_cases h11 : c.toNat = 0x2029
  · rw [escapeChar, if_neg h1, if_neg h2, if_neg h3, if_neg h4, if_neg h5, if_neg h6,
      if_neg h7, if_neg h8, if_neg h9, if_neg h10, if_pos h11]
    decide
  · rw [escapeChar, if_neg h1, if_neg h2, if_neg h3, if_neg h4, if_neg h5, if_neg h6,
      if_neg h7, if_neg h8, if_neg h9, if_neg h10, if_neg h11]
    intro hmem
    simp only [List.mem_cons, List.not_mem_nil, or_false] at hmem
    exact h3 hmem.symm

theorem quoteString_data (s : String) :
    (quoteString s).data = '"' :: ((s.data.map escapeChar).flatten ++ ['"']) := rfl

theorem quoteString_no_nl (s : String) : '\n' ∉ (quoteString s).data := by
  intro h
  rw [quoteString_data] at h
  rcases List.mem_cons.mp h with h | h
  · cases h
  · rcases List.mem_append.mp h with h | h
    · obtain ⟨l, hl, hc⟩ := List.mem_flatten.mp h
      obtain ⟨c, _, rfl⟩ := List.mem_map.mp hl
      exact escapeChar_no_nl c hc
    · simp at h

mutual

/-- Well-formedness of the number literals carried in a value: `json.Marshal`
never emits a newline inside a number, so every value the decoder provides
satisfies this. -/
def litsOk : JValue → Bool
  | .null => true
  | .bool _ => true
  | .num n => decide ('\n' ∉ n.lit.data)
  | .str _ => true
  | .arr xs => litsOkList xs
  | .obj m => litsOkEntries m

def litsOkList : List JValue → Bool
  | [] => true
  | x :: xs => litsOk x && litsOkList xs

def litsOkEntries : List (String × JValue) → Bool
  | [] => true
  | e :: es => litsOk e.2 && litsOkEntries es

end

theorem litsOkList_iff {xs : List JValue} :
    litsOkList xs = true ↔ ∀ x ∈ xs, litsOk x = true := by
  induction xs with
  | nil => simp [litsOkList]
  | cons x xs ih => simp [litsOkList, ih]

theorem litsOkEntries_iff {m : List (String × JValue)} :
    litsOkEntries m = true ↔ ∀ e ∈ m, litsOk e.2 = true := by
  induction m with
  | nil => simp [litsOkEntries]
  | cons e es ih => simp [litsOkEntries, ih]

theorem litsOk_arr {xs : List JValue} :
    litsOk (.arr xs) = true ↔ ∀ x ∈ xs, litsOk x = true := by
  rw [litsOk]
  exact litsOkList_iff

theorem litsOk_obj {m : List (String × JValue)} :
    litsOk (.obj m) = true ↔ ∀ e ∈ m, litsOk e.2 = true := by
  rw [litsOk]
  exact litsOkEntries_iff

theorem litsOk_num {n : JNumber} :
    litsOk (.num n) = true ↔ '\n' ∉ n.lit.data := by
  simp [litsOk]

theorem litsOk_mapGet {m : List (String × JValue)} (h : litsOk (.obj m) = true)
    (k : String) : litsOk (mapGet m k) = true := by
  rw [litsOk_obj] at h
  unfold mapGet
  rcases hl : m.lookup k with _ | v
  · rfl
  · have hmem : ∃ k', (k', v) ∈ m := by
      clear h
      induction m with
      | nil => cases hl
      | cons e t ih =>
        rw [List.lookup] at hl
        by_cases hk : (k == e.1) = true
        · rw [hk] at hl
          have hv : e.2 = v := Option.some_inj.mp hl
          exact ⟨e.1, by rw [← hv]; exact List.mem_cons_self _ _⟩
        · rw [Bool.not_eq_true] at hk
          rw [hk] at hl
          obtain ⟨k', hm⟩ := ih hl
          exact ⟨k', List.mem_cons_of_mem _ hm⟩
    obtain ⟨k', hmem⟩ := hmem
    exact h (k', v) hmem

theorem mem_joinSep_data (sep : String) :
    ∀ (L : List String) (c : Char), c ∈ (joinSep sep L).data →
      c ∈ sep.data ∨ ∃ s ∈ L, c ∈ s.data := by
  intro L
  induction L with
  | nil => intro c hc; cases hc
  | cons x rest ih =>
    intro c hc
    rcases rest with _ | ⟨y, rest⟩
    · exact Or.inr ⟨x, List.mem_cons_self _ _, hc⟩
    · rw [joinSep_cons, String.data_append, String.data_append] at hc
      rcases List.mem_append.mp hc with hc | hc
      · rcases List.mem_append.mp hc with hc | hc
        · exact Or.inr ⟨x, List.mem_cons_self _ _, hc⟩
        · exact Or.inl hc
      · rcases ih c hc with hc | ⟨s, hs, hcs⟩
        · exact Or.inl hc
        · exact Or.inr ⟨s, List.mem_cons_of_mem _ hs, hcs⟩

theorem formatOneLine_no_nl {sk : Bool} :
    ∀ (fuel : Nat) (v : JValue), sizeOf v ≤ fuel → litsOk v = true →
      '\n' ∉ (formatOneLine sk v).data := by
  intro fuel
  induction fuel with
  | zero =>
    intro v hv _
    have := one_le_sizeOf v
    omega
  | succ fuel ih =>
    intro v hv hok
    match v with
    | .null => rw [formatOneLine_null]; decide
    | .bool b => rw [formatOneLine_bool]; cases b <;> decide
    | .num n =>
      rw [formatOneLine_num]
      exact litsOk_num.mp hok
    | .str s =>
      rw [formatOneLine_str]
      exact quoteString_no_nl s
    | .arr xs =>
      rw [formatOneLine_arr]
      intro hc
      rw [String.data_append, String.data_append] at hc
      rcases List.mem_append.mp hc with hc | hc
      · rcases List.mem_append.mp hc with hc | hc
        · simp at hc
        · rcases mem_joinSep_data ", " _ _ hc with hc | ⟨t, ht, hct⟩
          · simp at hc
          · obtain ⟨x, hx, rfl⟩ := List.mem_map.mp ht
            have hszxs : sizeOf xs ≤ fuel := by
              simp only [JValue.arr.sizeOf_spec] at hv
              omega
            exact ih x (le_of_lt (lt_of_lt_of_le (List.sizeOf_lt_of_mem hx) hszxs))
              (litsOk_arr.mp hok x hx) hct
      · simp at hc
    | .obj m =>
      rw [formatOneLine_obj]
      intro hc
      rw [String.data_append, String.data_append] at hc
      rcases List.mem_append.mp hc with hc | hc
      · rcases List.mem_append.mp hc with hc | hc
        · simp at hc
        · rcases mem_joinSep_data ", " _ _ hc with hc | ⟨t, ht, hct⟩
          · simp at hc
          · obtain ⟨k, hk, rfl⟩ := List.mem_map.mp ht
            rw [String.data_append, String.data_append] at hct
            rcases List.mem_append.mp hct with hct | hct
            · rcases List.mem_append.mp hct with hct | hct
              · exact quoteString_no_nl k hct
              · simp at hct
            · have hszm : sizeOf m ≤ fuel := by
                simp only [JValue.obj.sizeOf_spec] at hv
                omega
              exact ih (mapGet m k)
                (le_of_lt (lt_of_lt_of_le (sizeOf_mapGet_of_mem_orderKeys hk) hszm))
                (litsOk_mapGet hok k) hct
      · simp at hc

theorem joinSep_nl_mem (x : String) {L : List String} (h : L ≠ []) :
    '\n' ∈ (joinSep "\n" (x :: L)).data := by
  rcases L with _ | ⟨y, rest⟩
  · exact absurd rfl h
  · rw [joinSep_cons, String.data_append, String.data_append]
    refine List.mem_append.mpr (Or.inl (List.mem_append.mpr (Or.inr ?_)))
    exact List.mem_cons_self _ _

theorem formatArray_has_nl (o : Opts) (level : Nat) (xs : List JValue) :
    '\n' ∈ (formatArray o level xs).data := by
  rw [formatArray_eq]
  exact joinSep_nl_mem _ (by simp)

theorem formatObject_has_nl (o : Opts) (level : Nat) (m : List (String × JValue)) :
    '\n' ∈ (formatObject o level m).data := by
  rw [formatObject_eq]
  exact joinSep_nl_mem _ (by simp)

theorem byteLen_append (s t : String) : byteLen (s ++ t) = byteLen s + byteLen t := by
  simp [byteLen, String.data_append]

theorem spaces_data (n : Nat) : (spaces n).data = List.replicate n ' ' := rfl

theorem spaces_no_nl (n : Nat) : '\n' ∉ (spaces n).data := by
  rw [spaces_data]
  intro h
  have := List.eq_of_mem_replicate h
  cases this

theorem byteLen_spaces (n : Nat) : byteLen (spaces n) = n := by
  have h : (' ').utf8Size = 1 := rfl
  simp [byteLen, spaces_data, List.map_replicate, h]

/-! ## Order lemmas for `sort.Strings` -/

theorem lexLe_nil_left (b : List Char) : lexLe [] b = true := by
  cases b <;> rfl

theorem lexLe_cons (a b : Char) (as bs : List Char) :
    lexLe (a :: as) (b :: bs) =
      if a < b then true else if b < a then false else lexLe as bs := rfl

theorem lexLe_total : ∀ a b : List Char, lexLe a b = true ∨ lexLe b a = true := by
  intro a
  induction a with
  | nil => intro b; exact Or.inl (lexLe_nil_left b)
  | cons x as ih =>
    intro b
    rcases b with _ | ⟨y, bs⟩
    · exact Or.inr rfl
    · rw [lexLe_cons, lexLe_cons]
      rcases lt_trichotomy x y with h | h | h
      · rw [if_pos h]
        exact Or.inl rfl
      · subst h
        simp only [lt_irrefl, if_false]
        exact ih bs
      · have h' : ¬ x < y := not_lt.mpr (le_of_lt h)
        simp [h, h']

theorem lexLe_trans : ∀ a b c : List Char,
    lexLe a b = true → lexLe b c = true → lexLe a c = true := by
  intro a
  induction a with
  | nil => intro b c _ _; exact lexLe_nil_left c
  | cons x as ih =>
    intro b c hab hbc
    rcases b with _ | ⟨y, bs⟩
    · cases hab
    · rcases c with _ | ⟨z, cs⟩
      · cases hbc
      · rw [lexLe_cons] at hab hbc ⊢
        rcases lt_trichotomy x y with hxy | hxy | hxy
        · rcases lt_trichotomy y z with hyz | hyz | hyz
          · rw [if_pos (lt_trans hxy hyz)]
          · subst hyz
            rw [if_pos hxy]
          · rw [if_neg (not_lt.mpr (le_of_lt hyz)), if_pos hyz] at hbc
            cases hbc
        · subst hxy
          rcases lt_trichotomy x z with hyz | hyz | hyz
          · rw [if_pos hyz]
          · subst hyz
            rw [if_neg (lt_irrefl x), if_neg (lt_irrefl x)] at hab hbc ⊢
            exact ih bs cs hab hbc
          · rw [if_neg (not_lt.mpr (le_of_lt hyz)), if_pos hyz] at hbc
            cases hbc
        · rw [if_neg (not_lt.mpr (le_of_lt hxy)), if_pos hxy] at hab
          cases hab

theorem strLe_total (a b : String) : strLe a b = true ∨ strLe b a = true :=
  lexLe_total a.data b.data

theorem strLe_trans {a b c : String} (hab : strLe a b = true) (hbc : strLe b c = true) :
    strLe a c = true :=
  lexLe_trans a.data b.data c.data hab hbc

theorem mem_insertSorted {x z : String} {l : List String} :
    z ∈ insertSorted x l ↔ z = x ∨ z ∈ l :=
  (insertSorted_perm x l).mem_iff.trans List.mem_cons

theorem insertSorted_sorted (x : String) : ∀ {l : List String},
    List.Pairwise (fun a b => strLe a b = true) l →
    List.Pairwise (fun a b => strLe a b = true) (insertSorted x l) := by
  intro l
  induction l with
  | nil => intro _; simp [insertSorted]
  | cons y ys ih =>
    intro h
    rw [insertSorted]
    rcases List.pairwise_cons.mp h with ⟨hy, hys⟩
    by_cases hxy : strLe x y = true
    · rw [if_pos hxy]
      refine List.pairwise_cons.mpr ⟨?_, h⟩
      intro z hz
      rcases List.mem_cons.mp hz with rfl | hz
      · exact hxy
      · exact strLe_trans hxy (hy z hz)
    · rw [if_neg hxy]
      refine List.pairwise_cons.mpr ⟨?_, ih hys⟩
      intro z hz
      rcases mem_insertSorted.mp hz with rfl | hz
      · rcases strLe_total z y with h' | h'
        · exact absurd h' hxy
        · exact h'
      · exact hy z hz

theorem sortStrings_sorted : ∀ l : List String,
    List.Pairwise (fun a b => strLe a b = true) (sortStrings l) := by
  intro l
  induction l with
  | nil => simp [sortStrings]
  | cons x xs ih => exact insertSorted_sorted x ih

/-! ## The rounding of the fixed-point policy -/

theorem fdiv_num_den (q : ℚ) : q.num.fdiv (q.den : Int) = ⌊q⌋ := by
  rw [Int.fdiv_eq_ediv _ (Int.natCast_nonneg q.den)]
  exact Rat.floor_def.symm

theorem floor_frac_repr (q : ℚ) :
    q - (⌊q⌋ : ℚ) = ((q.num - ⌊q⌋ * q.den : ℤ) : ℚ) / ((q.den : ℤ) : ℚ) := by
  have hden : ((q.den : ℤ) : ℚ) ≠ 0 := by
    exact_mod_cast q.den_nz
  push_cast
  rw [sub_div]
  congr 1
  · exact (Rat.num_div_den q).symm
  · rw [mul_div_assoc, div_self (by exact_mod_cast q.den_nz), mul_one]

theorem frac_lt_half_iff (q : ℚ) :
    (2 * (q.num - ⌊q⌋ * q.den) < (q.den : ℤ)) ↔ q - (⌊q⌋ : ℚ) < 1 / 2 := by
  have hden : (0 : ℚ) < ((q.den : ℤ) : ℚ) := by
    exact_mod_cast Nat.pos_of_ne_zero q.den_nz
  rw [floor_frac_repr, div_lt_div_iff₀ hden (by norm_num : (0 : ℚ) < 2)]
  rw [← Int.cast_lt (R := ℚ)]
  push_cast
  constructor <;> intro h <;> linarith

theorem half_lt_frac_iff (q : ℚ) :
    ((q.den : ℤ) < 2 * (q.num - ⌊q⌋ * q.den)) ↔ 1 / 2 < q - (⌊q⌋ : ℚ) := by
  have hden : (0 : ℚ) < ((q.den : ℤ) : ℚ) := by
    exact_mod_cast Nat.pos_of_ne_zero q.den_nz
  rw [floor_frac_repr, div_lt_div_iff₀ (by norm_num : (0 : ℚ) < 2) hden]
  rw [← Int.cast_lt (R := ℚ)]
  push_cast
  constructor <;> intro h <;> linarith

theorem roundHalfEven_cases (q : ℚ) :
    (q - (⌊q⌋ : ℚ) < 1 / 2 ∧ roundHalfEven q = ⌊q⌋) ∨
    (1 / 2 < q - (⌊q⌋ : ℚ) ∧ roundHalfEven q = ⌊q⌋ + 1) ∨
    (q - (⌊q⌋ : ℚ) = 1 / 2 ∧ (roundHalfEven q = ⌊q⌋ ∨ roundHalfEven q = ⌊q⌋ + 1)) := by
  have hunfold : roundHalfEven q =
      (if 2 * (q.num - ⌊q⌋ * q.den) < (q.den : Int) then ⌊q⌋
       else if (q.den : Int) < 2 * (q.num - ⌊q⌋ * q.den) then ⌊q⌋ + 1
       else if ⌊q⌋ % 2 = 0 then ⌊q⌋ else ⌊q⌋ + 1) := by
    rw [roundHalfEven]
    rw [fdiv_num_den]
  by_cases h1 : 2 * (q.num - ⌊q⌋ * q.den) < (q.den : Int)
  · exact Or.inl ⟨(frac_lt_half_iff q).mp h1, by rw [hunfold, if_pos h1]⟩
  · by_cases h2 : (q.den : Int) < 2 * (q.num - ⌊q⌋ * q.den)
    · exact Or.inr (Or.inl ⟨(half_lt_frac_iff q).mp h2,
        by rw [hunfold, if_neg h1, if_pos h2]⟩)
    · refine Or.inr (Or.inr ⟨?_, ?_⟩)
      · have hge : ¬ q - (⌊q⌋ : ℚ) < 1 / 2 := fun h => h1 ((frac_lt_half_iff q).mpr h)
        have hle : ¬ 1 / 2 < q - (⌊q⌋ : ℚ) := fun h => h2 ((half_lt_frac_iff q).mpr h)
        linarith [not_lt.mp hge, not_lt.mp hle]
      · rw [hunfold, if_neg h1, if_neg h2]
        by_cases h3 : ⌊q⌋ % 2 = 0
        · rw [if_pos h3]
          exact Or.inl rfl
        · rw [if_neg h3]
          exact Or.inr rfl

theorem roundHalfEven_nearest (q : ℚ) : |q - (roundHalfEven q : ℚ)| ≤ 1 / 2 := by
  have hfl := Int.floor_le q
  have hfu := Int.lt_floor_add_one q
  rcases roundHalfEven_cases q with ⟨h, hk⟩ | ⟨h, hk⟩ | ⟨h, hk | hk⟩ <;>
    rw [hk, abs_le] <;> constructor <;> push_cast <;> linarith

theorem roundHalfEven_nonneg {q : ℚ} (h : 0 ≤ q) : 0 ≤ roundHalfEven q := by
  have h0 : 0 ≤ ⌊q⌋ := Int.floor_nonneg.mpr h
  rcases roundHalfEven_cases q with ⟨_, hk⟩ | ⟨_, hk⟩ | ⟨_, hk | hk⟩ <;> omega

theorem roundHalfEven_nonpos {q : ℚ} (h : q < 0) : roundHalfEven q ≤ 0 := by
  have h0 : ⌊q⌋ < 0 := by
    have := Int.floor_le_floor (le_of_lt h)
    have hz : ⌊(0 : ℚ)⌋ = 0 := Int.floor_zero
    rcases roundHalfEven_cases q with ⟨hf, _⟩ | ⟨hf, _⟩ | ⟨hf, _⟩ <;>
      · by_contra hge
        push_neg at hge
        have : (0 : ℚ) ≤ (⌊q⌋ : ℚ) := by exact_mod_cast hge
        have := Int.floor_le q
        nlinarith [Int.lt_floor_add_one q]
  rcases roundHalfEven_cases q with ⟨hf, hk⟩ | ⟨hf, hk⟩ | ⟨hf, hk | hk⟩ <;> omega

theorem intRepr_digits_nonneg {k : Int} (h : 0 ≤ k) :
    ∀ c ∈ (toString k).data, c.isDigit = true := by
  match k with
  | .ofNat m => exact fun c hc => natRepr_digits m c hc
  | .negSucc m => exact absurd h (not_le.mpr (Int.negSucc_lt_zero m))

/-! ## Claims C1 and C5: numbers and key order -/

/-- The `float64` that `encoding/json` decodes from the literal `3.7` — the
nearest double, exactly 4165829655317709 / 2^50 — paired with the text
`json.Marshal` renders it back to, `"3.7"`. -/
def n37 : JNumber :=
  ⟨Rat.mk' 4165829655317709 1125899906842624 (by norm_num) (by norm_num), "3.7"⟩

/-- Claim C1, counterexample: inside a compound value that fits on one line
the number is rendered by `json.Marshal` (src/main.go:172-174), not by the
`%.f` policy — `[3.7]` keeps its fractional digits, where the claim demands
`[4]`. -/
theorem claim_C1_counterexample :
    formatIndent ⟨80, 2, false⟩ 0 0 (.arr [.num n37]) = "[3.7]" ∧
    fmtFixed n37 = "4" ∧
    formatIndent ⟨80, 2, false⟩ 0 0 (.arr [.num n37]) ≠ "[" ++ fmtFixed n37 ++ "]" ∧
    '.' ∈ (formatIndent ⟨80, 2, false⟩ 0 0 (.arr [.num n37])).data := by
  have h1 : formatIndent ⟨80, 2, false⟩ 0 0 (.arr [.num n37]) = "[3.7]" :=
    formatIndent_eval (by decide)
  have h2 : fmtFixed n37 = "4" := by decide
  refine ⟨h1, h2, ?_, ?_⟩
  · rw [h1, h2]
    decide
  · rw [h1]
    decide

/-- Claim C1 as amended: the `%.f` policy governs exactly the numbers the
width-aware renderer formats directly (the root value and the scalar
elements/entries of block-rendered compounds): such a number renders as
`fmtFixed`, a decimal integer at distance at most 1/2 from the value (ties
to even), made of an optional sign and digits only (no decimal point, no
exponent), negative values keeping their `-`.  A number inside a compound
emitted through the one-line candidate renders as its `json.Marshal`
literal instead. -/
theorem claim_C1_amended (o : Opts) (level additional : Nat) (n : JNumber) :
    formatIndent o level additional (.num n) = fmtFixed n ∧
    formatOneLine o.sortKeys (.num n) = n.lit ∧
    |n.val - (roundHalfEven n.val : ℚ)| ≤ 1 / 2 ∧
    (fmtFixed n = "-0" ∨ fmtFixed n = toString (roundHalfEven n.val)) ∧
    (∀ c ∈ (fmtFixed n).data, c = '-' ∨ c.isDigit = true) ∧
    (n.val < 0 → ∃ cs, (fmtFixed n).data = '-' :: cs) ∧
    (0 ≤ n.val → ∀ c ∈ (fmtFixed n).data, c.isDigit = true) := by
  refine ⟨formatIndent_num, formatOneLine_num, roundHalfEven_nearest n.val, ?_,
    fmtFixed_chars n, ?_, ?_⟩
  · rw [fmtFixed]
    split
    · exact Or.inl rfl
    · exact Or.inr rfl
  · intro hneg
    rw [fmtFixed]
    by_cases hc : roundHalfEven n.val = 0 ∧ n.val < 0
    · rw [if_pos hc]
      exact ⟨['0'], rfl⟩
    · rw [if_neg hc]
      have hk0 : roundHalfEven n.val ≠ 0 := fun h0 => hc ⟨h0, hneg⟩
      have hkle := roundHalfEven_nonpos hneg
      exact intRepr_head_neg (by omega)
  · intro hpos c hc
    have hcond : ¬ (roundHalfEven n.val = 0 ∧ n.val < 0) :=
      fun h => absurd hpos (not_le.mpr h.2)
    rw [fmtFixed, if_neg hcond] at hc
    exact intRepr_digits_nonneg (roundHalfEven_nonneg hpos) c hc

/-- Claim C5, counterexample: with sort_keys=false the output follows the Go
map's iteration order, which is unspecified and not the decode order.  The
document `{"b":1,"a":2}` decodes to the map {a↦2, b↦1} with insertion order
b,a; iterating it as a,b — a legal iteration of the same map — renders
`{"a": 2, "b": 1}`, which does not preserve decode order, and differs from
the rendering of the other iteration order, so the output is not even a
function of the decoded document. -/
theorem claim_C5_counterexample :
    formatIndent ⟨80, 2, false⟩ 0 0 (.obj [("a", .num ⟨2, "2"⟩), ("b", .num ⟨1, "1"⟩)]) =
      "\x7b\"a\": 2, \"b\": 1\x7d" ∧
    formatIndent ⟨80, 2, false⟩ 0 0 (.obj [("b", .num ⟨1, "1"⟩), ("a", .num ⟨2, "2"⟩)]) =
      "\x7b\"b\": 1, \"a\": 2\x7d" ∧
    ("\x7b\"a\": 2, \"b\": 1\x7d" : String) ≠ "\x7b\"b\": 1, \"a\": 2\x7d" :=
  ⟨formatIndent_eval (by decide), formatIndent_eval (by decide), by decide⟩

/-- Claim C5 as amended: with sort_keys=true every object's keys are
enumerated in non-decreasing byte-lexicographic order (a permutation of the
map's keys); with sort_keys=false the enumeration is the map's iteration
order exactly as given — not the decode order, which the Go map does not
retain.  Both the one-line and the block form render entries along that
enumeration. -/
theorem claim_C5_amended (o : Opts) (m : List (String × JValue)) (level : Nat) :
    (o.sortKeys = true →
      List.Pairwise (fun a b => strLe a b = true) (orderKeys o.sortKeys m) ∧
      List.Perm (orderKeys o.sortKeys m) (m.map Prod.fst)) ∧
    (o.sortKeys = false → orderKeys o.sortKeys m = m.map Prod.fst) ∧
    formatObjectOneLine o.sortKeys m =
      "\x7b" ++ joinSep ", " ((orderKeys o.sortKeys m).map fun k =>
        quoteString k ++ ": " ++ formatOneLine o.sortKeys (mapGet m k)) ++ "\x7d" ∧
    formatObject o level m =
      joinSep "\n" ("\x7b" ::
        (addCommas ((orderKeys o.sortKeys m).map fun k =>
          spaces ((level + 1) * o.indent) ++ quoteString k ++ ": " ++
            formatIndent o (level + 1) (byteLen (quoteString k) + 2) (mapGet m k))
        ++ [spaces (level * o.indent) ++ "\x7d"])) := by
  refine ⟨?_, ?_, formatObjectOneLine_eq, formatObject_eq⟩
  · intro hsk
    unfold orderKeys
    rw [if_pos hsk]
    exact ⟨sortStrings_sorted _, sortStrings_perm _⟩
  · intro hsk
    unfold orderKeys
    rw [hsk]
    rfl

/-! ## Claim C9: the output write loop -/

/-- The write loop of `encodeJSON` (src/main.go:60-68), run against a sink
that on each call consumes `min cap (length offered)` leading characters of
the buffer it is offered, `caps` listing the capacity of each successive
call (bytes are modelled by the characters of the rendered text, exact for
ASCII output).  Mirroring the Go loop: the WHOLE rendered buffer `d` is
offered on every iteration, the outstanding count `r` decreases by the
amount consumed (`r -= n`), and the loop stops when `r <= 0` (or when the
capacity schedule is exhausted, standing in for a run cut short). -/
def writeLoop (d : List Char) : List Nat → Int → List Char
  | [], _ => []
  | cap :: caps, r =>
    if r ≤ 0 then []
    else d.take (min cap d.length) ++ writeLoop d caps (r - (min cap d.length : Nat))

/-- `encodeJSON` (src/main.go:54-71): render the document, then write the
rendered text through the sink, starting from `r = len(d)`. -/
def encodeJSON (o : Opts) (v : JValue) (caps : List Nat) : List Char :=
  writeLoop (formatIndent o 0 0 v).data caps ((formatIndent o 0 0 v).data.length : Int)

/-- Claim C9: the claim says the bytes delivered to a partially-consuming
sink are exactly the rendered sequence; the code instead re-offers the whole
buffer from its start on every retry (`output.Write([]byte(d))` with `d`
never advanced, src/main.go:62), so a sink that takes one byte per call
receives `nnnn` for the document `null` — the right TOTAL count, the wrong
bytes.  A sink that takes everything in one call receives the rendered text
exactly. -/
theorem claim_C9 :
    encodeJSON ⟨80, 2, false⟩ .null [1, 1, 1, 1] = "nnnn".data ∧
    "nnnn".data ≠ "null".data ∧
    encodeJSON ⟨80, 2, false⟩ .null [4] = "null".data := by
  have h : formatIndent ⟨80, 2, false⟩ 0 0 .null = "null" := formatIndent_null
  unfold encodeJSON
  rw [h]
  exact ⟨by decide, by decide, by decide⟩

/-! ## Claim C10: termination without error -/

/-- Claim C10: for every finite value of the closed variant set the
recursive formatting functions terminate and return a result without error,
for every width, indent, level and additional: the fuel-instrumented
evaluators — which return `none` whenever the recursion would descend
further than the fuel allows — return the rendering for any fuel of at
least `sizeOf v`, so the recursion depth is bounded by the value's size,
and the `couldn't encode type` error branches are never reached since the
closed variants cover every case. -/
theorem claim_C10 (o : Opts) (level additional : Nat) (v : JValue) (fuel : Nat)
    (h : sizeOf v ≤ fuel) :
    formatIndentF o fuel level additional v = some (formatIndent o level additional v) ∧
    formatOneLineF o.sortKeys fuel v = some (formatOneLine o.sortKeys v) :=
  ⟨formatIndentF_eq fuel level additional v h, formatOneLineF_eq fuel v h⟩

/-- Witness for C10 at a concrete input. -/
theorem claim_C10_witness :
    formatIndentF ⟨80, 2, false⟩ (sizeOf (JValue.arr [JValue.null])) 0 0 (.arr [.null]) =
      some (formatIndent ⟨80, 2, false⟩ 0 0 (.arr [.null])) ∧
    formatOneLineF false (sizeOf (JValue.arr [JValue.null])) (.arr [.null]) =
      some (formatOneLine false (.arr [.null])) :=
  claim_C10 ⟨80, 2, false⟩ 0 0 (.arr [.null]) _ le_rfl

/-! ## Claim C2: the soft width invariant

A line of the block output is exempt from the width budget when its payload
— what stands after the indentation and an optional `\"key\": ` text, up to
an optional trailing comma — is a single scalar literal (the claim's
exception) or a single bracket (which the claim's exception list omits). -/

/-- The texts a scalar value can occupy a line with. -/
def ScalarText (core : String) : Prop :=
  core = "null" ∨ core = "true" ∨ core = "false" ∨
    (∃ s, core = quoteString s) ∨ (∃ n : JNumber, core = fmtFixed n)

/-- A lone bracket. -/
def BracketText (core : String) : Prop :=
  core = "[" ∨ core = "]" ∨ core = "\x7b" ∨ core = "\x7d"

/-- A line of the shape `spaces, optional key text, core, optional comma`
whose core satisfies `P`. -/
def PayloadLine (P : String → Prop) (line : String) : Prop :=
  ∃ (pad : Nat) (kopt core : String) (c : Bool),
    line = spaces pad ++ kopt ++ core ++ (cond c "," "") ∧
    (kopt = "" ∨ ∃ k, kopt = quoteString k ++ ": ") ∧
    P core

theorem append_empty_str (s : String) : s ++ "" = s := by
  cases s with
  | mk d => exact congrArg String.mk (List.append_nil d)

theorem empty_append_str (s : String) : "" ++ s = s := by
  cases s with
  | mk d => rfl

theorem lead_no_nl {lead : String}
    (h : ∃ pad kopt, lead = spaces pad ++ kopt ∧
      (kopt = "" ∨ ∃ k, kopt = quoteString k ++ ": ")) :
    '\n' ∉ lead.data := by
  obtain ⟨pad, kopt, rfl, hk⟩ := h
  rw [String.data_append]
  intro hmem
  rcases List.mem_append.mp hmem with hm | hm
  · exact spaces_no_nl _ hm
  · rcases hk with rfl | ⟨k, rfl⟩
    · cases hm
    · rw [String.data_append] at hm
      rcases List.mem_append.mp hm with hm | hm
      · exact quoteString_no_nl k hm
      · simp at hm

theorem comma_no_nl (c : Bool) : '\n' ∉ (cond c "," "").data := by
  cases c <;> decide

theorem byteLen_comma (c : Bool) : byteLen (cond c "," "") ≤ 1 := by
  cases c <;> decide

theorem payload_of_single {lead core : String} (c : Bool) {P : String → Prop}
    (hlead : ∃ pad kopt, lead = spaces pad ++ kopt ∧
      (kopt = "" ∨ ∃ k, kopt = quoteString k ++ ": "))
    (hP : P core) : PayloadLine P (lead ++ core ++ cond c "," "") := by
  obtain ⟨pad, kopt, rfl, hk⟩ := hlead
  exact ⟨pad, kopt, core, c, rfl, hk, hP⟩

theorem payload_single_nocomma {lead core : String} {P : String → Prop}
    (hlead : ∃ pad kopt, lead = spaces pad ++ kopt ∧
      (kopt = "" ∨ ∃ k, kopt = quoteString k ++ ": "))
    (hP : P core) : PayloadLine P (lead ++ core) := by
  have h := payload_of_single false hlead hP
  simp only [cond_false] at h
  rwa [append_empty_str] at h

theorem spaces_lead (n : Nat) :
    ∃ pad kopt, spaces n = spaces pad ++ kopt ∧
      (kopt = "" ∨ ∃ k, kopt = quoteString k ++ ": ") :=
  ⟨n, "", (append_empty_str _).symm, Or.inl rfl⟩

theorem keyed_lead (n : Nat) (k : String) :
    ∃ pad kopt, spaces n ++ (quoteString k ++ ": ") = spaces pad ++ kopt ∧
      (kopt = "" ∨ ∃ k2, kopt = quoteString k2 ++ ": ") :=
  ⟨n, quoteString k ++ ": ", rfl, Or.inr ⟨k, rfl⟩⟩

theorem block_reassoc (lead openB closeB : String) (mids : List String) (c : Bool) :
    lead ++ joinSep "\n" (openB :: (addCommas mids ++ [closeB])) ++ cond c "," "" =
      joinSep "\n" (((lead ++ openB) :: addCommas mids) ++ [closeB ++ cond c "," ""]) := by
  rw [append_joinSep_cons]
  rw [show (lead ++ openB) :: (addCommas mids ++ [closeB]) =
      ((lead ++ openB) :: addCommas mids) ++ [closeB] from rfl]
  rw [joinSep_append_last]

/-- The shape of the text standing before a rendered value on its line. -/
def LeadShape (lead : String) : Prop :=
  ∃ pad kopt, lead = spaces pad ++ kopt ∧
    (kopt = "" ∨ ∃ k, kopt = quoteString k ++ ": ")

theorem softLines_scalar {w : Nat} {lead T : String} {c : Bool}
    (hlead : LeadShape lead) (hTnl : '\n' ∉ T.data) (hT : ScalarText T) :
    ∀ line ∈ lines (lead ++ T ++ cond c "," ""),
      byteLen line ≤ w + 1 ∨ PayloadLine ScalarText line ∨ PayloadLine BracketText line := by
  intro line hline
  have hnl : '\n' ∉ (lead ++ T ++ cond c "," "").data := by
    rw [String.data_append, String.data_append]
    intro hm
    rcases List.mem_append.mp hm with hm | hm
    · rcases List.mem_append.mp hm with hm | hm
      · exact lead_no_nl hlead hm
      · exact hTnl hm
    · exact comma_no_nl c hm
  rw [lines_of_no_nl hnl] at hline
  have heq := List.mem_singleton.mp hline
  subst heq
  exact Or.inr (Or.inl (payload_of_single c hlead hT))

theorem softLines_main {o : Opts} : ∀ (fuel : Nat) (v : JValue)
    (level additional : Nat) (lead : String) (c : Bool),
    sizeOf v ≤ fuel → litsOk v = true →
    byteLen lead = level * o.indent + additional →
    LeadShape lead →
    ∀ line ∈ lines (lead ++ formatIndent o level additional v ++ cond c "," ""),
      byteLen line ≤ o.width + 1 ∨ PayloadLine ScalarText line ∨ PayloadLine BracketText line := by
  intro fuel
  induction fuel with
  | zero =>
    intro v _ _ _ _ hv _ _ _
    have := one_le_sizeOf v
    omega
  | succ fuel ih =>
    intro v level additional lead c hv hok hlen hshape line hline
    match v with
    | .null =>
      rw [formatIndent_null] at hline
      exact softLines_scalar hshape (by decide) (Or.inl rfl) line hline
    | .bool b =>
      rw [formatIndent_bool] at hline
      refine softLines_scalar hshape (by cases b <;> decide) ?_ line hline
      cases b
      · exact Or.inr (Or.inr (Or.inl rfl))
      · exact Or.inr (Or.inl rfl)
    | .num n =>
      rw [formatIndent_num] at hline
      exact softLines_scalar hshape (fmtFixed_no_nl n)
        (Or.inr (Or.inr (Or.inr (Or.inr ⟨n, rfl⟩)))) line hline
    | .str s0 =>
      rw [formatIndent_str] at hline
      exact softLines_scalar hshape (quoteString_no_nl s0)
        (Or.inr (Or.inr (Or.inr (Or.inl ⟨s0, rfl⟩)))) line hline
    | .arr xs =>
      have hxs : sizeOf xs ≤ fuel := by
        simp only [JValue.arr.sizeOf_spec] at hv
        omega
      rw [formatIndent_arr] at hline
      by_cases hfit : level * o.indent + additional +
          byteLen (formatOneLine o.sortKeys (.arr xs)) ≤ o.width
      · rw [if_pos hfit] at hline
        have hdnl : '\n' ∉ (formatOneLine o.sortKeys (.arr xs)).data :=
          formatOneLine_no_nl _ _ le_rfl hok
        have hnl : '\n' ∉ (lead ++ formatOneLine o.sortKeys (.arr xs) ++ cond c "," "").data := by
          rw [String.data_append, String.data_append]
          intro hm
          rcases List.mem_append.mp hm with hm | hm
          · rcases List.mem_append.mp hm with hm | hm
            · exact lead_no_nl hshape hm
            · exact hdnl hm
          · exact comma_no_nl c hm
        rw [lines_of_no_nl hnl] at hline
        have heq := List.mem_singleton.mp hline
        subst heq
        left
        rw [byteLen_append, byteLen_append, hlen]
        have := byteLen_comma c
        omega
      · rw [if_neg hfit, formatArray_eq, block_reassoc] at hline
        obtain ⟨b, hb, hlb⟩ := (mem_lines_joinSep (by simp)).mp hline
        rcases List.mem_append.mp hb with hb | hb
        · rcases List.mem_cons.mp hb with rfl | hb
          · have hnl : '\n' ∉ (lead ++ "[").data := by
              rw [String.data_append]
              intro hm
              rcases List.mem_append.mp hm with hm | hm
              · exact lead_no_nl hshape hm
              · simp at hm
            rw [lines_of_no_nl hnl] at hlb
            have heq := List.mem_singleton.mp hlb
            subst heq
            exact Or.inr (Or.inr (payload_single_nocomma hshape (Or.inl rfl)))
          · obtain ⟨x, hx, hbx⟩ := mem_addCommas hb
            obtain ⟨child, hchild, rfl⟩ := List.mem_map.mp hx
            have hsz : sizeOf child ≤ fuel :=
              le_of_lt (lt_of_lt_of_le (List.sizeOf_lt_of_mem hchild) hxs)
            have hokc : litsOk child = true := litsOk_arr.mp hok child hchild
            have hlead2 : byteLen (spaces ((level + 1) * o.indent)) =
                (level + 1) * o.indent + 0 := by
              rw [byteLen_spaces]
              omega
            rcases hbx with rfl | rfl
            · refine ih child (level + 1) 0 _ false hsz hokc hlead2 (spaces_lead _) line ?_
              simp only [cond_false]
              rw [append_empty_str]
              exact hlb
            · refine ih child (level + 1) 0 _ true hsz hokc hlead2 (spaces_lead _) line ?_
              simp only [cond_true]
              exact hlb
        · have heqb := List.mem_singleton.mp hb
          subst heqb
          have hnl : '\n' ∉ ((spaces (level * o.indent) ++ "]") ++ cond c "," "").data := by
            rw [String.data_append, String.data_append]
            intro hm
            rcases List.mem_append.mp hm with hm | hm
            · rcases List.mem_append.mp hm with hm | hm
              · exact spaces_no_nl _ hm
              · simp at hm
            · exact comma_no_nl c hm
          rw [lines_of_no_nl hnl] at hlb
          have heq := List.mem_singleton.mp hlb
          subst heq
          exact Or.inr (Or.inr (payload_of_single c (spaces_lead _) (Or.inr (Or.inl rfl))))
    | .obj m =>
      have hm' : sizeOf m ≤ fuel := by
        simp only [JValue.obj.sizeOf_spec] at hv
        omega
      rw [formatIndent_obj] at hline
      by_cases hfit : level * o.indent + additional +
          byteLen (formatOneLine o.sortKeys (.obj m)) ≤ o.width
      · rw [if_pos hfit] at hline
        have hdnl : '\n' ∉ (formatOneLine o.sortKeys (.obj m)).data :=
          formatOneLine_no_nl _ _ le_rfl hok
        have hnl : '\n' ∉ (lead ++ formatOneLine o.sortKeys (.obj m) ++ cond c "," "").data := by
          rw [String.data_append, String.data_append]
          intro hm
          rcases List.mem_append.mp hm with hm | hm
          · rcases List.mem_append.mp hm with hm | hm
            · exact lead_no_nl hshape hm
            · exact hdnl hm
          · exact comma_no_nl c hm
        rw [lines_of_no_nl hnl] at hline
        have heq := List.mem_singleton.mp hline
        subst heq
        left
        rw [byteLen_append, byteLen_append, hlen]
        have := byteLen_comma c
        omega
      · rw [if_neg hfit, formatObject_eq, block_reassoc] at hline
        obtain ⟨b, hb, hlb⟩ := (mem_lines_joinSep (by simp)).mp hline
        rcases List.mem_append.mp hb with hb | hb
        · rcases List.mem_cons.mp hb with rfl | hb
          · have hnl : '\n' ∉ (lead ++ "\x7b").data := by
              rw [String.data_append]
              intro hm
              rcases List.mem_append.mp hm with hm | hm
              · exact lead_no_nl hshape hm
              · simp at hm
            rw [lines_of_no_nl hnl] at hlb
            have heq := List.mem_singleton.mp hlb
            subst heq
            exact Or.inr (Or.inr (payload_single_nocomma hshape (Or.inr (Or.inr (Or.inl rfl)))))
          · obtain ⟨x, hx, hbx⟩ := mem_addCommas hb
            obtain ⟨k, hk, rfl⟩ := List.mem_map.mp hx
            have hsz : sizeOf (mapGet m k) ≤ fuel :=
              le_of_lt (lt_of_lt_of_le (sizeOf_mapGet_of_mem_orderKeys hk) hm')
            have hokc : litsOk (mapGet m k) = true := litsOk_mapGet hok k
            have hassoc : spaces ((level + 1) * o.indent) ++ quoteString k ++ ": " ++
                formatIndent o (level + 1) (byteLen (quoteString k) + 2) (mapGet m k) =
                (spaces ((level + 1) * o.indent) ++ (quoteString k ++ ": ")) ++
                  formatIndent o (level + 1) (byteLen (quoteString k) + 2) (mapGet m k) := by
              rw [String.append_assoc (spaces ((level + 1) * o.indent)) (quoteString k) ": "]
            have hlead2 : byteLen (spaces ((level + 1) * o.indent) ++ (quoteString k ++ ": ")) =
                (level + 1) * o.indent + (byteLen (quoteString k) + 2) := by
              rw [byteLen_append, byteLen_spaces, byteLen_append]
              rfl
            rcases hbx with rfl | rfl
            · refine ih (mapGet m k) (level + 1) (byteLen (quoteString k) + 2) _ false hsz hokc
                hlead2 (keyed_lead _ k) line ?_
              simp only [cond_false]
              rw [append_empty_str, ← hassoc]
              exact hlb
            · refine ih (mapGet m k) (level + 1) (byteLen (quoteString k) + 2) _ true hsz hokc
                hlead2 (keyed_lead _ k) line ?_
              simp only [cond_true]
              rw [← hassoc]
              exact hlb
        · have heqb := List.mem_singleton.mp hb
          subst heqb
          have hnl : '\n' ∉ ((spaces (level * o.indent) ++ "\x7d") ++ cond c "," "").data := by
            rw [String.data_append, String.data_append]
            intro hm
            rcases List.mem_append.mp hm with hm | hm
            · rcases List.mem_append.mp hm with hm | hm
              · exact spaces_no_nl _ hm
              · simp at hm
            · exact comma_no_nl c hm
          rw [lines_of_no_nl hnl] at hlb
          have heq := List.mem_singleton.mp hlb
          subst heq
          exact Or.inr (Or.inr (payload_of_single c (spaces_lead _) (Or.inr (Or.inr (Or.inr rfl)))))

theorem scalarText_head {core : String} (h : ScalarText core) :
    ∃ ch rest, core.data = ch :: rest ∧
      (ch = 'n' ∨ ch = 't' ∨ ch = 'f' ∨ ch = '"' ∨ ch = '-' ∨ ch.isDigit = true) := by
  rcases h with rfl | rfl | rfl | ⟨s, rfl⟩ | ⟨n, rfl⟩
  · exact ⟨'n', _, rfl, Or.inl rfl⟩
  · exact ⟨'t', _, rfl, Or.inr (Or.inl rfl)⟩
  · exact ⟨'f', _, rfl, Or.inr (Or.inr (Or.inl rfl))⟩
  · exact ⟨'"', _, quoteString_data s, Or.inr (Or.inr (Or.inr (Or.inl rfl)))⟩
  · obtain ⟨c, cs, hd, hc⟩ := fmtFixed_head n
    refine ⟨c, cs, hd, ?_⟩
    rcases hc with rfl | hc
    · exact Or.inr (Or.inr (Or.inr (Or.inr (Or.inl rfl))))
    · exact Or.inr (Or.inr (Or.inr (Or.inr (Or.inr hc))))

theorem payload_first_char {line : String} (h : PayloadLine ScalarText line) :
    ∃ pad rest ch, line.data = List.replicate pad ' ' ++ ch :: rest ∧
      (ch = 'n' ∨ ch = 't' ∨ ch = 'f' ∨ ch = '"' ∨ ch = '-' ∨ ch.isDigit = true) := by
  obtain ⟨pad, kopt, core, c, heq, hkopt, hscal⟩ := h
  obtain ⟨ch, rest2, hcore, hch⟩ := scalarText_head hscal
  rcases hkopt with rfl | ⟨k, rfl⟩
  · refine ⟨pad, rest2 ++ (cond c "," "").data, ch, ?_, hch⟩
    rw [heq]
    rw [String.data_append, String.data_append, String.data_append, spaces_data, hcore]
    simp
  · refine ⟨pad, ((quoteString k).data.tail ++ [':', ' ']) ++ core.data ++
      (cond c "," "").data, '"', ?_, Or.inr (Or.inr (Or.inr (Or.inl rfl)))⟩
    rw [heq]
    rw [String.data_append, String.data_append, String.data_append, String.data_append,
      spaces_data]
    rw [quoteString_data]
    simp [List.append_assoc]

/-- Claim C2, counterexample: the claim says every line of multi-line output
fits the width except lines holding a single scalar (or key+scalar).  At
width 8 the document `[[null],[true]]` renders with the line `  [null],` —
nine bytes, a complete compound with a trailing comma, neither a scalar
literal nor a key+scalar pair — because the one-line fit check of the inner
array does not budget the comma the enclosing array appends. -/
theorem claim_C2_counterexample :
    lines (formatIndent ⟨8, 2, false⟩ 0 0 (.arr [.arr [.null], .arr [.bool true]])) =
      ["[", "  [null],", "  [true]", "]"] ∧
    byteLen "  [null]," = 9 ∧
    ¬ byteLen "  [null]," ≤ 8 ∧
    ¬ PayloadLine ScalarText "  [null]," := by
  have h1 : formatIndent ⟨8, 2, false⟩ 0 0 (.arr [.arr [.null], .arr [.bool true]]) =
      "[\n  [null],\n  [true]\n]" := formatIndent_eval (by decide)
  refine ⟨by rw [h1]; decide, by decide, by decide, ?_⟩
  intro h
  obtain ⟨pad, rest, ch, hdata, hch⟩ := payload_first_char h
  have hline : ("  [null]," : String).data =
      [' ', ' ', '[', 'n', 'u', 'l', 'l', ']', ','] := rfl
  rw [hline] at hdata
  match pad, hdata with
  | 0, hdata =>
    simp only [List.replicate, List.nil_append, List.cons.injEq] at hdata
    obtain ⟨rfl, -⟩ := hdata
    simp at hch
  | 1, hdata =>
    simp only [List.replicate, List.cons_append, List.nil_append, List.cons.injEq] at hdata
    obtain ⟨-, rfl, -⟩ := hdata
    simp at hch
  | 2, hdata =>
    simp only [List.replicate, List.cons_append, List.nil_append, List.cons.injEq] at hdata
    obtain ⟨-, -, rfl, -⟩ := hdata
    simp at hch
  | (n + 3), hdata =>
    simp only [List.replicate, List.cons_append, List.cons.injEq] at hdata
    obtain ⟨-, -, h3, -⟩ := hdata
    exact absurd h3 (by decide)

/-- Claim C2 as amended: every line of the formatted output either fits in
`width + 1` bytes — the possible one-byte overflow being the trailing comma
the enclosing block appends after a one-line rendering whose fit check did
not budget it — or is a line whose payload (after the indentation and an
optional `\"key\": ` text, up to an optional trailing comma) is a single
scalar literal or a single bracket, emitted unbroken regardless of width.
`litsOk v` says the decoder-supplied number literals contain no newline. -/
theorem claim_C2_amended (o : Opts) (v : JValue) (hok : litsOk v = true) :
    ∀ line ∈ lines (formatIndent o 0 0 v),
      byteLen line ≤ o.width + 1 ∨
      PayloadLine ScalarText line ∨ PayloadLine BracketText line := by
  intro line hline
  refine softLines_main (sizeOf v) v 0 0 "" false le_rfl hok (by simp [byteLen]) ?_ line ?_
  · exact ⟨0, "", rfl, Or.inl rfl⟩
  · simp only [cond_false]
    rw [append_empty_str, empty_append_str]
    exact hline

/-- Witness for C2 at a concrete input. -/
theorem claim_C2_witness :
    byteLen "[null]" ≤ 8 + 1 ∨
    PayloadLine ScalarText "[null]" ∨ PayloadLine BracketText "[null]" := by
  have h : formatIndent ⟨8, 2, false⟩ 0 0 (.arr [.null]) = "[null]" :=
    formatIndent_eval (by decide)
  exact claim_C2_amended ⟨8, 2, false⟩ (.arr [.null]) (by decide) "[null]"
    (by rw [h]; decide)

/-! ## Claim C3: the one-line / block decision rule -/

/-- Claim C3: an array or object rendered at nesting level `level` with
`additional` characters already committed returns the one-line candidate
verbatim (no internal newlines) exactly when `level*indent + additional +
len(candidate) <= width`, and otherwise renders the multi-line block form
(`formatArray`/`formatObject`).  The hypothesis `litsOk v` states that the
number literals the decoder supplied contain no newline, which holds of every
literal `json.Marshal` can produce. -/
theorem claim_C3 (o : Opts) (level additional : Nat) (v : JValue)
    (hok : litsOk v = true) :
    (∀ xs, v = .arr xs →
      (formatIndent o level additional v = formatOneLine o.sortKeys v ↔
        level * o.indent + additional + byteLen (formatOneLine o.sortKeys v) ≤ o.width) ∧
      (level * o.indent + additional + byteLen (formatOneLine o.sortKeys v) ≤ o.width →
        '\n' ∉ (formatIndent o level additional v).data) ∧
      (¬ level * o.indent + additional + byteLen (formatOneLine o.sortKeys v) ≤ o.width →
        formatIndent o level additional v = formatArray o level xs)) ∧
    (∀ m, v = .obj m →
      (formatIndent o level additional v = formatOneLine o.sortKeys v ↔
        level * o.indent + additional + byteLen (formatOneLine o.sortKeys v) ≤ o.width) ∧
      (level * o.indent + additional + byteLen (formatOneLine o.sortKeys v) ≤ o.width →
        '\n' ∉ (formatIndent o level additional v).data) ∧
      (¬ level * o.indent + additional + byteLen (formatOneLine o.sortKeys v) ≤ o.width →
        formatIndent o level additional v = formatObject o level m)) := by
  have hnl : '\n' ∉ (formatOneLine o.sortKeys v).data :=
    formatOneLine_no_nl (sizeOf v) v le_rfl hok
  constructor
  · rintro xs rfl
    rw [formatIndent_arr]
    by_cases hfit : level * o.indent + additional +
        byteLen (formatOneLine o.sortKeys (.arr xs)) ≤ o.width
    · rw [if_pos hfit]
      exact ⟨⟨fun _ => hfit, fun _ => rfl⟩, fun _ => hnl, fun h => absurd hfit h⟩
    · rw [if_neg hfit]
      refine ⟨⟨fun heq => ?_, fun h => absurd h hfit⟩, fun h => absurd h hfit, fun _ => rfl⟩
      have := formatArray_has_nl o level xs
      rw [heq] at this
      exact absurd this hnl
  · rintro m rfl
    rw [formatIndent_obj]
    by_cases hfit : level * o.indent + additional +
        byteLen (formatOneLine o.sortKeys (.obj m)) ≤ o.width
    · rw [if_pos hfit]
      exact ⟨⟨fun _ => hfit, fun _ => rfl⟩, fun _ => hnl, fun h => absurd hfit h⟩
    · rw [if_neg hfit]
      refine ⟨⟨fun heq => ?_, fun h => absurd h hfit⟩, fun h => absurd h hfit, fun _ => rfl⟩
      have := formatObject_has_nl o level m
      rw [heq] at this
      exact absurd this hnl

/-- Witness for C3 at a concrete input: the one-element array `[null]` at
width 80 fits on one line, and the decision rule says so. -/
theorem claim_C3_witness :
    formatIndent ⟨80, 2, false⟩ 0 0 (.arr [.null]) = formatOneLine false (.arr [.null]) ↔
      0 * (2 : Nat) + 0 + byteLen (formatOneLine false (.arr [.null])) ≤ 80 :=
  ((claim_C3 ⟨80, 2, false⟩ 0 0 (.arr [.null]) (by decide)).1 [.null] rfl).1

/-! ## Claim C4: parameters of the recursive block calls -/

/-- Claim C4: in block rendering, every recursive call for an array element
passes `additional = 0`, every recursive call for an object entry's value
passes `additional = len(quoted key) + 2`, and both recurse at `level + 1`;
element lines carry `(level+1)*indent` spaces and a comma on all but the
last, the closing bracket `level*indent` spaces. -/
theorem claim_C4 (o : Opts) (level : Nat) (xs : List JValue)
    (m : List (String × JValue)) :
    formatArray o level xs =
      joinSep "\n" ("[" ::
        (addCommas (xs.map fun v =>
          spaces ((level + 1) * o.indent) ++ formatIndent o (level + 1) 0 v)
        ++ [spaces (level * o.indent) ++ "]"])) ∧
    formatObject o level m =
      joinSep "\n" ("\x7b" ::
        (addCommas ((orderKeys o.sortKeys m).map fun k =>
          spaces ((level + 1) * o.indent) ++ quoteString k ++ ": " ++
            formatIndent o (level + 1) (byteLen (quoteString k) + 2) (mapGet m k))
        ++ [spaces (level * o.indent) ++ "\x7d"])) :=
  ⟨formatArray_eq, formatObject_eq⟩

/-! ## Claim C7: empty compounds -/

/-- Claim C7, counterexample: the claim says `[]` and `{}` render unbroken
regardless of the width budget, but at width 1 (where `0*indent + 0 + 2 > 1`)
the code takes the block path and emits a newline. -/
theorem claim_C7_counterexample :
    formatIndent ⟨1, 2, false⟩ 0 0 (.arr []) = "[\n]" ∧
    formatIndent ⟨1, 2, false⟩ 0 0 (.arr []) ≠ "[]" ∧
    formatIndent ⟨1, 2, false⟩ 0 0 (.obj []) = "\x7b\n\x7d" ∧
    formatIndent ⟨1, 2, false⟩ 0 0 (.obj []) ≠ "{}" := by
  have h1 : formatIndent ⟨1, 2, false⟩ 0 0 (.arr []) = "[\n]" :=
    formatIndent_eval (by decide)
  have h2 : formatIndent ⟨1, 2, false⟩ 0 0 (.obj []) = "\x7b\n\x7d" :=
    formatIndent_eval (by decide)
  exact ⟨h1, by rw [h1]; decide, h2, by rw [h2]; decide⟩

/-- Claim C7 as amended: an empty array or object renders as `[]` / `{}`
exactly when the two-character candidate fits the budget
(`level*indent + additional + 2 <= width`); otherwise the block form is a
two-line rendering with the closing bracket at the parent's indentation. -/
theorem claim_C7_amended (o : Opts) (level additional : Nat) :
    (level * o.indent + additional + 2 ≤ o.width →
      formatIndent o level additional (.arr []) = "[]" ∧
      formatIndent o level additional (.obj []) = "{}") ∧
    (o.width < level * o.indent + additional + 2 →
      formatIndent o level additional (.arr []) = "[" ++ "\n" ++ (spaces (level * o.indent) ++ "]") ∧
      formatIndent o level additional (.obj []) = "\x7b" ++ "\n" ++ (spaces (level * o.indent) ++ "\x7d")) := by
  have harr : formatOneLine o.sortKeys (.arr []) = "[]" := by
    rw [formatOneLine_arr]
    rfl
  have hkeys : orderKeys o.sortKeys [] = [] := by
    unfold orderKeys
    split <;> rfl
  have hobj : formatOneLine o.sortKeys (.obj []) = "{}" := by
    rw [formatOneLine_obj, hkeys]
    rfl
  have hlen2a : byteLen (formatOneLine o.sortKeys (.arr [])) = 2 := by rw [harr]; rfl
  have hlen2o : byteLen (formatOneLine o.sortKeys (.obj [])) = 2 := by rw [hobj]; rfl
  constructor
  · intro hfit
    constructor
    · rw [formatIndent_arr, hlen2a, if_pos hfit, harr]
    · rw [formatIndent_obj, hlen2o, if_pos hfit, hobj]
  · intro hover
    have hfa : ¬ level * o.indent + additional +
        byteLen (formatOneLine o.sortKeys (.arr [])) ≤ o.width := by
      rw [hlen2a]; omega
    have hfo : ¬ level * o.indent + additional +
        byteLen (formatOneLine o.sortKeys (.obj [])) ≤ o.width := by
      rw [hlen2o]; omega
    constructor
    · rw [formatIndent_arr, if_neg hfa, formatArray_eq]
      rfl
    · rw [formatIndent_obj, if_neg hfo, formatObject_eq, hkeys]
      rfl

/-! ## Claim C8: closing bracket indentation -/

theorem getLast_map_mk (L : List (List Char)) :
    ((L.map String.mk).getLast?) = (L.getLast?).map String.mk := by
  induction L with
  | nil => rfl
  | cons a t ih =>
    rcases t with _ | ⟨b, t⟩
    · rfl
    · simpa using ih

/-- Claim C8: in every block rendering, the closing bracket line carries
exactly `level*indent` spaces — the parent's level before descending, never
the child's. -/
theorem claim_C8 (o : Opts) (level : Nat) (xs : List JValue)
    (m : List (String × JValue)) :
    (lines (formatArray o level xs)).getLast? = some (spaces (level * o.indent) ++ "]") ∧
    (lines (formatObject o level m)).getLast? = some (spaces (level * o.indent) ++ "\x7d") := by
  constructor
  · rw [formatArray_eq]
    have hclosenl : '\n' ∉ (spaces (level * o.indent) ++ "]").data := by
      rw [String.data_append]
      intro h
      rcases List.mem_append.mp h with h | h
      · exact spaces_no_nl _ h
      · simp at h
    unfold lines
    rw [linesL_joinSep _ (List.cons_ne_nil _ _), getLast_map_mk]
    rw [List.map_cons, List.map_append]
    rw [List.flatten_cons]
    have : (List.map (fun b => linesL b.data)
        [spaces (level * o.indent) ++ "]"]).flatten = [(spaces (level * o.indent) ++ "]").data] := by
      simp only [List.map_cons, List.map_nil, List.flatten_cons, List.flatten_nil,
        List.append_nil]
      exact linesL_no_nl hclosenl
    rw [List.flatten_append, this]
    rw [← List.append_assoc, List.getLast?_concat]
    rfl
  · rw [formatObject_eq]
    have hclosenl : '\n' ∉ (spaces (level * o.indent) ++ "\x7d").data := by
      rw [String.data_append]
      intro h
      rcases List.mem_append.mp h with h | h
      · exact spaces_no_nl _ h
      · simp at h
    unfold lines
    rw [linesL_joinSep _ (List.cons_ne_nil _ _), getLast_map_mk]
    rw [List.map_cons, List.map_append]
    rw [List.flatten_cons]
    have : (List.map (fun b => linesL b.data)
        [spaces (level * o.indent) ++ "\x7d"]).flatten = [(spaces (level * o.indent) ++ "\x7d").data] := by
      simp only [List.map_cons, List.map_nil, List.flatten_cons, List.flatten_nil,
        List.append_nil]
      exact linesL_no_nl hclosenl
    rw [List.flatten_append, this]
    rw [← List.append_assoc, List.getLast?_concat]
    rfl

end PJ

namespace PJ

/-! ## Claim C6: idempotence, and the decoder model

`decodeJSON` is modelled from the spec: the input collaborator of spec §6 —
"a JSON decoder that reads a byte stream and yields one root Value", treated
as a black box honoring the standard JSON grammar — is not part of
`src/main.go` (the program calls `encoding/json`).  The model is a recursive
descent over the grammar, restricted to what the theorems below feed it:
numbers are signed decimal integers taken at their exact value with their
literal text (the real decoder's float64 quantization is the identity on
them), strings cover the standard escapes including `\uXXXX` (surrogate
pairs are not modelled), and an explicit fuel bounds the recursion depth
(the fuel `length + 1` of `decodeJSON` is harmless: the adequacy theorem
quantifies the fuel explicitly). -/

def skipWs : List Char → List Char
  | [] => []
  | c :: cs => if c = ' ' ∨ c = '\t' ∨ c = '\n' ∨ c = '\r' then skipWs cs else c :: cs

def hexVal (c : Char) : Option Nat :=
  if '0' ≤ c ∧ c ≤ '9' then some (c.toNat - '0'.toNat)
  else if 'a' ≤ c ∧ c ≤ 'f' then some (c.toNat - 'a'.toNat + 10)
  else if 'A' ≤ c ∧ c ≤ 'F' then some (c.toNat - 'A'.toNat + 10)
  else none

/-- What follows a backslash inside a string literal: the standard JSON
escapes, with the continuation reading the remainder of the string body. -/
def escCont (next : List Char → Option (List Char × List Char)) (e : Char)
    (rest2 : List Char) : Option (List Char × List Char) :=
  if e = '"' then (next rest2).map fun p => ('"' :: p.1, p.2)
  else if e = '\\' then (next rest2).map fun p => ('\\' :: p.1, p.2)
  else if e = '/' then (next rest2).map fun p => ('/' :: p.1, p.2)
  else if e = 'b' then (next rest2).map fun p => (Char.ofNat 8 :: p.1, p.2)
  else if e = 'f' then (next rest2).map fun p => (Char.ofNat 12 :: p.1, p.2)
  else if e = 'n' then (next rest2).map fun p => ('\n' :: p.1, p.2)
  else if e = 'r' then (next rest2).map fun p => ('\r' :: p.1, p.2)
  else if e = 't' then (next rest2).map fun p => ('\t' :: p.1, p.2)
  else if e = 'u' then
    match rest2 with
    | h1 :: h2 :: h3 :: h4 :: rest3 =>
      (hexVal h1).bind fun va =>
        (hexVal h2).bind fun vb =>
          (hexVal h3).bind fun vc =>
            (hexVal h4).bind fun vd =>
              (next rest3).map fun p =>
                (Char.ofNat (4096 * va + 256 * vb + 16 * vc + vd) :: p.1, p.2)
    | _ => none
  else none

def parseStringBody : Nat → List Char → Option (List Char × List Char)
  | 0, _ => none
  | fuel + 1, cs =>
    match cs with
    | [] => none
    | c :: rest =>
      if c = '"' then some ([], rest)
      else if c = '\\' then
        match rest with
        | [] => none
        | e :: rest2 => escCont (parseStringBody fuel) e rest2
      else (parseStringBody fuel rest).map fun p => (c :: p.1, p.2)

def digitsToNat (acc : Nat) : List Char → Nat
  | [] => acc
  | c :: cs => digitsToNat (acc * 10 + (c.toNat - '0'.toNat)) cs

def parseNumber (cs : List Char) : Option (JValue × List Char) :=
  if cs.head? = some '-' then
    let ds := cs.tail.takeWhile Char.isDigit
    if ds = [] then none
    else some (.num ⟨(-(digitsToNat 0 ds : Int) : Int), String.mk ('-' :: ds)⟩,
      cs.tail.dropWhile Char.isDigit)
  else
    let ds := cs.takeWhile Char.isDigit
    if ds = [] then none
    else some (.num ⟨((digitsToNat 0 ds : Nat) : Rat), String.mk ds⟩,
      cs.dropWhile Char.isDigit)

/-- The value reader's dispatch on the first significant character, with the
array-tail and object-tail readers passed as continuations. -/
def parseHead (pe : List Char → Option (List JValue × List Char))
    (po : List Char → Option (List (String × JValue) × List Char))
    (c : Char) (rest : List Char) : Option (JValue × List Char) :=
  if c = 'n' then
    if rest.take 3 = ['u', 'l', 'l'] then some (.null, rest.drop 3) else none
  else if c = 't' then
    if rest.take 3 = ['r', 'u', 'e'] then some (.bool true, rest.drop 3) else none
  else if c = 'f' then
    if rest.take 4 = ['a', 'l', 's', 'e'] then some (.bool false, rest.drop 4) else none
  else if c = '"' then
    (parseStringBody (rest.length + 1) rest).map fun p => (.str (String.mk p.1), p.2)
  else if c = '[' then
    if (skipWs rest).head? = some ']' then some (.arr [], (skipWs rest).tail)
    else (pe (skipWs rest)).map fun p => (.arr p.1, p.2)
  else if c = '{' then
    if (skipWs rest).head? = some '}' then some (.obj [], (skipWs rest).tail)
    else (po (skipWs rest)).map fun p => (.obj p.1, p.2)
  else parseNumber (c :: rest)

/-- One object entry: quoted key, colon, value, then a comma or the closing
brace; the value reader and the object-tail reader are continuations. -/
def parseEntryHead (pv : List Char → Option (JValue × List Char))
    (po : List Char → Option (List (String × JValue) × List Char))
    (c : Char) (r : List Char) : Option (List (String × JValue) × List Char) :=
  if c = '"' then
    (parseStringBody (r.length + 1) r).bind fun p =>
      if (skipWs p.2).head? = some ':' then
        (pv (skipWs p.2).tail).bind fun q =>
          if (skipWs q.2).head? = some ',' then
            (po (skipWs q.2).tail).map fun t => ((String.mk p.1, q.1) :: t.1, t.2)
          else if (skipWs q.2).head? = some '}' then
            some ([(String.mk p.1, q.1)], (skipWs q.2).tail)
          else none
      else none
  else none

/-- One fuel step of the recursive descent, giving the value, array-tail and
object-tail readers at that fuel.  Packaging the three mutually recursive
readers as one structural recursion on the fuel keeps them kernel-reducible;
`parseValue`/`parseElems`/`parseEntries` below project out the components and
satisfy the expected unfolding equations definitionally. -/
def parseStep : Nat →
    (List Char → Option (JValue × List Char)) ×
    (List Char → Option (List JValue × List Char)) ×
    (List Char → Option (List (String × JValue) × List Char))
  | 0 => (fun _ => none, fun _ => none, fun _ => none)
  | fuel + 1 =>
    let prev := parseStep fuel
    let pv : List Char → Option (JValue × List Char) := fun cs =>
      match skipWs cs with
      | [] => none
      | c :: rest => parseHead prev.2.1 prev.2.2 c rest
    let pe : List Char → Option (List JValue × List Char) := fun cs =>
      (pv cs).bind fun p =>
        if (skipWs p.2).head? = some ',' then
          (prev.2.1 (skipWs p.2).tail).map fun q => (p.1 :: q.1, q.2)
        else if (skipWs p.2).head? = some ']' then some ([p.1], (skipWs p.2).tail)
        else none
    let po : List Char → Option (List (String × JValue) × List Char) := fun cs =>
      match skipWs cs with
      | [] => none
      | c :: r => parseEntryHead pv prev.2.2 c r
    (pv, pe, po)

/-- The value reader at a given fuel. -/
def parseValue (fuel : Nat) : List Char → Option (JValue × List Char) :=
  (parseStep fuel).1

/-- The array-tail reader (elements after `[`, when the array is nonempty). -/
def parseElems (fuel : Nat) : List Char → Option (List JValue × List Char) :=
  (parseStep fuel).2.1

/-- The object-tail reader (entries after `{`, when the object is nonempty). -/
def parseEntries (fuel : Nat) : List Char → Option (List (String × JValue) × List Char) :=
  (parseStep fuel).2.2

/-- Modelled from the spec: `json.NewDecoder(input).Decode(&v)` — read one
value off the stream (trailing input is left for a next call, which `main`
never makes). -/
def decodeJSON (s : String) : Option JValue :=
  (parseValue (s.data.length + 1) s.data).map Prod.fst

mutual

/-- Fuel sufficient to parse the rendering of a value.  One unit per value
node and list step; for an object, each rendered entry's value is the first
entry of `m` holding its key, so the bound is per-key generous: `m.length`
keys, each consuming at most one key step plus the fuel of some entry's
value. -/
def nodeFuel : JValue → Nat
  | .null => 1
  | .bool _ => 1
  | .num _ => 1
  | .str _ => 1
  | .arr xs => 1 + nodeFuelList xs
  | .obj m => 2 + m.length * (1 + nodeFuelEntries m)

def nodeFuelList : List JValue → Nat
  | [] => 1
  | x :: xs => 1 + nodeFuel x + nodeFuelList xs

/-- The total fuel of the values of an entry list. -/
def nodeFuelEntries : List (String × JValue) → Nat
  | [] => 0
  | e :: es => nodeFuel e.2 + nodeFuelEntries es

end

/-- A number whose two renderings agree: its float is an integer and its
marshalled literal is that integer's decimal text.  For such numbers the
`%.f` fixed-point rendering and the `json.Marshal` literal coincide, the
real decoder's float64 quantization is the identity, and `json.Marshal` of
the reparse reproduces the literal. -/
def stableNum (n : JNumber) : Bool :=
  n.val.den == 1 && n.lit == toString n.val.num

mutual

def stableNums : JValue → Bool
  | .null => true
  | .bool _ => true
  | .num n => stableNum n
  | .str _ => true
  | .arr xs => stableNumsList xs
  | .obj m => stableNumsEntries m

def stableNumsList : List JValue → Bool
  | [] => true
  | x :: xs => stableNums x && stableNumsList xs

def stableNumsEntries : List (String × JValue) → Bool
  | [] => true
  | e :: es => stableNums e.2 && stableNumsEntries es

end

/-- What the decoder model reads back from the formatter's output: arrays
elementwise, and every object rebuilt along its rendered key enumeration
`orderKeys` with the values the renderer looked up (`mapGet`). -/
def orderValue (sk : Bool) : JValue → JValue
  | .null => .null
  | .bool b => .bool b
  | .num n => .num n
  | .str s => .str s
  | .arr xs => .arr (xs.attach.map fun x => orderValue sk x.1)
  | .obj m => .obj ((orderKeys sk m).attach.map fun k => (k.1, orderValue sk (mapGet m k.1)))
termination_by v => sizeOf v
decreasing_by
  · have := List.sizeOf_lt_of_mem x.2
    simp only [JValue.arr.sizeOf_spec]
    omega
  · have := sizeOf_mapGet_of_mem_orderKeys k.2
    simp only [JValue.obj.sizeOf_spec]
    omega

/-- A continuation the number scanner will not run into. -/
def restOk : List Char → Bool
  | [] => true
  | c :: _ => !c.isDigit

/-! ## Whitespace skipping -/

theorem skipWs_cons_ws {c : Char} (h : c = ' ' ∨ c = '\t' ∨ c = '\n' ∨ c = '\r')
    (cs : List Char) : skipWs (c :: cs) = skipWs cs := by
  rw [skipWs, if_pos h]

theorem skipWs_cons_nonws {c : Char} (h : ¬(c = ' ' ∨ c = '\t' ∨ c = '\n' ∨ c = '\r'))
    (cs : List Char) : skipWs (c :: cs) = c :: cs := by
  rw [skipWs, if_neg h]

theorem skipWs_idem (cs : List Char) : skipWs (skipWs cs) = skipWs cs := by
  induction cs with
  | nil => rfl
  | cons c cs ih =>
    by_cases h : c = ' ' ∨ c = '\t' ∨ c = '\n' ∨ c = '\r'
    · rw [skipWs_cons_ws h, ih]
    · rw [skipWs_cons_nonws h, skipWs_cons_nonws h]

theorem skipWs_replicate_space (n : Nat) (cs : List Char) :
    skipWs (List.replicate n ' ' ++ cs) = skipWs cs := by
  induction n with
  | zero => rfl
  | succ n ih =>
    rw [List.replicate_succ, List.cons_append, skipWs_cons_ws (Or.inl rfl), ih]

theorem skipWs_spaces (n : Nat) (cs : List Char) :
    skipWs ((spaces n).data ++ cs) = skipWs cs := by
  rw [spaces_data, skipWs_replicate_space]

theorem skipWs_nl (cs : List Char) : skipWs ('\n' :: cs) = skipWs cs :=
  skipWs_cons_ws (Or.inr (Or.inr (Or.inl rfl))) cs

/-- The characters a rendered JSON value can start with. -/
def startsVal (c : Char) : Prop :=
  c = 'n' ∨ c = 't' ∨ c = 'f' ∨ c = '"' ∨ c = '[' ∨ c = '{' ∨ c = '-' ∨ c.isDigit = true

theorem isDigit_ne {c d : Char} (h : c.isDigit = true) (hd : d.isDigit = false) : c ≠ d := by
  intro he
  subst he
  rw [h] at hd
  cases hd

theorem startsVal_nonws {c : Char} (h : startsVal c) :
    ¬(c = ' ' ∨ c = '\t' ∨ c = '\n' ∨ c = '\r') := by
  intro hc
  rcases h with h | h | h | h | h | h | h | h <;>
    first
      | (subst h; rcases hc with hc | hc | hc | hc <;> cases hc)
      | (rcases hc with hc | hc | hc | hc <;> exact isDigit_ne h (by decide) hc)

theorem skipWs_startsVal {c : Char} (h : startsVal c) (cs : List Char) :
    skipWs (c :: cs) = c :: cs :=
  skipWs_cons_nonws (startsVal_nonws h) cs

/-! ## One-step unfolding of the readers -/

theorem parseValue_succ (f : Nat) (cs : List Char) :
    parseValue (f + 1) cs =
      match skipWs cs with
      | [] => none
      | c :: rest => parseHead (parseElems f) (parseEntries f) c rest := rfl

theorem parseElems_succ (f : Nat) (cs : List Char) :
    parseElems (f + 1) cs =
      (parseValue (f + 1) cs).bind fun p =>
        if (skipWs p.2).head? = some ',' then
          (parseElems f (skipWs p.2).tail).map fun q => (p.1 :: q.1, q.2)
        else if (skipWs p.2).head? = some ']' then some ([p.1], (skipWs p.2).tail)
        else none := rfl

theorem parseEntries_succ (f : Nat) (cs : List Char) :
    parseEntries (f + 1) cs =
      match skipWs cs with
      | [] => none
      | c :: r => parseEntryHead (parseValue (f + 1)) (parseEntries f) c r := rfl

theorem parseValue_skipWs (f : Nat) (cs : List Char) :
    parseValue f (skipWs cs) = parseValue f cs := by
  cases f with
  | zero => rfl
  | succ f => rw [parseValue_succ, parseValue_succ, skipWs_idem]

theorem parseElems_skipWs (f : Nat) (cs : List Char) :
    parseElems f (skipWs cs) = parseElems f cs := by
  cases f with
  | zero => rfl
  | succ f => rw [parseElems_succ, parseElems_succ, parseValue_skipWs]

theorem parseEntries_skipWs (f : Nat) (cs : List Char) :
    parseEntries f (skipWs cs) = parseEntries f cs := by
  cases f with
  | zero => rfl
  | succ f => rw [parseEntries_succ, parseEntries_succ, skipWs_idem]

theorem parseValue_congr {f : Nat} {a b : List Char} (h : skipWs a = skipWs b) :
    parseValue f a = parseValue f b := by
  rw [← parseValue_skipWs f a, h, parseValue_skipWs]

theorem parseElems_congr {f : Nat} {a b : List Char} (h : skipWs a = skipWs b) :
    parseElems f a = parseElems f b := by
  rw [← parseElems_skipWs f a, h, parseElems_skipWs]

theorem parseEntries_congr {f : Nat} {a b : List Char} (h : skipWs a = skipWs b) :
    parseEntries f a = parseEntries f b := by
  rw [← parseEntries_skipWs f a, h, parseEntries_skipWs]

theorem parseValue_head {f : Nat} {cs : List Char} {c : Char} {rest : List Char}
    (h : skipWs cs = c :: rest) :
    parseValue (f + 1) cs = parseHead (parseElems f) (parseEntries f) c rest := by
  rw [parseValue_succ, h]

theorem parseEntries_head {f : Nat} {cs : List Char} {c : Char} {r : List Char}
    (h : skipWs cs = c :: r) :
    parseEntries (f + 1) cs = parseEntryHead (parseValue (f + 1)) (parseEntries f) c r := by
  rw [parseEntries_succ, h]

/-! ## Dispatch of the value reader -/

theorem parseHead_null {pe : List Char → Option (List JValue × List Char)}
    {po : List Char → Option (List (String × JValue) × List Char)} {rest : List Char} :
    parseHead pe po 'n' ('u' :: 'l' :: 'l' :: rest) = some (.null, rest) := rfl

theorem parseHead_true {pe : List Char → Option (List JValue × List Char)}
    {po : List Char → Option (List (String × JValue) × List Char)} {rest : List Char} :
    parseHead pe po 't' ('r' :: 'u' :: 'e' :: rest) = some (.bool true, rest) := rfl

theorem parseHead_false {pe : List Char → Option (List JValue × List Char)}
    {po : List Char → Option (List (String × JValue) × List Char)} {rest : List Char} :
    parseHead pe po 'f' ('a' :: 'l' :: 's' :: 'e' :: rest) = some (.bool false, rest) := rfl

theorem parseHead_quote {pe : List Char → Option (List JValue × List Char)}
    {po : List Char → Option (List (String × JValue) × List Char)} {rest : List Char} :
    parseHead pe po '"' rest =
      (parseStringBody (rest.length + 1) rest).map fun p => (.str (String.mk p.1), p.2) := rfl

theorem parseHead_lbrack {pe : List Char → Option (List JValue × List Char)}
    {po : List Char → Option (List (String × JValue) × List Char)} {rest : List Char} :
    parseHead pe po '[' rest =
      if (skipWs rest).head? = some ']' then some (.arr [], (skipWs rest).tail)
      else (pe (skipWs rest)).map fun p => (.arr p.1, p.2) := rfl

theorem parseHead_lbrace {pe : List Char → Option (List JValue × List Char)}
    {po : List Char → Option (List (String × JValue) × List Char)} {rest : List Char} :
    parseHead pe po '{' rest =
      if (skipWs rest).head? = some '}' then some (.obj [], (skipWs rest).tail)
      else (po (skipWs rest)).map fun p => (.obj p.1, p.2) := rfl

theorem parseHead_other {pe : List Char → Option (List JValue × List Char)}
    {po : List Char → Option (List (String × JValue) × List Char)} {c : Char}
    {rest : List Char} (h1 : c ≠ 'n') (h2 : c ≠ 't') (h3 : c ≠ 'f') (h4 : c ≠ '"')
    (h5 : c ≠ '[') (h6 : c ≠ '{') :
    parseHead pe po c rest = parseNumber (c :: rest) := by
  rw [parseHead, if_neg h1, if_neg h2, if_neg h3, if_neg h4, if_neg h5, if_neg h6]

theorem parseEntryHead_quote {pv : List Char → Option (JValue × List Char)}
    {po : List Char → Option (List (String × JValue) × List Char)} {r : List Char} :
    parseEntryHead pv po '"' r =
      (parseStringBody (r.length + 1) r).bind fun p =>
        if (skipWs p.2).head? = some ':' then
          (pv (skipWs p.2).tail).bind fun q =>
            if (skipWs q.2).head? = some ',' then
              (po (skipWs q.2).tail).map fun t => ((String.mk p.1, q.1) :: t.1, t.2)
            else if (skipWs q.2).head? = some '}' then
              some ([(String.mk p.1, q.1)], (skipWs q.2).tail)
            else none
        else none := rfl

/-! ## Reading a string literal back -/

theorem psb_succ_cons (f : Nat) (c : Char) (rest : List Char) :
    parseStringBody (f + 1) (c :: rest) =
      if c = '"' then some ([], rest)
      else if c = '\\' then
        match rest with
        | [] => none
        | e :: rest2 => escCont (parseStringBody f) e rest2
      else (parseStringBody f rest).map fun p => (c :: p.1, p.2) := rfl

theorem psb_plain {f : Nat} {c : Char} {rest : List Char} (h1 : c ≠ '"')
    (h2 : c ≠ '\\') :
    parseStringBody (f + 1) (c :: rest) =
      (parseStringBody f rest).map fun p => (c :: p.1, p.2) := by
  rw [psb_succ_cons, if_neg h1, if_neg h2]

theorem hexVal_hexDigit {n : Nat} (h : n < 16) : hexVal (hexDigit n) = some n := by
  interval_cases n <;> rfl

theorem escapeChar_ne_nil (c : Char) : escapeChar c ≠ [] := by
  by_cases h1 : c = '"'
  · rw [escapeChar, if_pos h1]; exact List.cons_ne_nil _ _
  by_cases h2 : c = '\\'
  · rw [escapeChar, if_neg h1, if_pos h2]; exact List.cons_ne_nil _ _
  by_cases h3 : c = '\n'
  · rw [escapeChar, if_neg h1, if_neg h2, if_pos h3]; exact List.cons_ne_nil _ _
  by_cases h4 : c = '\r'
  · rw [escapeChar, if_neg h1, if_neg h2, if_neg h3, if_pos h4]; exact List.cons_ne_nil _ _
  by_cases h5 : c = '\t'
  · rw [escapeChar, if_neg h1, if_neg h2, if_neg h3, if_neg h4, if_pos h5]
    exact List.cons_ne_nil _ _
  by_cases h6 : c = '<'
  · rw [escapeChar, if_neg h1, if_neg h2, if_neg h3, if_neg h4, if_neg h5, if_pos h6]
    exact List.cons_ne_nil _ _
  by_cases h7 : c = '>'
  · rw [escapeChar, if_neg h1, if_neg h2, if_neg h3, if_neg h4, if_neg h5, if_neg h6, if_pos h7]
    exact List.cons_ne_nil _ _
  by_cases h8 : c = '&'
  · rw [escapeChar, if_neg h1, if_neg h2, if_neg h3, if_neg h4, if_neg h5, if_neg h6, if_neg h7,
      if_pos h8]
    exact List.cons_ne_nil _ _
  by_cases h9 : c.toNat < 0x20
  · rw [escapeChar, if_neg h1, if_neg h2, if_neg h3, if_neg h4, if_neg h5, if_neg h6, if_neg h7,
      if_neg h8, if_pos h9]
    exact List.cons_ne_nil _ _
  by_cases h10 : c.toNat = 0x2028
  · rw [escapeChar, if_neg h1, if_neg h2, if_neg h3, if_neg h4, if_neg h5, if_neg h6, if_neg h7,
      if_neg h8, if_neg h9, if_pos h10]
    exact List.cons_ne_nil _ _
  by_cases h11 : c.toNat = 0x2029
  · rw [escapeChar, if_neg h1, if_neg h2, if_neg h3, if_neg h4, if_neg h5, if_neg h6, if_neg h7,
      if_neg h8, if_neg h9, if_neg h10, if_pos h11]
    exact List.cons_ne_nil _ _
  · rw [escapeChar, if_neg h1, if_neg h2, if_neg h3, if_neg h4, if_neg h5, if_neg h6, if_neg h7,
      if_neg h8, if_neg h9, if_neg h10, if_neg h11]
    exact List.cons_ne_nil _ _

theorem length_le_flatten_escape (l : List Char) :
    l.length ≤ ((l.map escapeChar).flatten).length := by
  induction l with
  | nil => simp
  | cons c t ih =>
    simp only [List.map_cons, List.flatten_cons, List.length_append, List.length_cons]
    have h1 : 1 ≤ (escapeChar c).length :=
      List.length_pos.mpr (escapeChar_ne_nil c)
    omega

theorem psb_esc (f : Nat) (e : Char) (Y : List Char) :
    parseStringBody (f + 1) ('\\' :: e :: Y) = escCont (parseStringBody f) e Y := rfl

theorem escCont_u00 {next : List Char → Option (List Char × List Char)}
    {a b : Nat} {X : List Char} (ha : a < 16) (hb : b < 16) :
    escCont next 'u' ('0' :: '0' :: hexDigit a :: hexDigit b :: X) =
      (next X).map fun p => (Char.ofNat (16 * a + b) :: p.1, p.2) := by
  rw [show escCont next 'u' ('0' :: '0' :: hexDigit a :: hexDigit b :: X) =
        (hexVal '0').bind fun va =>
          (hexVal '0').bind fun vb =>
            (hexVal (hexDigit a)).bind fun vc =>
              (hexVal (hexDigit b)).bind fun vd =>
                (next X).map fun p =>
                  (Char.ofNat (4096 * va + 256 * vb + 16 * vc + vd) :: p.1, p.2)
      from rfl]
  rw [hexVal_hexDigit ha, hexVal_hexDigit hb,
    show hexVal '0' = some 0 from rfl]
  simp only [Option.some_bind, Nat.mul_zero, Nat.zero_add]

theorem parseStringBody_escape :
    ∀ (l : List Char) (fuel : Nat) (rest : List Char), l.length < fuel →
      parseStringBody fuel ((l.map escapeChar).flatten ++ '"' :: rest) = some (l, rest) := by
  intro l
  induction l with
  | nil =>
    intro fuel rest h
    cases fuel with
    | zero => exact absurd h (by omega)
    | succ f => rfl
  | cons c t ih =>
    intro fuel rest h
    cases fuel with
    | zero => exact absurd h (by omega)
    | succ f =>
      simp only [List.length_cons] at h
      have hI := ih f rest (by omega)
      simp only [List.map_cons, List.flatten_cons, List.append_assoc]
      by_cases h1 : c = '"'
      · subst h1
        exact congrArg (Option.map fun p => ('"' :: p.1, p.2)) hI
      by_cases h2 : c = '\\'
      · subst h2
        exact congrArg (Option.map fun p => ('\\' :: p.1, p.2)) hI
      by_cases h3 : c = '\n'
      · subst h3
        exact congrArg (Option.map fun p => ('\n' :: p.1, p.2)) hI
      by_cases h4 : c = '\r'
      · subst h4
        exact congrArg (Option.map fun p => ('\r' :: p.1, p.2)) hI
      by_cases h5 : c = '\t'
      · subst h5
        exact congrArg (Option.map fun p => ('\t' :: p.1, p.2)) hI
      by_cases h6 : c = '<'
      · subst h6
        exact congrArg (Option.map fun p => ('<' :: p.1, p.2)) hI
      by_cases h7 : c = '>'
      · subst h7
        exact congrArg (Option.map fun p => ('>' :: p.1, p.2)) hI
      by_cases h8 : c = '&'
      · subst h8
        exact congrArg (Option.map fun p => ('&' :: p.1, p.2)) hI
      by_cases h9 : c.toNat < 0x20
      · have he : escapeChar c =
            ['\\', 'u', '0', '0', hexDigit (c.toNat / 16), hexDigit (c.toNat % 16)] := by
          rw [escapeChar, if_neg h1, if_neg h2, if_neg h3, if_neg h4, if_neg h5, if_neg h6,
            if_neg h7, if_neg h8, if_pos h9]
        rw [he]
        simp only [List.cons_append, List.nil_append]
        rw [psb_esc, escCont_u00 (by omega) (by omega)]
        simp only [Nat.div_add_mod, Char.ofNat_toNat]
        rw [hI]
        rfl
      by_cases h10 : c.toNat = 0x2028
      · have hc : c = Char.ofNat 0x2028 := by rw [← h10, Char.ofNat_toNat]
        subst hc
        exact congrArg (Option.map fun p => (Char.ofNat 0x2028 :: p.1, p.2)) hI
      by_cases h11 : c.toNat = 0x2029
      · have hc : c = Char.ofNat 0x2029 := by rw [← h11, Char.ofNat_toNat]
        subst hc
        exact congrArg (Option.map fun p => (Char.ofNat 0x2029 :: p.1, p.2)) hI
      · have he : escapeChar c = [c] := by
          rw [escapeChar, if_neg h1, if_neg h2, if_neg h3, if_neg h4, if_neg h5, if_neg h6,
            if_neg h7, if_neg h8, if_neg h9, if_neg h10, if_neg h11]
        rw [he]
        simp only [List.cons_append, List.nil_append]
        rw [psb_plain h1 h2, hI]
        rfl

/-! ## Reading a number literal back -/

theorem digitsToNat_nil (a : Nat) : digitsToNat a [] = a := rfl

theorem digitsToNat_cons (a : Nat) (c : Char) (cs : List Char) :
    digitsToNat a (c :: cs) = digitsToNat (a * 10 + (c.toNat - '0'.toNat)) cs := rfl

theorem digitChar_sub {m : Nat} (h : m < 10) :
    (Nat.digitChar m).toNat - '0'.toNat = m := by
  interval_cases m <;> rfl

theorem digitsToNat_toDigitsCore :
    ∀ fuel n : Nat, n < fuel →
      ∃ P, 0 < P ∧ ∀ (a : Nat) (ds : List Char),
        digitsToNat a (Nat.toDigitsCore 10 fuel n ds) = digitsToNat (a * P + n) ds := by
  intro fuel
  induction fuel with
  | zero => intro n h; exact absurd h (by omega)
  | succ fuel ih =>
    intro n h
    by_cases h0 : n / 10 = 0
    · refine ⟨10, by omega, fun a ds => ?_⟩
      simp only [Nat.toDigitsCore]
      rw [if_pos h0]
      rw [digitsToNat_cons, digitChar_sub (Nat.mod_lt _ (by norm_num))]
      have hdm := Nat.div_add_mod n 10
      rw [h0, Nat.mul_zero, Nat.zero_add] at hdm
      rw [hdm]
    · have hpos : 0 < n := by
        rcases Nat.eq_zero_or_pos n with h' | h'
        · subst h'; exact absurd rfl h0
        · exact h'
      have hlt : n / 10 < fuel := by
        have := Nat.div_lt_self hpos (by norm_num : 1 < 10)
        omega
      obtain ⟨P, hP, hstep⟩ := ih (n / 10) hlt
      refine ⟨P * 10, Nat.mul_pos hP (by omega), fun a ds => ?_⟩
      simp only [Nat.toDigitsCore]
      rw [if_neg h0]
      rw [hstep a (Nat.digitChar (n % 10) :: ds)]
      rw [digitsToNat_cons, digitChar_sub (Nat.mod_lt _ (by norm_num))]
      have hdm := Nat.div_add_mod n 10
      have hrw : (a * P + n / 10) * 10 + n % 10 = a * (P * 10) + (10 * (n / 10) + n % 10) := by
        ring
      rw [hrw, hdm]

theorem digitsToNat_repr (n : Nat) : digitsToNat 0 (Nat.repr n).data = n := by
  rw [natRepr_data, Nat.toDigits]
  obtain ⟨P, hP, hstep⟩ := digitsToNat_toDigitsCore (n + 1) n (by omega)
  rw [hstep 0 [], Nat.zero_mul, Nat.zero_add, digitsToNat_nil]

theorem takeWhile_digits_append {l rest : List Char} (hl : ∀ c ∈ l, c.isDigit = true)
    (hr : restOk rest = true) :
    (l ++ rest).takeWhile Char.isDigit = l ∧ (l ++ rest).dropWhile Char.isDigit = rest := by
  induction l with
  | nil =>
    simp only [List.nil_append]
    cases rest with
    | nil => exact ⟨rfl, rfl⟩
    | cons c cs =>
      simp only [restOk, Bool.not_eq_true'] at hr
      constructor
      · simp [List.takeWhile_cons, hr]
      · simp [List.dropWhile_cons, hr]
  | cons d l ih =>
    have hd : d.isDigit = true := hl d (List.mem_cons_self _ _)
    obtain ⟨h1, h2⟩ := ih fun c hc => hl c (List.mem_cons_of_mem _ hc)
    constructor
    · simp only [List.cons_append, List.takeWhile_cons, hd, if_true]
      rw [h1]
    · simp only [List.cons_append, List.dropWhile_cons, hd, if_true]
      exact h2

theorem intRepr_ofNat (m : Nat) : toString (Int.ofNat m) = Nat.repr m := rfl

theorem intRepr_negSucc (m : Nat) :
    (toString (Int.negSucc m)).data = '-' :: (Nat.repr (m + 1)).data := rfl

theorem parseNumber_repr (k : Int) {rest : List Char} (hr : restOk rest = true) :
    parseNumber ((toString k).data ++ rest) = some (.num ⟨(k : Rat), toString k⟩, rest) := by
  match k with
  | .ofNat m =>
    rw [intRepr_ofNat]
    obtain ⟨tw, dw⟩ := takeWhile_digits_append (natRepr_digits m) hr
    obtain ⟨c, cs, hd⟩ : ∃ c cs, (Nat.repr m).data = c :: cs := by
      rcases hrepr : (Nat.repr m).data with _ | ⟨c, cs⟩
      · exact absurd hrepr (natRepr_ne_nil m)
      · exact ⟨c, cs, rfl⟩
    have hcdig : c.isDigit = true :=
      natRepr_digits m c (by rw [hd]; exact List.mem_cons_self _ _)
    have hcne : c ≠ '-' := isDigit_ne hcdig (by decide)
    rw [hd] at tw dw
    simp only [List.cons_append] at tw dw
    rw [hd]
    simp only [List.cons_append, parseNumber, List.head?_cons, Option.some.injEq]
    rw [if_neg hcne, tw, dw]
    rw [if_neg (List.cons_ne_nil c cs)]
    have hval : digitsToNat 0 (c :: cs) = m := by
      rw [← hd, digitsToNat_repr]
    rw [hval]
    have hlit : String.mk (c :: cs) = Nat.repr m := by
      rw [← hd]
    rw [hlit]
    norm_cast
  | .negSucc m =>
    rw [show (toString (Int.negSucc m)).data ++ rest =
        '-' :: ((Nat.repr (m + 1)).data ++ rest) from rfl]
    obtain ⟨tw, dw⟩ := takeWhile_digits_append (natRepr_digits (m + 1)) hr
    simp only [parseNumber, List.head?_cons, List.tail_cons]
    rw [if_true, tw, dw]
    rw [if_neg (natRepr_ne_nil (m + 1))]
    rw [digitsToNat_repr]
    have hlit : String.mk ('-' :: (Nat.repr (m + 1)).data) = toString (Int.negSucc m) := by
      rfl
    rw [hlit]
    have hv : (Int.negSucc m : Int) = -((m : Int) + 1) := Int.negSucc_eq m
    rw [hv]
    push_cast
    rfl

/-! ## Stable numbers: the two renderings agree -/

theorem stableNum_iff {n : JNumber} :
    stableNum n = true ↔ n.val.den = 1 ∧ n.lit = toString n.val.num := by
  rw [stableNum]
  simp [Bool.and_eq_true, beq_iff_eq]

theorem roundHalfEven_intCast (k : Int) : roundHalfEven (k : Rat) = k := by
  rw [roundHalfEven]
  simp [Rat.num_intCast, Rat.den_intCast]

theorem stableNum_fmtFixed {n : JNumber} (h : stableNum n = true) :
    fmtFixed n = n.lit := by
  obtain ⟨hden, hlit⟩ := stableNum_iff.mp h
  have hval : ((n.val.num : Rat)) = n.val := Rat.coe_int_num_of_den_eq_one hden
  have hr : roundHalfEven n.val = n.val.num := by
    rw [← hval, roundHalfEven_intCast, Rat.num_intCast]
  rw [fmtFixed, hr]
  by_cases hz : n.val.num = 0 ∧ n.val < 0
  · exfalso
    have h0 : n.val = 0 := by rw [← hval, hz.1]; norm_num
    exact absurd (h0 ▸ hz.2) (lt_irrefl 0)
  · rw [if_neg hz, hlit]

theorem stableNums_num {n : JNumber} : stableNums (.num n) = stableNum n := by
  simp [stableNums]

theorem stableNums_arr {xs : List JValue} :
    stableNums (.arr xs) = stableNumsList xs := by
  simp [stableNums]

theorem stableNums_obj {m : List (String × JValue)} :
    stableNums (.obj m) = stableNumsEntries m := by
  simp [stableNums]

theorem stableNumsList_iff {xs : List JValue} :
    stableNumsList xs = true ↔ ∀ x ∈ xs, stableNums x = true := by
  induction xs with
  | nil => simp [stableNumsList]
  | cons x t ih =>
    simp only [stableNumsList, Bool.and_eq_true, ih, List.mem_cons]
    constructor
    · rintro ⟨h1, h2⟩ y (rfl | hy)
      · exact h1
      · exact h2 y hy
    · intro hh
      exact ⟨hh x (Or.inl rfl), fun y hy => hh y (Or.inr hy)⟩

theorem stableNumsEntries_iff {m : List (String × JValue)} :
    stableNumsEntries m = true ↔ ∀ e ∈ m, stableNums e.2 = true := by
  induction m with
  | nil => simp [stableNumsEntries]
  | cons e t ih =>
    simp only [stableNumsEntries, Bool.and_eq_true, ih, List.mem_cons]
    constructor
    · rintro ⟨h1, h2⟩ y (rfl | hy)
      · exact h1
      · exact h2 y hy
    · intro hh
      exact ⟨hh e (Or.inl rfl), fun y hy => hh y (Or.inr hy)⟩

theorem mapGet_eq_null_or_mem (m : List (String × JValue)) (k : String) :
    mapGet m k = .null ∨ ∃ e ∈ m, mapGet m k = e.2 := by
  induction m with
  | nil => exact Or.inl rfl
  | cons a t ih =>
    obtain ⟨k', v⟩ := a
    by_cases hk : k = k'
    · subst hk
      right
      refine ⟨(k, v), List.mem_cons_self _ _, ?_⟩
      simp [mapGet, List.lookup]
    · have hbeq : (k == k') = false := beq_eq_false_iff_ne.mpr hk
      have hstep : mapGet ((k', v) :: t) k = mapGet t k := by
        simp [mapGet, List.lookup, hbeq]
      rcases ih with h | ⟨e, he, hee⟩
      · left
        rw [hstep, h]
      · right
        exact ⟨e, List.mem_cons_of_mem _ he, by rw [hstep, hee]⟩

theorem stableNums_mapGet {m : List (String × JValue)}
    (h : stableNums (.obj m) = true) (k : String) :
    stableNums (mapGet m k) = true := by
  rw [stableNums_obj] at h
  rcases mapGet_eq_null_or_mem m k with h0 | ⟨e, he, hee⟩
  · rw [h0]
    rfl
  · rw [hee]
    exact (stableNumsEntries_iff.mp h) e he

/-! ## The first character of a rendering -/

theorem startsVal_ne_rbrack {c : Char} (h : startsVal c) : c ≠ ']' := by
  rcases h with h | h | h | h | h | h | h | h
  · subst h; decide
  · subst h; decide
  · subst h; decide
  · subst h; decide
  · subst h; decide
  · subst h; decide
  · subst h; decide
  · exact isDigit_ne h (by decide)

theorem startsVal_ne_rbrace {c : Char} (h : startsVal c) : c ≠ '}' := by
  rcases h with h | h | h | h | h | h | h | h
  · subst h; decide
  · subst h; decide
  · subst h; decide
  · subst h; decide
  · subst h; decide
  · subst h; decide
  · subst h; decide
  · exact isDigit_ne h (by decide)

theorem joinSep_cons_head (sep x : String) (L : List String) :
    ∃ t, (joinSep sep (x :: L)).data = x.data ++ t := by
  cases L with
  | nil =>
    refine ⟨[], ?_⟩
    rw [show joinSep sep [x] = x from rfl]
    exact (List.append_nil _).symm
  | cons y ys =>
    refine ⟨sep.data ++ (joinSep sep (y :: ys)).data, ?_⟩
    rw [show joinSep sep (x :: y :: ys) = x ++ sep ++ joinSep sep (y :: ys) from rfl]
    simp [String.data_append, List.append_assoc]

theorem formatArray_head (o : Opts) (level : Nat) (xs : List JValue) :
    ∃ t, (formatArray o level xs).data = '[' :: t := by
  rw [formatArray_eq]
  obtain ⟨t, ht⟩ := joinSep_cons_head "\n" "[" _
  refine ⟨t, ?_⟩
  rw [ht]
  rfl

theorem formatObject_head (o : Opts) (level : Nat) (m : List (String × JValue)) :
    ∃ t, (formatObject o level m).data = '{' :: t := by
  rw [formatObject_eq]
  obtain ⟨t, ht⟩ := joinSep_cons_head "\n" "\x7b" _
  refine ⟨t, ?_⟩
  rw [ht]
  rfl

theorem formatOneLine_head {sk : Bool} {v : JValue} (hst : stableNums v = true) :
    ∃ c cs, (formatOneLine sk v).data = c :: cs ∧ startsVal c := by
  cases v with
  | null =>
    refine ⟨'n', ['u', 'l', 'l'], ?_, Or.inl rfl⟩
    rw [formatOneLine_null]
  | bool b =>
    cases b with
    | true =>
      refine ⟨'t', ['r', 'u', 'e'], ?_, Or.inr (Or.inl rfl)⟩
      rw [formatOneLine_bool]
      rfl
    | false =>
      refine ⟨'f', ['a', 'l', 's', 'e'], ?_, Or.inr (Or.inr (Or.inl rfl))⟩
      rw [formatOneLine_bool]
      rfl
  | num n =>
    rw [formatOneLine_num]
    rw [stableNums_num] at hst
    obtain ⟨hden, hlit⟩ := stableNum_iff.mp hst
    rw [hlit]
    rcases Int.le_or_lt 0 n.val.num with h | h
    · obtain ⟨c, cs, hd, hdig⟩ := intRepr_head_nonneg h
      exact ⟨c, cs, hd,
        Or.inr (Or.inr (Or.inr (Or.inr (Or.inr (Or.inr (Or.inr hdig))))))⟩
    · obtain ⟨cs, hd⟩ := intRepr_head_neg h
      exact ⟨'-', cs, hd,
        Or.inr (Or.inr (Or.inr (Or.inr (Or.inr (Or.inr (Or.inl rfl))))))⟩
  | str s =>
    refine ⟨'"', (s.data.map escapeChar).flatten ++ ['"'], ?_,
      Or.inr (Or.inr (Or.inr (Or.inl rfl)))⟩
    rw [formatOneLine_str, quoteString_data]
  | arr xs =>
    refine ⟨'[', (joinSep ", " (xs.map (formatOneLine sk))).data ++ "]".data, ?_,
      Or.inr (Or.inr (Or.inr (Or.inr (Or.inl rfl))))⟩
    rw [formatOneLine_arr]
    simp [String.data_append]
  | obj m =>
    refine ⟨'{', (joinSep ", " ((orderKeys sk m).map fun k =>
        quoteString k ++ ": " ++ formatOneLine sk (mapGet m k))).data ++ "\x7d".data, ?_,
      Or.inr (Or.inr (Or.inr (Or.inr (Or.inr (Or.inl rfl)))))⟩
    rw [formatOneLine_obj]
    simp [String.data_append]

theorem formatIndent_head {o : Opts} {level additional : Nat} {v : JValue}
    (hst : stableNums v = true) :
    ∃ c cs, (formatIndent o level additional v).data = c :: cs ∧ startsVal c := by
  cases v with
  | null =>
    refine ⟨'n', ['u', 'l', 'l'], ?_, Or.inl rfl⟩
    rw [formatIndent_null]
  | bool b =>
    cases b with
    | true =>
      refine ⟨'t', ['r', 'u', 'e'], ?_, Or.inr (Or.inl rfl)⟩
      rw [formatIndent_bool]
      rfl
    | false =>
      refine ⟨'f', ['a', 'l', 's', 'e'], ?_, Or.inr (Or.inr (Or.inl rfl))⟩
      rw [formatIndent_bool]
      rfl
  | num n =>
    rw [formatIndent_num]
    obtain ⟨c, cs, hd, hcase⟩ := fmtFixed_head n
    refine ⟨c, cs, hd, ?_⟩
    rcases hcase with h | h
    · exact Or.inr (Or.inr (Or.inr (Or.inr (Or.inr (Or.inr (Or.inl h))))))
    · exact Or.inr (Or.inr (Or.inr (Or.inr (Or.inr (Or.inr (Or.inr h))))))
  | str s =>
    refine ⟨'"', (s.data.map escapeChar).flatten ++ ['"'], ?_,
      Or.inr (Or.inr (Or.inr (Or.inl rfl)))⟩
    rw [formatIndent_str, quoteString_data]
  | arr xs =>
    rw [formatIndent_arr]
    split
    · exact (formatOneLine_head hst).imp fun c h =>
        h.imp fun cs hh => ⟨hh.1, hh.2⟩
    · obtain ⟨t, ht⟩ := formatArray_head o level xs
      exact ⟨'[', t, ht, Or.inr (Or.inr (Or.inr (Or.inr (Or.inl rfl))))⟩
  | obj m =>
    rw [formatIndent_obj]
    split
    · exact (formatOneLine_head hst).imp fun c h =>
        h.imp fun cs hh => ⟨hh.1, hh.2⟩
    · obtain ⟨t, ht⟩ := formatObject_head o level m
      exact ⟨'{', t, ht, Or.inr (Or.inr (Or.inr (Or.inr (Or.inr (Or.inl rfl)))))⟩

/-! ## Fuel accounting for the reader -/

theorem one_le_nodeFuel (v : JValue) : 1 ≤ nodeFuel v := by
  cases v with
  | null => simp [nodeFuel]
  | bool b => simp [nodeFuel]
  | num n => simp [nodeFuel]
  | str s => simp [nodeFuel]
  | arr xs => simp [nodeFuel]
  | obj m =>
    simp only [nodeFuel]
    omega

theorem nodeFuel_mem_entries {m : List (String × JValue)} {e : String × JValue}
    (he : e ∈ m) : nodeFuel e.2 ≤ nodeFuelEntries m := by
  induction m with
  | nil => cases he
  | cons a t ih =>
    rcases List.mem_cons.mp he with rfl | he'
    · simp only [nodeFuelEntries]
      omega
    · have := ih he'
      simp only [nodeFuelEntries]
      omega

theorem nodeFuel_mapGet {m : List (String × JValue)} {k : String}
    (hk : k ∈ m.map Prod.fst) : nodeFuel (mapGet m k) ≤ nodeFuelEntries m := by
  rcases mapGet_eq_null_or_mem m k with h | ⟨e, he, hee⟩
  · rw [h]
    cases m with
    | nil => simp at hk
    | cons a t =>
      have h1 := one_le_nodeFuel a.2
      have h2 : nodeFuel JValue.null = 1 := by simp [nodeFuel]
      simp only [nodeFuelEntries]
      omega
  · rw [hee]
    exact nodeFuel_mem_entries he

/-- The fuel the entry reader consumes along a key list. -/
def keysFuel (m : List (String × JValue)) : List String → Nat
  | [] => 1
  | k :: ks => 1 + nodeFuel (mapGet m k) + keysFuel m ks

theorem keysFuel_le (m : List (String × JValue)) (ks : List String)
    (hks : ∀ k ∈ ks, k ∈ m.map Prod.fst) :
    keysFuel m ks ≤ 1 + ks.length * (1 + nodeFuelEntries m) := by
  induction ks with
  | nil => simp [keysFuel]
  | cons k ks ih =>
    have h1 := nodeFuel_mapGet (hks k (List.mem_cons_self _ _))
    have h2 := ih fun k' hk' => hks k' (List.mem_cons_of_mem _ hk')
    simp only [keysFuel, List.length_cons]
    have h3 : (ks.length + 1) * (1 + nodeFuelEntries m) =
        ks.length * (1 + nodeFuelEntries m) + (1 + nodeFuelEntries m) := by ring
    omega

theorem orderKeys_length (sk : Bool) (m : List (String × JValue)) :
    (orderKeys sk m).length = m.length := by
  rw [orderKeys]
  split
  · rw [(sortStrings_perm _).length_eq, List.length_map]
  · rw [List.length_map]

theorem keysFuel_orderKeys (sk : Bool) (m : List (String × JValue)) :
    1 + keysFuel m (orderKeys sk m) ≤ nodeFuel (.obj m) := by
  have h := keysFuel_le m (orderKeys sk m) fun k hk => mem_orderKeys.mp hk
  rw [orderKeys_length] at h
  have h2 : nodeFuel (.obj m) = 2 + m.length * (1 + nodeFuelEntries m) := by
    simp [nodeFuel]
  omega

/-! ## The value the reader yields -/

theorem orderValue_null {sk : Bool} : orderValue sk .null = .null := by
  simp [orderValue]

theorem orderValue_bool {sk : Bool} {b : Bool} : orderValue sk (.bool b) = .bool b := by
  simp [orderValue]

theorem orderValue_num {sk : Bool} {n : JNumber} : orderValue sk (.num n) = .num n := by
  simp [orderValue]

theorem orderValue_str {sk : Bool} {s : String} : orderValue sk (.str s) = .str s := by
  simp [orderValue]

theorem orderValue_arr {sk : Bool} {xs : List JValue} :
    orderValue sk (.arr xs) = .arr (xs.map (orderValue sk)) := by
  rw [orderValue]
  have h : (xs.attach.map fun x => orderValue sk x.1) = xs.map (orderValue sk) :=
    List.attach_map_coe xs (orderValue sk)
  rw [h]

theorem orderValue_obj {sk : Bool} {m : List (String × JValue)} :
    orderValue sk (.obj m) =
      .obj ((orderKeys sk m).map fun k => (k, orderValue sk (mapGet m k))) := by
  rw [orderValue]
  have h : ((orderKeys sk m).attach.map fun k => (k.1, orderValue sk (mapGet m k.1))) =
      (orderKeys sk m).map fun k => (k, orderValue sk (mapGet m k)) :=
    List.attach_map_coe (orderKeys sk m) fun k => (k, orderValue sk (mapGet m k))
  rw [h]

theorem sortStrings_of_pairwise : ∀ {l : List String},
    List.Pairwise (fun a b => strLe a b = true) l → sortStrings l = l := by
  intro l h
  induction l with
  | nil => rfl
  | cons x xs ih =>
    rw [sortStrings, ih (List.pairwise_cons.mp h).2]
    cases xs with
    | nil => rfl
    | cons y ys =>
      have hxy : strLe x y = true :=
        (List.pairwise_cons.mp h).1 y (List.mem_cons_self _ _)
      rw [insertSorted, if_pos hxy]

theorem mapGet_map_self {ks : List String} {k : String} (f : String → JValue)
    (hk : k ∈ ks) : mapGet (ks.map fun k' => (k', f k')) k = f k := by
  induction ks with
  | nil => cases hk
  | cons a t ih =>
    by_cases hka : k = a
    · subst hka
      simp [mapGet, List.lookup]
    · have hbeq : (k == a) = false := beq_eq_false_iff_ne.mpr hka
      rcases List.mem_cons.mp hk with h | h
      · exact absurd h hka
      · have hstep : mapGet ((a, f a) :: t.map fun k' => (k', f k')) k =
            mapGet (t.map fun k' => (k', f k')) k := by
          simp [mapGet, List.lookup, hbeq]
        rw [List.map_cons, hstep]
        exact ih h

theorem orderKeys_of_orderKeys (sk : Bool) (m : List (String × JValue))
    (f : String → JValue) :
    orderKeys sk ((orderKeys sk m).map fun k => (k, f k)) = orderKeys sk m := by
  have hfst : (((orderKeys sk m).map fun k => (k, f k)).map Prod.fst) = orderKeys sk m := by
    rw [List.map_map]
    have hid : (Prod.fst ∘ fun k : String => (k, f k)) = fun k : String => k := rfl
    rw [hid, List.map_id']
  rw [orderKeys, hfst]
  rcases hsk : sk with _ | _
  · simp only [Bool.false_eq_true, if_false]
  · simp only [if_true]
    have : orderKeys true m = sortStrings (m.map Prod.fst) := by
      rw [orderKeys, if_pos rfl]
    rw [this]
    exact sortStrings_of_pairwise (sortStrings_sorted _)

/-- The rendering of `orderValue sk v` is character-identical to that of `v`:
the renderer enumerates an object through `orderKeys`/`mapGet`, and that
enumeration is invariant under rebuilding the object along it. -/
theorem format_orderValue (o : Opts) : ∀ (fuel : Nat) (v : JValue), sizeOf v ≤ fuel →
    formatOneLine o.sortKeys (orderValue o.sortKeys v) = formatOneLine o.sortKeys v ∧
    ∀ level additional, formatIndent o level additional (orderValue o.sortKeys v) =
      formatIndent o level additional v := by
  intro fuel
  induction fuel with
  | zero =>
    intro v hv
    have := one_le_sizeOf v
    omega
  | succ fuel ih =>
    intro v hv
    cases v with
    | null => rw [orderValue_null]; exact ⟨rfl, fun _ _ => rfl⟩
    | bool b => rw [orderValue_bool]; exact ⟨rfl, fun _ _ => rfl⟩
    | num n => rw [orderValue_num]; exact ⟨rfl, fun _ _ => rfl⟩
    | str s => rw [orderValue_str]; exact ⟨rfl, fun _ _ => rfl⟩
    | arr xs =>
      have hel : ∀ x ∈ xs, sizeOf x ≤ fuel := by
        intro x hx
        have h1 := List.sizeOf_lt_of_mem hx
        simp only [JValue.arr.sizeOf_spec] at hv
        omega
      have hmapOL : (xs.map (orderValue o.sortKeys)).map (formatOneLine o.sortKeys) =
          xs.map (formatOneLine o.sortKeys) := by
        rw [List.map_map]
        exact List.map_congr_left fun x hx => (ih x (hel x hx)).1
      have hOL : formatOneLine o.sortKeys (orderValue o.sortKeys (.arr xs)) =
          formatOneLine o.sortKeys (.arr xs) := by
        rw [orderValue_arr, formatOneLine_arr, formatOneLine_arr, hmapOL]
      refine ⟨hOL, fun level additional => ?_⟩
      have hOL' : formatOneLine o.sortKeys (.arr (xs.map (orderValue o.sortKeys))) =
          formatOneLine o.sortKeys (.arr xs) := by
        rw [← orderValue_arr]
        exact hOL
      rw [orderValue_arr, formatIndent_arr, formatIndent_arr, hOL']
      have harr : formatArray o level (xs.map (orderValue o.sortKeys)) =
          formatArray o level xs := by
        rw [formatArray_eq, formatArray_eq, List.map_map]
        have hmap : xs.map ((fun v => spaces ((level + 1) * o.indent) ++
              formatIndent o (level + 1) 0 v) ∘ orderValue o.sortKeys) =
            xs.map fun v => spaces ((level + 1) * o.indent) ++
              formatIndent o (level + 1) 0 v :=
          List.map_congr_left fun x hx => by
            simp only [Function.comp_apply]
            rw [(ih x (hel x hx)).2 (level + 1) 0]
        rw [hmap]
      rw [harr]
    | obj m =>
      have hvent : ∀ k ∈ orderKeys o.sortKeys m, sizeOf (mapGet m k) ≤ fuel := by
        intro k hk
        have h1 := sizeOf_mapGet_of_mem_orderKeys hk
        simp only [JValue.obj.sizeOf_spec] at hv
        omega
      have hkeys : orderKeys o.sortKeys ((orderKeys o.sortKeys m).map fun k =>
          (k, orderValue o.sortKeys (mapGet m k))) = orderKeys o.sortKeys m :=
        orderKeys_of_orderKeys _ _ _
      have hget : ∀ k ∈ orderKeys o.sortKeys m,
          mapGet ((orderKeys o.sortKeys m).map fun k' =>
            (k', orderValue o.sortKeys (mapGet m k'))) k =
          orderValue o.sortKeys (mapGet m k) :=
        fun k hk => mapGet_map_self _ hk
      have hOL : formatOneLine o.sortKeys (orderValue o.sortKeys (.obj m)) =
          formatOneLine o.sortKeys (.obj m) := by
        rw [orderValue_obj, formatOneLine_obj, formatOneLine_obj, hkeys]
        have hmap : (orderKeys o.sortKeys m).map (fun k =>
            quoteString k ++ ": " ++ formatOneLine o.sortKeys
              (mapGet ((orderKeys o.sortKeys m).map fun k' =>
                (k', orderValue o.sortKeys (mapGet m k'))) k)) =
            (orderKeys o.sortKeys m).map fun k =>
              quoteString k ++ ": " ++ formatOneLine o.sortKeys (mapGet m k) :=
          List.map_congr_left fun k hk => by
            rw [hget k hk, (ih (mapGet m k) (hvent k hk)).1]
        rw [hmap]
      refine ⟨hOL, fun level additional => ?_⟩
      have hOL' : formatOneLine o.sortKeys (.obj ((orderKeys o.sortKeys m).map fun k =>
          (k, orderValue o.sortKeys (mapGet m k)))) =
          formatOneLine o.sortKeys (.obj m) := by
        rw [← orderValue_obj]
        exact hOL
      rw [orderValue_obj, formatIndent_obj, formatIndent_obj, hOL']
      have hobj : formatObject o level ((orderKeys o.sortKeys m).map fun k =>
          (k, orderValue o.sortKeys (mapGet m k))) = formatObject o level m := by
        rw [formatObject_eq, formatObject_eq, hkeys]
        have hmap : (orderKeys o.sortKeys m).map (fun k =>
            spaces ((level + 1) * o.indent) ++ quoteString k ++ ": " ++
              formatIndent o (level + 1) (byteLen (quoteString k) + 2)
                (mapGet ((orderKeys o.sortKeys m).map fun k' =>
                  (k', orderValue o.sortKeys (mapGet m k'))) k)) =
            (orderKeys o.sortKeys m).map fun k =>
              spaces ((level + 1) * o.indent) ++ quoteString k ++ ": " ++
                formatIndent o (level + 1) (byteLen (quoteString k) + 2) (mapGet m k) :=
          List.map_congr_left fun k hk => by
            rw [hget k hk,
              (ih (mapGet m k) (hvent k hk)).2 (level + 1) (byteLen (quoteString k) + 2)]
        rw [hmap]
      rw [hobj]

/-! ## Round trip: the reader inverts the compact renderer -/

theorem one_le_nodeFuelList (xs : List JValue) : 1 ≤ nodeFuelList xs := by
  cases xs with
  | nil => simp [nodeFuelList]
  | cons x t =>
    have := one_le_nodeFuel x
    simp only [nodeFuelList]
    omega

theorem one_le_keysFuel (m : List (String × JValue)) (ks : List String) :
    1 ≤ keysFuel m ks := by
  cases ks with
  | nil => simp [keysFuel]
  | cons k t =>
    simp only [keysFuel]
    omega

theorem parse_format_oneline (o : Opts) : ∀ fuel : Nat,
    (∀ (v : JValue) (rest : List Char), stableNums v = true → nodeFuel v ≤ fuel →
      restOk rest = true →
      parseValue fuel ((formatOneLine o.sortKeys v).data ++ rest) =
        some (orderValue o.sortKeys v, rest)) ∧
    (∀ (xs : List JValue) (rest : List Char), xs ≠ [] → stableNumsList xs = true →
      nodeFuelList xs ≤ fuel → restOk rest = true →
      parseElems fuel
          ((joinSep ", " (xs.map (formatOneLine o.sortKeys))).data ++ ']' :: rest) =
        some (xs.map (orderValue o.sortKeys), rest)) ∧
    (∀ (m : List (String × JValue)) (ks : List String) (rest : List Char), ks ≠ [] →
      (∀ k ∈ ks, stableNums (mapGet m k) = true) →
      keysFuel m ks ≤ fuel → restOk rest = true →
      parseEntries fuel
          ((joinSep ", " (ks.map fun k =>
            quoteString k ++ ": " ++ formatOneLine o.sortKeys (mapGet m k))).data ++
            '}' :: rest) =
        some (ks.map fun k => (k, orderValue o.sortKeys (mapGet m k)), rest)) := by
  intro fuel
  induction fuel with
  | zero =>
    refine ⟨fun v rest _ hf _ => ?_, fun xs rest _ _ hf _ => ?_, fun m ks rest _ _ hf _ => ?_⟩
    · exact absurd hf (by have := one_le_nodeFuel v; omega)
    · exact absurd hf (by have := one_le_nodeFuelList xs; omega)
    · exact absurd hf (by have := one_le_keysFuel m ks; omega)
  | succ fuel ih =>
    have hA : ∀ (v : JValue) (rest : List Char), stableNums v = true →
        nodeFuel v ≤ fuel + 1 → restOk rest = true →
        parseValue (fuel + 1) ((formatOneLine o.sortKeys v).data ++ rest) =
          some (orderValue o.sortKeys v, rest) := by
      intro v rest hst hfuel hrest
      cases v with
      | null =>
        rw [formatOneLine_null, orderValue_null]
        have hd : skipWs (("null" : String).data ++ rest) =
            'n' :: ('u' :: 'l' :: 'l' :: rest) :=
          skipWs_startsVal (Or.inl rfl) _
        rw [parseValue_head hd, parseHead_null]
      | bool b =>
        rw [formatOneLine_bool, orderValue_bool]
        cases b with
        | true =>
          have hd : skipWs ((cond true "true" "false").data ++ rest) =
              't' :: ('r' :: 'u' :: 'e' :: rest) :=
            skipWs_startsVal (Or.inr (Or.inl rfl)) _
          rw [parseValue_head hd, parseHead_true]
        | false =>
          have hd : skipWs ((cond false "true" "false").data ++ rest) =
              'f' :: ('a' :: 'l' :: 's' :: 'e' :: rest) :=
            skipWs_startsVal (Or.inr (Or.inr (Or.inl rfl))) _
          rw [parseValue_head hd, parseHead_false]
      | num n =>
        rw [formatOneLine_num, orderValue_num]
        rw [stableNums_num] at hst
        obtain ⟨hden, hlit⟩ := stableNum_iff.mp hst
        rw [hlit]
        have hval : ((n.val.num : Rat)) = n.val := Rat.coe_int_num_of_den_eq_one hden
        rcases Int.le_or_lt 0 n.val.num with hk | hk
        · obtain ⟨c, cs, hdat, hdig⟩ := intRepr_head_nonneg hk
          have hd : skipWs ((toString n.val.num).data ++ rest) = c :: (cs ++ rest) := by
            rw [hdat]
            exact skipWs_startsVal
              (Or.inr (Or.inr (Or.inr (Or.inr (Or.inr (Or.inr (Or.inr hdig))))))) _
          rw [parseValue_head hd,
            parseHead_other (isDigit_ne hdig (by decide)) (isDigit_ne hdig (by decide))
              (isDigit_ne hdig (by decide)) (isDigit_ne hdig (by decide))
              (isDigit_ne hdig (by decide)) (isDigit_ne hdig (by decide))]
          rw [show c :: (cs ++ rest) = (toString n.val.num).data ++ rest by
            rw [hdat, List.cons_append]]
          rw [parseNumber_repr _ hrest, hval, ← hlit]
        · obtain ⟨cs, hdat⟩ := intRepr_head_neg hk
          have hd : skipWs ((toString n.val.num).data ++ rest) = '-' :: (cs ++ rest) := by
            rw [hdat]
            exact skipWs_startsVal
              (Or.inr (Or.inr (Or.inr (Or.inr (Or.inr (Or.inr (Or.inl rfl))))))) _
          rw [parseValue_head hd,
            parseHead_other (by decide) (by decide) (by decide) (by decide) (by decide)
              (by decide)]
          rw [show '-' :: (cs ++ rest) = (toString n.val.num).data ++ rest by
            rw [hdat, List.cons_append]]
          rw [parseNumber_repr _ hrest, hval, ← hlit]
      | str s =>
        rw [formatOneLine_str, orderValue_str]
        have hd : skipWs ((quoteString s).data ++ rest) =
            '"' :: (((s.data.map escapeChar).flatten ++ ['"']) ++ rest) := by
          rw [quoteString_data]
          exact skipWs_startsVal (Or.inr (Or.inr (Or.inr (Or.inl rfl)))) _
        rw [parseValue_head hd, parseHead_quote]
        have hREST : ((s.data.map escapeChar).flatten ++ ['"']) ++ rest =
            (s.data.map escapeChar).flatten ++ '"' :: rest := by
          rw [List.append_assoc]
          rfl
        rw [hREST]
        have hlen : s.data.length <
            ((s.data.map escapeChar).flatten ++ '"' :: rest).length + 1 := by
          have := length_le_flatten_escape s.data
          simp only [List.length_append, List.length_cons]
          omega
        rw [parseStringBody_escape s.data _ rest hlen]
        rfl
      | arr xs =>
        rw [formatOneLine_arr]
        cases xs with
        | nil =>
          have hd : skipWs ((("[" ++ joinSep ", " (([] : List JValue).map
              (formatOneLine o.sortKeys)) ++ "]") : String).data ++ rest) =
              '[' :: (']' :: rest) :=
            skipWs_startsVal (Or.inr (Or.inr (Or.inr (Or.inr (Or.inl rfl))))) _
          rw [parseValue_head hd, parseHead_lbrack,
            show skipWs (']' :: rest) = ']' :: rest from skipWs_cons_nonws (by decide) _]
          rw [if_pos (show (']' :: rest).head? = some ']' from rfl), orderValue_arr]
          rfl
        | cons x xt =>
          rw [stableNums_arr, stableNumsList_iff] at hst
          simp only [nodeFuel, nodeFuelList] at hfuel
          rw [List.map_cons]
          obtain ⟨t, hJ⟩ :=
            joinSep_cons_head ", " (formatOneLine o.sortKeys x)
              (xt.map (formatOneLine o.sortKeys))
          obtain ⟨c, cs, hcx, hcstart⟩ :=
            @formatOneLine_head o.sortKeys x (hst x (List.mem_cons_self _ _))
          have hJeq : (joinSep ", " (formatOneLine o.sortKeys x ::
              xt.map (formatOneLine o.sortKeys))).data ++ ']' :: rest =
              c :: (cs ++ t ++ ']' :: rest) := by
            rw [hJ, hcx]
            simp [List.append_assoc]
          have hdata : (("[" ++ joinSep ", " (formatOneLine o.sortKeys x ::
              xt.map (formatOneLine o.sortKeys)) ++ "]") : String).data ++ rest =
              '[' :: ((joinSep ", " (formatOneLine o.sortKeys x ::
                xt.map (formatOneLine o.sortKeys))).data ++ ']' :: rest) := by
            simp [String.data_append, List.append_assoc]
          rw [hdata]
          have hd : skipWs ('[' :: ((joinSep ", " (formatOneLine o.sortKeys x ::
              xt.map (formatOneLine o.sortKeys))).data ++ ']' :: rest)) =
              '[' :: ((joinSep ", " (formatOneLine o.sortKeys x ::
                xt.map (formatOneLine o.sortKeys))).data ++ ']' :: rest) :=
            skipWs_startsVal (Or.inr (Or.inr (Or.inr (Or.inr (Or.inl rfl))))) _
          rw [parseValue_head hd, parseHead_lbrack, hJeq,
            show skipWs (c :: (cs ++ t ++ ']' :: rest)) = c :: (cs ++ t ++ ']' :: rest)
              from skipWs_startsVal hcstart _]
          rw [if_neg (by
            simp only [List.head?_cons, Option.some.injEq]
            exact startsVal_ne_rbrack hcstart)]
          rw [← hJeq]
          have hB' := (ih.2.1) (x :: xt) rest (List.cons_ne_nil _ _)
            (by
              rw [stableNumsList_iff]
              exact hst)
            (by simp only [nodeFuelList]; omega) hrest
          rw [List.map_cons] at hB'
          rw [hB', orderValue_arr]
          rfl
      | obj m =>
        rw [formatOneLine_obj]
        rcases hks : orderKeys o.sortKeys m with _ | ⟨k, kt⟩
        · have hd : skipWs ((("\x7b" ++ joinSep ", " (([] : List String).map fun k =>
              quoteString k ++ ": " ++ formatOneLine o.sortKeys (mapGet m k)) ++ "\x7d") :
                String).data ++ rest) = '{' :: ('}' :: rest) :=
            skipWs_startsVal (Or.inr (Or.inr (Or.inr (Or.inr (Or.inr (Or.inl rfl)))))) _
          rw [parseValue_head hd, parseHead_lbrace,
            show skipWs ('}' :: rest) = '}' :: rest from skipWs_cons_nonws (by decide) _]
          rw [if_pos (show ('}' :: rest).head? = some '}' from rfl), orderValue_obj, hks]
          rfl
        · rw [List.map_cons]
          obtain ⟨t, hJ⟩ := joinSep_cons_head ", "
            (quoteString k ++ ": " ++ formatOneLine o.sortKeys (mapGet m k))
            (kt.map fun k' => quoteString k' ++ ": " ++ formatOneLine o.sortKeys (mapGet m k'))
          have hqd : (quoteString k ++ ": " ++
              formatOneLine o.sortKeys (mapGet m k)).data =
              '"' :: (((k.data.map escapeChar).flatten ++ ['"']) ++ (": ").data ++
                (formatOneLine o.sortKeys (mapGet m k)).data) := by
            simp [String.data_append, quoteString_data, List.append_assoc]
          have hJeq : (joinSep ", " ((quoteString k ++ ": " ++
              formatOneLine o.sortKeys (mapGet m k)) ::
              kt.map fun k' => quoteString k' ++ ": " ++
                formatOneLine o.sortKeys (mapGet m k'))).data ++ '}' :: rest =
              '"' :: ((((k.data.map escapeChar).flatten ++ ['"']) ++ (": ").data ++
                (formatOneLine o.sortKeys (mapGet m k)).data) ++ t ++ '}' :: rest) := by
            rw [hJ, hqd]
            simp [List.append_assoc]
          have hdata : (("\x7b" ++ joinSep ", " ((quoteString k ++ ": " ++
              formatOneLine o.sortKeys (mapGet m k)) ::
              kt.map fun k' => quoteString k' ++ ": " ++
                formatOneLine o.sortKeys (mapGet m k')) ++ "\x7d") : String).data ++ rest =
              '{' :: ((joinSep ", " ((quoteString k ++ ": " ++
                formatOneLine o.sortKeys (mapGet m k)) ::
                kt.map fun k' => quoteString k' ++ ": " ++
                  formatOneLine o.sortKeys (mapGet m k'))).data ++ '}' :: rest) := by
            simp [String.data_append, List.append_assoc]
          rw [hdata]
          have hd : skipWs ('{' :: ((joinSep ", " ((quoteString k ++ ": " ++
              formatOneLine o.sortKeys (mapGet m k)) ::
              kt.map fun k' => quoteString k' ++ ": " ++
                formatOneLine o.sortKeys (mapGet m k'))).data ++ '}' :: rest)) =
              '{' :: ((joinSep ", " ((quoteString k ++ ": " ++
                formatOneLine o.sortKeys (mapGet m k)) ::
                kt.map fun k' => quoteString k' ++ ": " ++
                  formatOneLine o.sortKeys (mapGet m k'))).data ++ '}' :: rest) :=
            skipWs_startsVal (Or.inr (Or.inr (Or.inr (Or.inr (Or.inr (Or.inl rfl)))))) _
          rw [parseValue_head hd, parseHead_lbrace, hJeq,
            show skipWs ('"' :: ((((k.data.map escapeChar).flatten ++ ['"']) ++
                (": ").data ++ (formatOneLine o.sortKeys (mapGet m k)).data) ++ t ++
                '}' :: rest)) =
              '"' :: ((((k.data.map escapeChar).flatten ++ ['"']) ++ (": ").data ++
                (formatOneLine o.sortKeys (mapGet m k)).data) ++ t ++ '}' :: rest)
              from skipWs_cons_nonws (by decide) _]
          rw [if_neg (by
            simp only [List.head?_cons, Option.some.injEq]
            decide), ← hJeq]
          have hC' := (ih.2.2) m (k :: kt) rest (List.cons_ne_nil _ _)
            (fun k' _ => stableNums_mapGet hst k')
            (by
              have h1 := keysFuel_orderKeys o.sortKeys m
              rw [hks] at h1
              omega) hrest
          rw [List.map_cons] at hC'
          rw [hC', orderValue_obj, hks]
          rfl
    have hB : ∀ (xs : List JValue) (rest : List Char), xs ≠ [] →
        stableNumsList xs = true → nodeFuelList xs ≤ fuel + 1 → restOk rest = true →
        parseElems (fuel + 1)
            ((joinSep ", " (xs.map (formatOneLine o.sortKeys))).data ++ ']' :: rest) =
          some (xs.map (orderValue o.sortKeys), rest) := by
      intro xs rest hne hst hfl hrest
      rw [stableNumsList_iff] at hst
      cases xs with
      | nil => exact absurd rfl hne
      | cons x xt =>
        simp only [nodeFuelList] at hfl
        rw [parseElems_succ, List.map_cons]
        cases xt with
        | nil =>
          rw [List.map_nil,
            show joinSep ", " [formatOneLine o.sortKeys x] = formatOneLine o.sortKeys x
              from rfl]
          rw [hA x (']' :: rest) (hst x (List.mem_cons_self _ _)) (by omega) (by rfl)]
          simp only [Option.some_bind]
          rw [show skipWs (']' :: rest) = ']' :: rest from skipWs_cons_nonws (by decide) _]
          rw [if_neg (by
            simp only [List.head?_cons, Option.some.injEq]
            decide)]
          rw [if_pos (show (']' :: rest).head? = some ']' from rfl)]
          rfl
        | cons y yt =>
          rw [List.map_cons, joinSep_cons]
          have hsplit : ((formatOneLine o.sortKeys x ++ ", " ++
              joinSep ", " (formatOneLine o.sortKeys y ::
                yt.map (formatOneLine o.sortKeys))).data) ++ ']' :: rest =
              (formatOneLine o.sortKeys x).data ++
                (',' :: ' ' :: ((joinSep ", " (formatOneLine o.sortKeys y ::
                  yt.map (formatOneLine o.sortKeys))).data ++ ']' :: rest)) := by
            simp [String.data_append, List.append_assoc]
          rw [hsplit]
          rw [hA x _ (hst x (List.mem_cons_self _ _)) (by omega) (by rfl)]
          simp only [Option.some_bind]
          rw [show skipWs (',' :: ' ' :: ((joinSep ", " (formatOneLine o.sortKeys y ::
              yt.map (formatOneLine o.sortKeys))).data ++ ']' :: rest)) =
              ',' :: ' ' :: ((joinSep ", " (formatOneLine o.sortKeys y ::
                yt.map (formatOneLine o.sortKeys))).data ++ ']' :: rest)
            from skipWs_cons_nonws (by decide) _]
          rw [if_pos (by simp only [List.head?_cons])]
          simp only [List.tail_cons]
          rw [parseElems_congr (skipWs_cons_ws (Or.inl rfl) _)]
          have hB' := ih.2.1 (y :: yt) rest (List.cons_ne_nil _ _)
            (by
              rw [stableNumsList_iff]
              exact fun z hz => hst z (List.mem_cons_of_mem _ hz))
            (by omega) hrest
          rw [List.map_cons] at hB'
          rw [hB']
          rfl
    have hC : ∀ (m : List (String × JValue)) (ks : List String) (rest : List Char),
        ks ≠ [] → (∀ k ∈ ks, stableNums (mapGet m k) = true) →
        keysFuel m ks ≤ fuel + 1 → restOk rest = true →
        parseEntries (fuel + 1)
            ((joinSep ", " (ks.map fun k =>
              quoteString k ++ ": " ++ formatOneLine o.sortKeys (mapGet m k))).data ++
              '}' :: rest) =
          some (ks.map fun k => (k, orderValue o.sortKeys (mapGet m k)), rest) := by
      intro m ks rest hne hkst hfl hrest
      cases ks with
      | nil => exact absurd rfl hne
      | cons k kt =>
        simp only [keysFuel] at hfl
        rw [List.map_cons]
        cases kt with
        | nil =>
          rw [List.map_nil,
            show joinSep ", " [quoteString k ++ ": " ++
              formatOneLine o.sortKeys (mapGet m k)] =
              quoteString k ++ ": " ++ formatOneLine o.sortKeys (mapGet m k) from rfl]
          have hdata : (quoteString k ++ ": " ++
              formatOneLine o.sortKeys (mapGet m k)).data ++ '}' :: rest =
              '"' :: ((k.data.map escapeChar).flatten ++ '"' ::
                (':' :: ' ' :: ((formatOneLine o.sortKeys (mapGet m k)).data ++
                  '}' :: rest))) := by
            simp [quoteString_data, String.data_append, List.append_assoc]
          rw [hdata]
          have hd : skipWs ('"' :: ((k.data.map escapeChar).flatten ++ '"' ::
              (':' :: ' ' :: ((formatOneLine o.sortKeys (mapGet m k)).data ++
                '}' :: rest)))) =
              '"' :: ((k.data.map escapeChar).flatten ++ '"' ::
                (':' :: ' ' :: ((formatOneLine o.sortKeys (mapGet m k)).data ++
                  '}' :: rest))) :=
            skipWs_cons_nonws (by decide) _
          rw [parseEntries_head hd, parseEntryHead_quote]
          have hlen : k.data.length <
              ((k.data.map escapeChar).flatten ++ '"' ::
                (':' :: ' ' :: ((formatOneLine o.sortKeys (mapGet m k)).data ++
                  '}' :: rest))).length + 1 := by
            have := length_le_flatten_escape k.data
            simp only [List.length_append, List.length_cons]
            omega
          rw [parseStringBody_escape k.data _ _ hlen]
          simp only [Option.some_bind]
          rw [show skipWs (':' :: ' ' :: ((formatOneLine o.sortKeys (mapGet m k)).data ++
              '}' :: rest)) =
              ':' :: ' ' :: ((formatOneLine o.sortKeys (mapGet m k)).data ++ '}' :: rest)
            from skipWs_cons_nonws (by decide) _]
          rw [if_pos (by simp only [List.head?_cons])]
          simp only [List.tail_cons]
          rw [parseValue_congr (skipWs_cons_ws (Or.inl rfl) _)]
          rw [hA (mapGet m k) ('}' :: rest) (hkst k (List.mem_cons_self _ _))
            (by omega) (by rfl)]
          simp only [Option.some_bind]
          rw [show skipWs ('}' :: rest) = '}' :: rest from skipWs_cons_nonws (by decide) _]
          rw [if_neg (by
            simp only [List.head?_cons, Option.some.injEq]
            decide)]
          rw [if_pos (show ('}' :: rest).head? = some '}' from rfl)]
          rfl
        | cons k2 kt2 =>
          rw [List.map_cons, joinSep_cons]
          have hsplit : ((quoteString k ++ ": " ++
              formatOneLine o.sortKeys (mapGet m k) ++ ", " ++
              joinSep ", " ((quoteString k2 ++ ": " ++
                formatOneLine o.sortKeys (mapGet m k2)) ::
                kt2.map fun k' => quoteString k' ++ ": " ++
                  formatOneLine o.sortKeys (mapGet m k'))).data) ++ '}' :: rest =
              '"' :: ((k.data.map escapeChar).flatten ++ '"' ::
                (':' :: ' ' :: ((formatOneLine o.sortKeys (mapGet m k)).data ++
                  (',' :: ' ' :: ((joinSep ", " ((quoteString k2 ++ ": " ++
                    formatOneLine o.sortKeys (mapGet m k2)) ::
                    kt2.map fun k' => quoteString k' ++ ": " ++
                      formatOneLine o.sortKeys (mapGet m k'))).data ++
                    '}' :: rest))))) := by
            simp [quoteString_data, String.data_append, List.append_assoc]
          rw [hsplit]
          have hd : skipWs ('"' :: ((k.data.map escapeChar).flatten ++ '"' ::
              (':' :: ' ' :: ((formatOneLine o.sortKeys (mapGet m k)).data ++
                (',' :: ' ' :: ((joinSep ", " ((quoteString k2 ++ ": " ++
                  formatOneLine o.sortKeys (mapGet m k2)) ::
                  kt2.map fun k' => quoteString k' ++ ": " ++
                    formatOneLine o.sortKeys (mapGet m k'))).data ++
                  '}' :: rest)))))) =
              '"' :: ((k.data.map escapeChar).flatten ++ '"' ::
                (':' :: ' ' :: ((formatOneLine o.sortKeys (mapGet m k)).data ++
                  (',' :: ' ' :: ((joinSep ", " ((quoteString k2 ++ ": " ++
                    formatOneLine o.sortKeys (mapGet m k2)) ::
                    kt2.map fun k' => quoteString k' ++ ": " ++
                      formatOneLine o.sortKeys (mapGet m k'))).data ++
                    '}' :: rest))))) :=
            skipWs_cons_nonws (by decide) _
          rw [parseEntries_head hd, parseEntryHead_quote]
          have hlen : k.data.length <
              ((k.data.map escapeChar).flatten ++ '"' ::
                (':' :: ' ' :: ((formatOneLine o.sortKeys (mapGet m k)).data ++
                  (',' :: ' ' :: ((joinSep ", " ((quoteString k2 ++ ": " ++
                    formatOneLine o.sortKeys (mapGet m k2)) ::
                    kt2.map fun k' => quoteString k' ++ ": " ++
                      formatOneLine o.sortKeys (mapGet m k'))).data ++
                    '}' :: rest))))).length + 1 := by
            have := length_le_flatten_escape k.data
            simp only [List.length_append, List.length_cons]
            omega
          rw [parseStringBody_escape k.data _ _ hlen]
          simp only [Option.some_bind]
          rw [show skipWs (':' :: ' ' :: ((formatOneLine o.sortKeys (mapGet m k)).data ++
              (',' :: ' ' :: ((joinSep ", " ((quoteString k2 ++ ": " ++
                formatOneLine o.sortKeys (mapGet m k2)) ::
                kt2.map fun k' => quoteString k' ++ ": " ++
                  formatOneLine o.sortKeys (mapGet m k'))).data ++
                '}' :: rest)))) =
              ':' :: ' ' :: ((formatOneLine o.sortKeys (mapGet m k)).data ++
                (',' :: ' ' :: ((joinSep ", " ((quoteString k2 ++ ": " ++
                  formatOneLine o.sortKeys (mapGet m k2)) ::
                  kt2.map fun k' => quoteString k' ++ ": " ++
                    formatOneLine o.sortKeys (mapGet m k'))).data ++
                  '}' :: rest)))
            from skipWs_cons_nonws (by decide) _]
          rw [if_pos (by simp only [List.head?_cons])]
          simp only [List.tail_cons]
          rw [parseValue_congr (skipWs_cons_ws (Or.inl rfl) _)]
          rw [hA (mapGet m k) _ (hkst k (List.mem_cons_self _ _)) (by omega) (by rfl)]
          simp only [Option.some_bind]
          rw [show skipWs (',' :: ' ' :: ((joinSep ", " ((quoteString k2 ++ ": " ++
              formatOneLine o.sortKeys (mapGet m k2)) ::
              kt2.map fun k' => quoteString k' ++ ": " ++
                formatOneLine o.sortKeys (mapGet m k'))).data ++ '}' :: rest)) =
              ',' :: ' ' :: ((joinSep ", " ((quoteString k2 ++ ": " ++
                formatOneLine o.sortKeys (mapGet m k2)) ::
                kt2.map fun k' => quoteString k' ++ ": " ++
                  formatOneLine o.sortKeys (mapGet m k'))).data ++ '}' :: rest)
            from skipWs_cons_nonws (by decide) _]
          rw [if_pos (by simp only [List.head?_cons])]
          simp only [List.tail_cons]
          rw [parseEntries_congr (skipWs_cons_ws (Or.inl rfl) _)]
          have hC' := ih.2.2 m (k2 :: kt2) rest (List.cons_ne_nil _ _)
            (fun k' hk' => hkst k' (List.mem_cons_of_mem _ hk'))
            (by omega) hrest
          rw [List.map_cons] at hC'
          rw [hC']
          rfl
    exact ⟨hA, hB, hC⟩

/-! ## Splitting a block rendering into its lines -/

theorem joinSep_cons_ne (sep x : String) {L : List String} (h : L ≠ []) :
    joinSep sep (x :: L) = x ++ sep ++ joinSep sep L := by
  cases L with
  | nil => exact absurd rfl h
  | cons y ys => rfl

theorem joinSep_split_last : ∀ (L : List String) (y : String), L ≠ [] →
    joinSep "\n" (L ++ [y]) = joinSep "\n" L ++ "\n" ++ y := by
  intro L
  induction L with
  | nil => intro y h; exact absurd rfl h
  | cons x xs ih =>
    intro y _
    cases xs with
    | nil => rfl
    | cons z zs =>
      rw [List.cons_append, joinSep_cons_ne "\n" x (by simp),
        ih y (List.cons_ne_nil _ _), joinSep_cons]
      simp [String.append_assoc]

theorem addCommas_ne_nil {L : List String} (h : L ≠ []) : addCommas L ≠ [] := by
  cases L with
  | nil => exact absurd rfl h
  | cons x t => cases t <;> simp [addCommas]

theorem joinSep_addCommas_head (x : String) (L : List String) :
    ∃ t, (joinSep "\n" (addCommas (x :: L))).data = x.data ++ t := by
  cases L with
  | nil => exact ⟨[], (List.append_nil _).symm⟩
  | cons y ys =>
    obtain ⟨t, ht⟩ := joinSep_cons_head "\n" (x ++ ",") (addCommas (y :: ys))
    refine ⟨(",").data ++ t, ?_⟩
    rw [show addCommas (x :: y :: ys) = (x ++ ",") :: addCommas (y :: ys) from rfl, ht]
    simp [String.data_append, List.append_assoc]

theorem formatArray_block_data (o : Opts) (level : Nat) (x : JValue) (xt : List JValue)
    (rest : List Char) :
    (formatArray o level (x :: xt)).data ++ rest =
      '[' :: '\n' :: ((joinSep "\n" (addCommas ((x :: xt).map fun v =>
        spaces ((level + 1) * o.indent) ++ formatIndent o (level + 1) 0 v))).data ++
        '\n' :: ((spaces (level * o.indent)).data ++ ']' :: rest)) := by
  rw [formatArray_eq]
  have hAC : addCommas ((x :: xt).map fun v =>
      spaces ((level + 1) * o.indent) ++ formatIndent o (level + 1) 0 v) ≠ [] := by
    rw [List.map_cons]
    exact addCommas_ne_nil (List.cons_ne_nil _ _)
  rw [joinSep_cons_ne "\n" "[" (by simp), joinSep_split_last _ _ hAC]
  simp [String.data_append, List.append_assoc]

theorem formatArray_block_nil_data (o : Opts) (level : Nat) (rest : List Char) :
    (formatArray o level []).data ++ rest =
      '[' :: '\n' :: ((spaces (level * o.indent)).data ++ ']' :: rest) := by
  rw [formatArray_eq]
  simp [joinSep, addCommas, String.data_append, List.append_assoc]

theorem formatObject_block_data (o : Opts) (level : Nat) (m : List (String × JValue))
    (k : String) (kt : List String) (rest : List Char)
    (hks : orderKeys o.sortKeys m = k :: kt) :
    (formatObject o level m).data ++ rest =
      '{' :: '\n' :: ((joinSep "\n" (addCommas ((k :: kt).map fun k' =>
        spaces ((level + 1) * o.indent) ++ quoteString k' ++ ": " ++
          formatIndent o (level + 1) (byteLen (quoteString k') + 2)
            (mapGet m k')))).data ++
        '\n' :: ((spaces (level * o.indent)).data ++ '}' :: rest)) := by
  rw [formatObject_eq, hks]
  have hAC : addCommas ((k :: kt).map fun k' =>
      spaces ((level + 1) * o.indent) ++ quoteString k' ++ ": " ++
        formatIndent o (level + 1) (byteLen (quoteString k') + 2) (mapGet m k')) ≠ [] := by
    rw [List.map_cons]
    exact addCommas_ne_nil (List.cons_ne_nil _ _)
  rw [joinSep_cons_ne "\n" "\x7b" (by simp), joinSep_split_last _ _ hAC]
  simp [String.data_append, List.append_assoc]

theorem formatObject_block_nil_data (o : Opts) (level : Nat)
    (m : List (String × JValue)) (rest : List Char)
    (hks : orderKeys o.sortKeys m = []) :
    (formatObject o level m).data ++ rest =
      '{' :: '\n' :: ((spaces (level * o.indent)).data ++ '}' :: rest) := by
  rw [formatObject_eq, hks]
  simp [joinSep, addCommas, String.data_append, List.append_assoc]

/-! ## Round trip: the reader inverts the width-aware renderer -/

theorem skipWs_comma (cs : List Char) : skipWs (',' :: cs) = ',' :: cs :=
  skipWs_cons_nonws (by decide) cs

theorem skipWs_colon (cs : List Char) : skipWs (':' :: cs) = ':' :: cs :=
  skipWs_cons_nonws (by decide) cs

theorem skipWs_rbrack (cs : List Char) : skipWs (']' :: cs) = ']' :: cs :=
  skipWs_cons_nonws (by decide) cs

theorem skipWs_rbrace (cs : List Char) : skipWs ('}' :: cs) = '}' :: cs :=
  skipWs_cons_nonws (by decide) cs

theorem skipWs_blockBody {n : Nat} {e : String} {c : Char} {cs : List Char}
    (he : e.data = (spaces n).data ++ c :: cs) (hc : startsVal c)
    (ES : List String) (Z : List Char) :
    ∃ T, skipWs ((joinSep "\n" (addCommas (e :: ES))).data ++ '\n' :: Z) = c :: T := by
  obtain ⟨t0, ht0⟩ := joinSep_addCommas_head e ES
  refine ⟨cs ++ (t0 ++ '\n' :: Z), ?_⟩
  rw [ht0, he]
  rw [show (((spaces n).data ++ c :: cs) ++ t0) ++ '\n' :: Z =
      (spaces n).data ++ (c :: (cs ++ (t0 ++ '\n' :: Z))) by
    simp [List.append_assoc]]
  rw [skipWs_spaces]
  exact skipWs_startsVal hc _

theorem parse_format_indent (o : Opts) : ∀ fuel : Nat,
    (∀ (v : JValue) (level additional : Nat) (rest : List Char), stableNums v = true →
      nodeFuel v ≤ fuel → restOk rest = true →
      parseValue fuel ((formatIndent o level additional v).data ++ rest) =
        some (orderValue o.sortKeys v, rest)) ∧
    (∀ (xs : List JValue) (level : Nat) (rest : List Char), xs ≠ [] →
      stableNumsList xs = true → nodeFuelList xs ≤ fuel → restOk rest = true →
      parseElems fuel
          ((joinSep "\n" (addCommas (xs.map fun v =>
            spaces ((level + 1) * o.indent) ++ formatIndent o (level + 1) 0 v))).data ++
            '\n' :: ((spaces (level * o.indent)).data ++ ']' :: rest)) =
        some (xs.map (orderValue o.sortKeys), rest)) ∧
    (∀ (m : List (String × JValue)) (ks : List String) (level : Nat) (rest : List Char),
      ks ≠ [] → (∀ k ∈ ks, stableNums (mapGet m k) = true) →
      keysFuel m ks ≤ fuel → restOk rest = true →
      parseEntries fuel
          ((joinSep "\n" (addCommas (ks.map fun k =>
            spaces ((level + 1) * o.indent) ++ quoteString k ++ ": " ++
              formatIndent o (level + 1) (byteLen (quoteString k) + 2)
                (mapGet m k)))).data ++
            '\n' :: ((spaces (level * o.indent)).data ++ '}' :: rest)) =
        some (ks.map fun k => (k, orderValue o.sortKeys (mapGet m k)), rest)) := by
  intro fuel
  induction fuel with
  | zero =>
    refine ⟨fun v _ _ rest _ hf _ => ?_, fun xs _ rest _ _ hf _ => ?_,
      fun m ks _ rest _ _ hf _ => ?_⟩
    · exact absurd hf (by have := one_le_nodeFuel v; omega)
    · exact absurd hf (by have := one_le_nodeFuelList xs; omega)
    · exact absurd hf (by have := one_le_keysFuel m ks; omega)
  | succ fuel ih =>
    have hA2 : ∀ (v : JValue) (level additional : Nat) (rest : List Char),
        stableNums v = true → nodeFuel v ≤ fuel + 1 → restOk rest = true →
        parseValue (fuel + 1) ((formatIndent o level additional v).data ++ rest) =
          some (orderValue o.sortKeys v, rest) := by
      intro v level additional rest hst hfuel hrest
      cases v with
      | null =>
        rw [show formatIndent o level additional .null = formatOneLine o.sortKeys .null by
          rw [formatIndent_null, formatOneLine_null]]
        exact (parse_format_oneline o (fuel + 1)).1 .null rest hst hfuel hrest
      | bool b =>
        rw [show formatIndent o level additional (.bool b) =
            formatOneLine o.sortKeys (.bool b) by
          rw [formatIndent_bool, formatOneLine_bool]]
        exact (parse_format_oneline o (fuel + 1)).1 (.bool b) rest hst hfuel hrest
      | num n =>
        rw [show formatIndent o level additional (.num n) =
            formatOneLine o.sortKeys (.num n) by
          rw [formatIndent_num, formatOneLine_num]
          exact stableNum_fmtFixed (by rw [← stableNums_num]; exact hst)]
        exact (parse_format_oneline o (fuel + 1)).1 (.num n) rest hst hfuel hrest
      | str s =>
        rw [show formatIndent o level additional (.str s) =
            formatOneLine o.sortKeys (.str s) by
          rw [formatIndent_str, formatOneLine_str]]
        exact (parse_format_oneline o (fuel + 1)).1 (.str s) rest hst hfuel hrest
      | arr xs =>
        rw [formatIndent_arr]
        split
        · exact (parse_format_oneline o (fuel + 1)).1 (.arr xs) rest hst hfuel hrest
        · cases xs with
          | nil =>
            rw [formatArray_block_nil_data]
            rw [parseValue_head (skipWs_cons_nonws (by decide) _), parseHead_lbrack]
            have hsw : skipWs ('\n' :: ((spaces (level * o.indent)).data ++ ']' :: rest)) =
                ']' :: rest := by
              rw [skipWs_nl, skipWs_spaces]
              exact skipWs_cons_nonws (by decide) _
            rw [hsw, if_pos (show (']' :: rest).head? = some ']' from rfl), orderValue_arr]
            rfl
          | cons x xt =>
            rw [stableNums_arr, stableNumsList_iff] at hst
            simp only [nodeFuel, nodeFuelList] at hfuel
            rw [formatArray_block_data, List.map_cons]
            rw [parseValue_head (skipWs_cons_nonws (by decide) _), parseHead_lbrack,
              skipWs_nl]
            obtain ⟨c, cs, hcx, hcst⟩ :=
              @formatIndent_head o (level + 1) 0 x
                (hst x (List.mem_cons_self _ _))
            obtain ⟨T, hT⟩ := skipWs_blockBody
              (show (spaces ((level + 1) * o.indent) ++
                  formatIndent o (level + 1) 0 x).data =
                (spaces ((level + 1) * o.indent)).data ++ c :: cs by
                rw [String.data_append, hcx])
              hcst
              (xt.map fun v => spaces ((level + 1) * o.indent) ++
                formatIndent o (level + 1) 0 v)
              ((spaces (level * o.indent)).data ++ ']' :: rest)
            rw [hT]
            rw [if_neg (by
              simp only [List.head?_cons, Option.some.injEq]
              exact startsVal_ne_rbrack hcst)]
            rw [← hT, parseElems_skipWs]
            have hB' := ih.2.1 (x :: xt) level rest (List.cons_ne_nil _ _)
              (by rw [stableNumsList_iff]; exact hst)
              (by simp only [nodeFuelList]; omega) hrest
            rw [List.map_cons] at hB'
            rw [hB', orderValue_arr]
            rfl
      | obj m =>
        rw [formatIndent_obj]
        split
        · exact (parse_format_oneline o (fuel + 1)).1 (.obj m) rest hst hfuel hrest
        · rcases hks : orderKeys o.sortKeys m with _ | ⟨k, kt⟩
          · rw [formatObject_block_nil_data o level m rest hks]
            rw [parseValue_head (skipWs_cons_nonws (by decide) _), parseHead_lbrace]
            have hsw : skipWs ('\n' :: ((spaces (level * o.indent)).data ++ '}' :: rest)) =
                '}' :: rest := by
              rw [skipWs_nl, skipWs_spaces]
              exact skipWs_cons_nonws (by decide) _
            rw [hsw, if_pos (show ('}' :: rest).head? = some '}' from rfl),
              orderValue_obj, hks]
            rfl
          · rw [formatObject_block_data o level m k kt rest hks, List.map_cons]
            rw [parseValue_head (skipWs_cons_nonws (by decide) _), parseHead_lbrace,
              skipWs_nl]
            obtain ⟨T, hT⟩ := skipWs_blockBody
              (show (spaces ((level + 1) * o.indent) ++ quoteString k ++ ": " ++
                  formatIndent o (level + 1) (byteLen (quoteString k) + 2)
                    (mapGet m k)).data =
                (spaces ((level + 1) * o.indent)).data ++ '"' ::
                  ((((k.data.map escapeChar).flatten ++ ['"']) ++ (": ").data ++
                    (formatIndent o (level + 1) (byteLen (quoteString k) + 2)
                      (mapGet m k)).data)) by
                simp [String.data_append, quoteString_data, List.append_assoc])
              (Or.inr (Or.inr (Or.inr (Or.inl rfl))))
              (kt.map fun k' => spaces ((level + 1) * o.indent) ++ quoteString k' ++
                ": " ++ formatIndent o (level + 1) (byteLen (quoteString k') + 2)
                  (mapGet m k'))
              ((spaces (level * o.indent)).data ++ '}' :: rest)
            rw [hT]
            rw [if_neg (by
              simp only [List.head?_cons, Option.some.injEq]
              decide)]
            rw [← hT, parseEntries_skipWs]
            have hC' := ih.2.2 m (k :: kt) level rest (List.cons_ne_nil _ _)
              (fun k' _ => stableNums_mapGet hst k')
              (by
                have h1 := keysFuel_orderKeys o.sortKeys m
                rw [hks] at h1
                omega) hrest
            rw [List.map_cons] at hC'
            rw [hC', orderValue_obj, hks]
            rfl
    have hB2 : ∀ (xs : List JValue) (level : Nat) (rest : List Char), xs ≠ [] →
        stableNumsList xs = true → nodeFuelList xs ≤ fuel + 1 → restOk rest = true →
        parseElems (fuel + 1)
            ((joinSep "\n" (addCommas (xs.map fun v =>
              spaces ((level + 1) * o.indent) ++ formatIndent o (level + 1) 0 v))).data ++
              '\n' :: ((spaces (level * o.indent)).data ++ ']' :: rest)) =
          some (xs.map (orderValue o.sortKeys), rest) := by
      intro xs level rest hne hst hfl hrest
      rw [stableNumsList_iff] at hst
      cases xs with
      | nil => exact absurd rfl hne
      | cons x xt =>
        simp only [nodeFuelList] at hfl
        rw [parseElems_succ, List.map_cons]
        cases xt with
        | nil =>
          rw [List.map_nil]
          rw [show joinSep "\n" (addCommas [spaces ((level + 1) * o.indent) ++
              formatIndent o (level + 1) 0 x]) =
            spaces ((level + 1) * o.indent) ++ formatIndent o (level + 1) 0 x from rfl]
          rw [show (spaces ((level + 1) * o.indent) ++
              formatIndent o (level + 1) 0 x).data ++
              '\n' :: ((spaces (level * o.indent)).data ++ ']' :: rest) =
            (spaces ((level + 1) * o.indent)).data ++
              ((formatIndent o (level + 1) 0 x).data ++
                '\n' :: ((spaces (level * o.indent)).data ++ ']' :: rest)) by
            rw [String.data_append, List.append_assoc]]
          rw [parseValue_congr (skipWs_spaces _ _)]
          rw [hA2 x (level + 1) 0 _ (hst x (List.mem_cons_self _ _)) (by omega) (by rfl)]
          simp only [Option.some_bind]
          have hsw : skipWs ('\n' :: ((spaces (level * o.indent)).data ++ ']' :: rest)) =
              ']' :: rest := by
            rw [skipWs_nl, skipWs_spaces]
            exact skipWs_rbrack rest
          rw [hsw]
          rw [if_neg (by
            simp only [List.head?_cons, Option.some.injEq]
            decide)]
          rw [if_pos (show (']' :: rest).head? = some ']' from rfl)]
          rfl
        | cons y yt =>
          rw [List.map_cons]
          rw [show addCommas ((spaces ((level + 1) * o.indent) ++
              formatIndent o (level + 1) 0 x) ::
              (spaces ((level + 1) * o.indent) ++ formatIndent o (level + 1) 0 y) ::
              yt.map fun v => spaces ((level + 1) * o.indent) ++
                formatIndent o (level + 1) 0 v) =
            (spaces ((level + 1) * o.indent) ++ formatIndent o (level + 1) 0 x ++ ",") ::
              addCommas ((spaces ((level + 1) * o.indent) ++
                formatIndent o (level + 1) 0 y) ::
                yt.map fun v => spaces ((level + 1) * o.indent) ++
                  formatIndent o (level + 1) 0 v) from rfl]
          rw [joinSep_cons_ne "\n" _ (addCommas_ne_nil (List.cons_ne_nil _ _))]
          rw [show ((spaces ((level + 1) * o.indent) ++ formatIndent o (level + 1) 0 x ++
              ",") ++ "\n" ++ joinSep "\n" (addCommas ((spaces ((level + 1) *
                o.indent) ++ formatIndent o (level + 1) 0 y) ::
                yt.map fun v => spaces ((level + 1) * o.indent) ++
                  formatIndent o (level + 1) 0 v))).data ++
              '\n' :: ((spaces (level * o.indent)).data ++ ']' :: rest) =
            (spaces ((level + 1) * o.indent)).data ++
              ((formatIndent o (level + 1) 0 x).data ++
                (',' :: '\n' :: ((joinSep "\n" (addCommas ((spaces ((level + 1) *
                  o.indent) ++ formatIndent o (level + 1) 0 y) ::
                  yt.map fun v => spaces ((level + 1) * o.indent) ++
                    formatIndent o (level + 1) 0 v))).data ++
                  '\n' :: ((spaces (level * o.indent)).data ++ ']' :: rest)))) by
            simp [String.data_append, List.append_assoc]]
          generalize hJ : (joinSep "\n" (addCommas ((spaces ((level + 1) * o.indent) ++
            formatIndent o (level + 1) 0 y) ::
            yt.map fun v => spaces ((level + 1) * o.indent) ++
              formatIndent o (level + 1) 0 v))).data = JD
          rw [parseValue_congr (skipWs_spaces _ _)]
          rw [hA2 x (level + 1) 0 _ (hst x (List.mem_cons_self _ _)) (by omega) (by rfl)]
          simp only [Option.some_bind]
          rw [skipWs_comma]
          rw [if_pos (by simp only [List.head?_cons])]
          simp only [List.tail_cons]
          rw [parseElems_congr (skipWs_nl _)]
          rw [← hJ]
          have hB' := ih.2.1 (y :: yt) level rest (List.cons_ne_nil _ _)
            (by
              rw [stableNumsList_iff]
              exact fun z hz => hst z (List.mem_cons_of_mem _ hz))
            (by omega) hrest
          rw [List.map_cons] at hB'
          rw [hB']
          rfl
    have hC2 : ∀ (m : List (String × JValue)) (ks : List String) (level : Nat)
        (rest : List Char), ks ≠ [] → (∀ k ∈ ks, stableNums (mapGet m k) = true) →
        keysFuel m ks ≤ fuel + 1 → restOk rest = true →
        parseEntries (fuel + 1)
            ((joinSep "\n" (addCommas (ks.map fun k =>
              spaces ((level + 1) * o.indent) ++ quoteString k ++ ": " ++
                formatIndent o (level + 1) (byteLen (quoteString k) + 2)
                  (mapGet m k)))).data ++
              '\n' :: ((spaces (level * o.indent)).data ++ '}' :: rest)) =
          some (ks.map fun k => (k, orderValue o.sortKeys (mapGet m k)), rest) := by
      intro m ks level rest hne hkst hfl hrest
      cases ks with
      | nil => exact absurd rfl hne
      | cons k kt =>
        simp only [keysFuel] at hfl
        rw [List.map_cons]
        cases kt with
        | nil =>
          rw [List.map_nil]
          rw [show joinSep "\n" (addCommas [spaces ((level + 1) * o.indent) ++
              quoteString k ++ ": " ++ formatIndent o (level + 1)
                (byteLen (quoteString k) + 2) (mapGet m k)]) =
            spaces ((level + 1) * o.indent) ++ quoteString k ++ ": " ++
              formatIndent o (level + 1) (byteLen (quoteString k) + 2) (mapGet m k)
            from rfl]
          rw [show (spaces ((level + 1) * o.indent) ++ quoteString k ++ ": " ++
              formatIndent o (level + 1) (byteLen (quoteString k) + 2)
                (mapGet m k)).data ++
              '\n' :: ((spaces (level * o.indent)).data ++ '}' :: rest) =
            (spaces ((level + 1) * o.indent)).data ++ ('"' ::
              ((k.data.map escapeChar).flatten ++ '"' ::
                (':' :: ' ' :: ((formatIndent o (level + 1)
                  (byteLen (quoteString k) + 2) (mapGet m k)).data ++
                  '\n' :: ((spaces (level * o.indent)).data ++ '}' :: rest))))) by
            simp [String.data_append, quoteString_data, List.append_assoc]]
          rw [parseEntries_congr (skipWs_spaces _ _)]
          rw [parseEntries_head (skipWs_cons_nonws (by decide) _), parseEntryHead_quote]
          have hlen : k.data.length <
              ((k.data.map escapeChar).flatten ++ '"' ::
                (':' :: ' ' :: ((formatIndent o (level + 1)
                  (byteLen (quoteString k) + 2) (mapGet m k)).data ++
                  '\n' :: ((spaces (level * o.indent)).data ++ '}' :: rest)))).length +
                1 := by
            have := length_le_flatten_escape k.data
            simp only [List.length_append, List.length_cons]
            omega
          rw [parseStringBody_escape k.data _ _ hlen]
          simp only [Option.some_bind]
          rw [skipWs_colon]
          rw [if_pos (by simp only [List.head?_cons])]
          simp only [List.tail_cons]
          rw [parseValue_congr (skipWs_cons_ws (Or.inl rfl) _)]
          rw [hA2 (mapGet m k) (level + 1) (byteLen (quoteString k) + 2) _
            (hkst k (List.mem_cons_self _ _)) (by omega) (by rfl)]
          simp only [Option.some_bind]
          have hsw : skipWs ('\n' :: ((spaces (level * o.indent)).data ++ '}' :: rest)) =
              '}' :: rest := by
            rw [skipWs_nl, skipWs_spaces]
            exact skipWs_rbrace rest
          rw [hsw]
          rw [if_neg (by
            simp only [List.head?_cons, Option.some.injEq]
            decide)]
          rw [if_pos (show ('}' :: rest).head? = some '}' from rfl)]
          rfl
        | cons k2 kt2 =>
          rw [List.map_cons]
          rw [show addCommas ((spaces ((level + 1) * o.indent) ++ quoteString k ++
              ": " ++ formatIndent o (level + 1) (byteLen (quoteString k) + 2)
                (mapGet m k)) ::
              (spaces ((level + 1) * o.indent) ++ quoteString k2 ++ ": " ++
                formatIndent o (level + 1) (byteLen (quoteString k2) + 2)
                  (mapGet m k2)) ::
              kt2.map fun k' => spaces ((level + 1) * o.indent) ++ quoteString k' ++
                ": " ++ formatIndent o (level + 1) (byteLen (quoteString k') + 2)
                  (mapGet m k')) =
            (spaces ((level + 1) * o.indent) ++ quoteString k ++ ": " ++
              formatIndent o (level + 1) (byteLen (quoteString k) + 2)
                (mapGet m k) ++ ",") ::
              addCommas ((spaces ((level + 1) * o.indent) ++ quoteString k2 ++ ": " ++
                formatIndent o (level + 1) (byteLen (quoteString k2) + 2)
                  (mapGet m k2)) ::
                kt2.map fun k' => spaces ((level + 1) * o.indent) ++ quoteString k' ++
                  ": " ++ formatIndent o (level + 1) (byteLen (quoteString k') + 2)
                    (mapGet m k')) from rfl]
          rw [joinSep_cons_ne "\n" _ (addCommas_ne_nil (List.cons_ne_nil _ _))]
          generalize hJ : (joinSep "\n" (addCommas ((spaces ((level + 1) * o.indent) ++
            quoteString k2 ++ ": " ++ formatIndent o (level + 1)
              (byteLen (quoteString k2) + 2) (mapGet m k2)) ::
            kt2.map fun k' => spaces ((level + 1) * o.indent) ++ quoteString k' ++
              ": " ++ formatIndent o (level + 1) (byteLen (quoteString k') + 2)
                (mapGet m k')))) = JS
          rw [show ((spaces ((level + 1) * o.indent) ++ quoteString k ++ ": " ++
              formatIndent o (level + 1) (byteLen (quoteString k) + 2)
                (mapGet m k) ++ ",") ++ "\n" ++ JS).data ++
              '\n' :: ((spaces (level * o.indent)).data ++ '}' :: rest) =
            (spaces ((level + 1) * o.indent)).data ++ ('"' ::
              ((k.data.map escapeChar).flatten ++ '"' ::
                (':' :: ' ' :: ((formatIndent o (level + 1)
                  (byteLen (quoteString k) + 2) (mapGet m k)).data ++
                  (',' :: '\n' :: (JS.data ++
                    '\n' :: ((spaces (level * o.indent)).data ++ '}' :: rest))))))) by
            simp [String.data_append, quoteString_data, List.append_assoc]]
          rw [parseEntries_congr (skipWs_spaces _ _)]
          rw [parseEntries_head (skipWs_cons_nonws (by decide) _), parseEntryHead_quote]
          have hlen : k.data.length <
              ((k.data.map escapeChar).flatten ++ '"' ::
                (':' :: ' ' :: ((formatIndent o (level + 1)
                  (byteLen (quoteString k) + 2) (mapGet m k)).data ++
                  (',' :: '\n' :: (JS.data ++
                    '\n' :: ((spaces (level * o.indent)).data ++
                      '}' :: rest)))))).length + 1 := by
            have := length_le_flatten_escape k.data
            simp only [List.length_append, List.length_cons]
            omega
          rw [parseStringBody_escape k.data _ _ hlen]
          simp only [Option.some_bind]
          rw [skipWs_colon]
          rw [if_pos (by simp only [List.head?_cons])]
          simp only [List.tail_cons]
          rw [parseValue_congr (skipWs_cons_ws (Or.inl rfl) _)]
          rw [hA2 (mapGet m k) (level + 1) (byteLen (quoteString k) + 2) _
            (hkst k (List.mem_cons_self _ _)) (by omega) (by rfl)]
          simp only [Option.some_bind]
          rw [skipWs_comma]
          rw [if_pos (by simp only [List.head?_cons])]
          simp only [List.tail_cons]
          rw [parseEntries_congr (skipWs_nl _)]
          rw [← hJ]
          have hC' := ih.2.2 m (k2 :: kt2) level rest (List.cons_ne_nil _ _)
            (fun k' hk' => hkst k' (List.mem_cons_of_mem _ hk'))
            (by omega) hrest
          rw [List.map_cons] at hC'
          rw [hC']
          rfl
    exact ⟨hA2, hB2, hC2⟩

end PJ


namespace PJ

/-- Claim C6, counterexample: formatting is not idempotent.  At width 3 the
document `[3.7]` renders in block form, where the number is re-rendered by
the `%.f` policy as `4`; re-parsing that output and formatting it again
yields the one-line `[4]`, which is not byte-identical to the first output. -/
theorem claim_C6_counterexample :
    formatIndent ⟨3, 2, false⟩ 0 0 (.arr [.num n37]) = "[\n  4\n]" ∧
    decodeJSON "[\n  4\n]" = some (.arr [.num ⟨4, "4"⟩]) ∧
    formatIndent ⟨3, 2, false⟩ 0 0 (.arr [.num ⟨4, "4"⟩]) = "[4]" ∧
    ("[4]" : String) ≠ "[\n  4\n]" :=
  ⟨formatIndent_eval (by decide), rfl, formatIndent_eval (by decide), by decide⟩

/-- Claim C6 as amended: on a value all of whose numbers are stable — the
float is an integer and its marshalled literal is that integer's decimal
text, so the `%.f` rendering, the `json.Marshal` literal and the reparse all
agree — formatting IS idempotent: the decoder model reads the output back
(as `orderValue` of the input, the same value with every object listed along
its rendered key order), and formatting that value again reproduces the
first output byte for byte.  The fuel only bounds the reader's descent;
`nodeFuel v` always suffices. -/
theorem claim_C6_amended (o : Opts) (v : JValue) (fuel : Nat)
    (hst : stableNums v = true) (hfuel : nodeFuel v ≤ fuel) :
    parseValue fuel (formatIndent o 0 0 v).data =
      some (orderValue o.sortKeys v, []) ∧
    formatIndent o 0 0 (orderValue o.sortKeys v) = formatIndent o 0 0 v := by
  constructor
  · have h := (parse_format_indent o fuel).1 v 0 0 [] hst hfuel rfl
    rw [List.append_nil] at h
    exact h
  · exact (format_orderValue o (sizeOf v) v (le_refl _)).2 0 0

/-- Witness for the amended C6 at a concrete document. -/
theorem claim_C6_amended_witness :
    parseValue 30 (formatIndent ⟨10, 2, true⟩ 0 0
        (.obj [("b", .num ⟨1, "1"⟩), ("a", .arr [.null, .bool true])])).data =
      some (orderValue (Opts.mk 10 2 true).sortKeys
        (.obj [("b", .num ⟨1, "1"⟩), ("a", .arr [.null, .bool true])]), []) ∧
    formatIndent ⟨10, 2, true⟩ 0 0 (orderValue (Opts.mk 10 2 true).sortKeys
        (.obj [("b", .num ⟨1, "1"⟩), ("a", .arr [.null, .bool true])])) =
      formatIndent ⟨10, 2, true⟩ 0 0
        (.obj [("b", .num ⟨1, "1"⟩), ("a", .arr [.null, .bool true])]) :=
  claim_C6_amended ⟨10, 2, true⟩
    (.obj [("b", .num ⟨1, "1"⟩), ("a", .arr [.null, .bool true])]) 30
    (by decide) (by decide)

end PJ
